import Mathlib

/-!
# File-backed LIFO stack (package fstack): embedding and properties

The Go package keeps a stack of (header, body) byte pairs in one file, as a chain of
blocks: a 40-byte descriptor, the header bytes, the body bytes.  This development
embeds `stack.go` function by function.

Conventions of the embedding

* `uint64` values are natural numbers reduced modulo `2^64`; `int64` and `int` values are
  integers wrapped into `[-2^63, 2^63)` by `int64` and `toInt64`.
* A byte slice is a `List Byte`; a nil slice and an empty slice are both `[]`.
* The operating system is modelled by `FileSys` (the bytes of the one file the stack names,
  and a schedule of injected I/O failures) and `OsFile` (an `*os.File`: cursor, closed flag).
* A Go `error` result is an `Option Errno`, `none` being the nil error.
* The mutex and the `lastAccess` time stamp are not modelled: every operation runs alone.
* The two iteration loops take a `fuel` bound on the number of loop rounds and answer
  `none` when it is exhausted.
-/

namespace FileStack

/-! ## Machine integers -/

abbrev Byte := Fin 256

/-- Conversion to `uint64`: reduction modulo `2^64`. -/
def toUint64 (n : Int) : Nat := (n % 18446744073709551616).toNat

/-- Conversion of a `uint64` to `int64`: values from `2^63` on are negative. -/
def int64 (x : Nat) : Int :=
  if x % 18446744073709551616 < 9223372036854775808 then ((x % 18446744073709551616 : Nat) : Int)
  else ((x % 18446744073709551616 : Nat) : Int) - 18446744073709551616

/-- Wrap of an integer result into `int64` (also Go `int` on 64-bit targets). -/
def toInt64 (n : Int) : Int := int64 (toUint64 n)

/-- Sum of two `uint64` values, wrapping. -/
def addUint64 (a b : Nat) : Nat := (a + b) % 18446744073709551616

/-! ## Operating-system layer -/

/-- Error values the embedded code can observe. `ioError` is an injected failure of a system
call; `makeslice` stands for the run-time panic "makeslice: len out of range" (the call does
not return normally). -/
inductive Errno where
  | EOF
  | ErrUnexpectedEOF
  | ErrClosed
  | EINVAL
  | EFBIG
  | ioError
  | makeslice
  deriving DecidableEq, Repr

/-- One entry of the failure schedule: the next system call either behaves normally or
fails with an I/O error after transferring `n` bytes. -/
inductive Fault where
  | pass
  | fail (n : Nat)
  deriving DecidableEq, Repr

/-- The file named by the stack, and the injected failures of the system calls to come. -/
structure FileSys where
  bytes : List Byte
  faults : List Fault
  deriving DecidableEq, Repr

/-- An `*os.File` handle on that file. -/
structure OsFile where
  closed : Bool
  pos : Nat
  deriving DecidableEq, Repr

inductive Whence where
  | SEEK_SET
  | SEEK_END
  deriving DecidableEq, Repr

/-- Largest file offset (`int64`). -/
def maxOffset : Nat := 9223372036854775807

/-- Take the next entry of the failure schedule; an exhausted schedule means no failure. -/
def FileSys.next (fs : FileSys) : Fault × FileSys :=
  match fs.faults with
  | [] => (Fault.pass, fs)
  | f :: rest => (f, { fs with faults := rest })

/-- Content of a file after writing `b` at offset `p`: a gap past the end is zero-filled,
an empty write changes nothing. -/
def writeAt (c : List Byte) (p : Nat) (b : List Byte) : List Byte :=
  if b = [] then c
  else c.take p ++ List.replicate (p - c.length) 0 ++ b ++ c.drop (p + b.length)

/-- Model of `os.OpenFile(name, O_CREATE|O_RDWR [|O_TRUNC], 0755)`. -/
def OpenFile (trunc : Bool) (fs : FileSys) : (Option OsFile × Option Errno) × FileSys :=
  match fs.next with
  | (Fault.fail _, fs1) => ((none, some Errno.ioError), fs1)
  | (Fault.pass, fs1) =>
    ((some { closed := false, pos := 0 }, none),
      { fs1 with bytes := if trunc then [] else fs1.bytes })

/-- Model of `(*os.File).Seek(offset, whence)`. -/
def OsFile.Seek (f : OsFile) (offset : Int) (whence : Whence) (fs : FileSys) :
    (Int × Option Errno) × OsFile × FileSys :=
  if f.closed then ((0, some Errno.ErrClosed), f, fs)
  else
    match fs.next with
    | (Fault.fail _, fs1) => ((0, some Errno.ioError), f, fs1)
    | (Fault.pass, fs1) =>
      let target : Int :=
        match whence with
        | Whence.SEEK_SET => offset
        | Whence.SEEK_END => (fs1.bytes.length : Int) + offset
      if target < 0 then ((0, some Errno.EINVAL), f, fs1)
      else ((target, none), { f with pos := target.toNat }, fs1)

/-- Model of `(*os.File).Write(b)`: writes at the cursor and advances it. -/
def OsFile.Write (f : OsFile) (b : List Byte) (fs : FileSys) :
    (Nat × Option Errno) × OsFile × FileSys :=
  if f.closed then ((0, some Errno.ErrClosed), f, fs)
  else
    match fs.next with
    | (Fault.fail n, fs1) =>
      let w := b.take (min n (maxOffset - f.pos))
      ((w.length, some Errno.ioError), { f with pos := f.pos + w.length },
        { fs1 with bytes := writeAt fs1.bytes f.pos w })
    | (Fault.pass, fs1) =>
      if f.pos + b.length ≤ maxOffset then
        ((b.length, none), { f with pos := f.pos + b.length },
          { fs1 with bytes := writeAt fs1.bytes f.pos b })
      else
        let w := b.take (maxOffset - f.pos)
        ((w.length, some Errno.EFBIG), { f with pos := f.pos + w.length },
          { fs1 with bytes := writeAt fs1.bytes f.pos w })

/-- Model of `io.ReadFull(f, buf)` with `len(buf) = n`: reads at the cursor. The error is `EOF` only
if no byte was read, and `ErrUnexpectedEOF` if some but not all bytes were read. -/
def OsFile.ReadFull (f : OsFile) (n : Nat) (fs : FileSys) :
    (List Byte × Option Errno) × OsFile × FileSys :=
  if f.closed then (([], some Errno.ErrClosed), f, fs)
  else
    match fs.next with
    | (Fault.fail k, fs1) =>
      let got := (fs1.bytes.drop f.pos).take (min k n)
      ((got, some Errno.ioError), { f with pos := f.pos + got.length }, fs1)
    | (Fault.pass, fs1) =>
      let got := (fs1.bytes.drop f.pos).take n
      if got.length = n then ((got, none), { f with pos := f.pos + n }, fs1)
      else if got.length = 0 then (([], some Errno.EOF), f, fs1)
      else ((got, some Errno.ErrUnexpectedEOF), { f with pos := f.pos + got.length }, fs1)

/-- Model of `(*os.File).ReadAt(buf, off)` with `len(buf) = n`: the cursor is not used. A negative
offset is refused first; an empty buffer is filled without any system call. -/
def OsFile.ReadAt (f : OsFile) (n : Nat) (off : Int) (fs : FileSys) :
    (List Byte × Option Errno) × FileSys :=
  if off < 0 then (([], some Errno.EINVAL), fs)
  else if n = 0 then (([], none), fs)
  else if f.closed then (([], some Errno.ErrClosed), fs)
  else
    match fs.next with
    | (Fault.fail _, fs1) => (([], some Errno.ioError), fs1)
    | (Fault.pass, fs1) =>
      let got := (fs1.bytes.drop off.toNat).take n
      if got.length = n then ((got, none), fs1) else ((got, some Errno.EOF), fs1)

/-- Model of `(*os.File).Truncate(size)`: the cursor is not moved. -/
def OsFile.Truncate (f : OsFile) (size : Int) (fs : FileSys) : Option Errno × FileSys :=
  if f.closed then (some Errno.ErrClosed, fs)
  else
    match fs.next with
    | (Fault.fail _, fs1) => (some Errno.ioError, fs1)
    | (Fault.pass, fs1) =>
      if size < 0 then (some Errno.EINVAL, fs1)
      else
        let n := size.toNat
        (none, { fs1 with bytes := fs1.bytes.take n ++ List.replicate (n - fs1.bytes.length) 0 })

/-- Model of `(*os.File).Close()`: closing a closed handle is an error. -/
def OsFile.Close (f : OsFile) : Option Errno × OsFile :=
  if f.closed then (some Errno.ErrClosed, f) else (none, { f with closed := true })

/-- Content read through `io.NewSectionReader(file, off, n)`: the bytes of the file in
`[off, off + n)`, as far as the file reaches. -/
def sectionBytes (c : List Byte) (off n : Int) : List Byte :=
  if off < 0 ∨ n ≤ 0 then [] else (c.drop off.toNat).take n.toNat

/-! ## Block codec -/

/-- Meta-info before each physical block on fs. -/
structure fileBlock where
  PrevBlock : Nat
  HeaderPoint : Nat
  HeaderSize : Nat
  DataPoint : Nat
  DataSize : Nat
  deriving DecidableEq, Repr

/-- The zero value of `fileBlock`. -/
def fileBlock.zero : fileBlock := ⟨0, 0, 0, 0, 0⟩

def fileBlockDefineSize : Nat := 8 + 8 + 8 + 8 + 8

def byteOf (n : Nat) : Byte := ⟨n % 256, Nat.mod_lt _ (by decide)⟩

/-- Model of `binary.LittleEndian.PutUint64`. -/
def PutUint64 (v : Nat) : List Byte :=
  [byteOf v, byteOf (v / 256), byteOf (v / 65536), byteOf (v / 16777216),
   byteOf (v / 4294967296), byteOf (v / 1099511627776), byteOf (v / 281474976710656),
   byteOf (v / 72057594037927936)]

/-- Little-endian value of a byte string. -/
def leNat : List Byte → Nat
  | [] => 0
  | b :: bs => b.val + 256 * leNat bs

/-- Model of `binary.LittleEndian.Uint64` on the first eight bytes. -/
def Uint64 (b : List Byte) : Nat := leNat (b.take 8) % 18446744073709551616

/-- The 40 bytes `binary.Write(w, binary.LittleEndian, block)` produces. -/
def encodeBlock (fb : fileBlock) : List Byte :=
  PutUint64 fb.PrevBlock ++ PutUint64 fb.HeaderPoint ++ PutUint64 fb.HeaderSize ++
    PutUint64 fb.DataPoint ++ PutUint64 fb.DataSize

/-- The block `binary.Read(r, binary.LittleEndian, &block)` decodes from 40 bytes. -/
def decodeBlock (b : List Byte) : fileBlock :=
  { PrevBlock := Uint64 b
    HeaderPoint := Uint64 (b.drop 8)
    HeaderSize := Uint64 (b.drop 16)
    DataPoint := Uint64 (b.drop 24)
    DataSize := Uint64 (b.drop 32) }

/-- Model of `binary.Read(reader, binary.LittleEndian, &block)`: on error the block stays zero. -/
def binaryRead (f : OsFile) (fs : FileSys) : (fileBlock × Option Errno) × OsFile × FileSys :=
  match f.ReadFull fileBlockDefineSize fs with
  | ((b, none), f1, fs1) => ((decodeBlock b, none), f1, fs1)
  | ((_, some e), f1, fs1) => ((fileBlock.zero, some e), f1, fs1)

/-- Model of `binary.Write(writer, binary.LittleEndian, block)`: one `Write` of the 40 bytes. -/
def binaryWrite (f : OsFile) (fb : fileBlock) (fs : FileSys) : Option Errno × OsFile × FileSys :=
  match f.Write (encodeBlock fb) fs with
  | ((_, e), f1, fs1) => (e, f1, fs1)

/-- Read meta-info at specified place. -/
def readBlockAt (f : OsFile) (offset : Int) (fs : FileSys) :
    (fileBlock × Option Errno) × OsFile × FileSys :=
  match f.Seek offset Whence.SEEK_SET fs with
  | ((_, some e), f1, fs1) => ((fileBlock.zero, some e), f1, fs1)
  | ((_, none), f1, fs1) => binaryRead f1 fs1

/-- Write meta-info to specified place. -/
def fileBlock.writeTo (fb : fileBlock) (f : OsFile) (offset : Int) (fs : FileSys) :
    Option Errno × OsFile × FileSys :=
  match f.Seek offset Whence.SEEK_SET fs with
  | ((_, some e), f1, fs1) => (some e, f1, fs1)
  | ((_, none), f1, fs1) => binaryWrite f1 fb fs1

/-- Calculate next block position. -/
def fileBlock.NextBlockPoint (fb : fileBlock) : Int :=
  int64 (addUint64 fb.DataPoint fb.DataSize)

/-! ## The stack -/

/-- Stack in file (fields `guard`, `fileName` and `lastAccess` left out). -/
structure Stack where
  depth : Int
  currentBlock : fileBlock
  currentBlockPos : Int
  file : Option OsFile
  deriving DecidableEq, Repr

/-- Lazily open the backing file: a handle is opened only when the field is nil. -/
def Stack.getFile (s : Stack) (fs : FileSys) : (Option OsFile × Option Errno) × Stack × FileSys :=
  match s.file with
  | none =>
    match OpenFile false fs with
    | ((some f, _), fs1) => ((some f, none), { s with file := some f }, fs1)
    | ((none, e), fs1) => ((none, e), s, fs1)
  | some f => ((some f, none), s, fs)

/-- Close backend stack file. The `file` field keeps the (now closed) handle. -/
def Stack.Close (s : Stack) : Option Errno × Stack :=
  match s.file with
  | some f =>
    match f.Close with
    | (e, f1) => (e, { s with file := some f1 })
  | none => (none, s)

/-- Whether `make([]byte, n)` succeeds for a `uint64` length: it panics when `n` does not
fit an `int`. -/
def makeOk (n : Nat) : Bool := decide (n ≤ maxOffset)

/-- Push header and body to stack. Returns new value of stack depth. -/
def Stack.Push (header data : List Byte) (s : Stack) (fs : FileSys) :
    (Int × Option Errno) × Stack × FileSys :=
  match s.getFile fs with
  | ((none, e), s1, fs1) => ((-1, e), s1, fs1)
  | ((some file, _), s1, fs1) =>
    -- Seek to place for next block
    match file.Seek s1.currentBlock.NextBlockPoint Whence.SEEK_SET fs1 with
    | ((_, some e), file1, fs2) => ((-1, some e), { s1 with file := some file1 }, fs2)
    | ((currentOffset, none), file1, fs2) =>
      -- Get place for payload
      let bodyOffset := toInt64 (currentOffset + fileBlockDefineSize)
      let block : fileBlock :=
        { PrevBlock := toUint64 s1.currentBlockPos
          HeaderPoint := toUint64 bodyOffset
          HeaderSize := toUint64 header.length
          DataPoint := addUint64 (toUint64 bodyOffset) (toUint64 header.length)
          DataSize := toUint64 data.length }
      -- Write block meta-info
      match binaryWrite file1 block fs2 with
      | (some e, file2, fs3) =>
        match file2.Seek currentOffset Whence.SEEK_SET fs3 with
        | (_, file3, fs4) => ((-1, some e), { s1 with file := some file3 }, fs4)
      | (none, file2, fs3) =>
        -- Write header
        match file2.Write header fs3 with
        | ((_, some e), file3, fs4) =>
          match file3.Seek currentOffset Whence.SEEK_SET fs4 with
          | (_, file4, fs5) => ((-1, some e), { s1 with file := some file4 }, fs5)
        | ((_, none), file3, fs4) =>
          -- Write data
          match file3.Write data fs4 with
          | ((_, some e), file4, fs5) =>
            match file4.Seek currentOffset Whence.SEEK_SET fs5 with
            | (_, file5, fs6) => ((-1, some e), { s1 with file := some file5 }, fs6)
          | ((_, none), file4, fs5) =>
            let depth := toInt64 (s1.depth + 1)
            ((depth, none),
              { depth := depth, currentBlockPos := currentOffset, currentBlock := block,
                file := some file4 }, fs5)

/-- Pop one segment from tail of stack. Returns nil,nil,nil if depth is 0. -/
def Stack.Pop (s : Stack) (fs : FileSys) :
    (List Byte × List Byte × Option Errno) × Stack × FileSys :=
  if s.depth = 0 then (([], [], none), s, fs)
  else
    match s.getFile fs with
    | ((none, e), s1, fs1) => (([], [], e), s1, fs1)
    | ((some file, _), s1, fs1) =>
      if ¬ makeOk s1.currentBlock.DataSize then (([], [], some Errno.makeslice), s1, fs1)
      else if ¬ makeOk s1.currentBlock.HeaderSize then (([], [], some Errno.makeslice), s1, fs1)
      else
        -- Read header
        match file.ReadAt s1.currentBlock.HeaderSize (int64 s1.currentBlock.HeaderPoint) fs1 with
        | ((_, some e), fs2) => (([], [], some e), s1, fs2)
        | ((header, none), fs2) =>
          -- Read data
          match file.ReadAt s1.currentBlock.DataSize (int64 s1.currentBlock.DataPoint) fs2 with
          | ((_, some e), fs3) => (([], [], some e), s1, fs3)
          | ((data, none), fs3) =>
            -- Read new block if current block is not head
            match (if s1.currentBlockPos ≠ 0 then
                readBlockAt file (int64 s1.currentBlock.PrevBlock) fs3
              else ((fileBlock.zero, none), file, fs3)) with
            | ((_, some e), file1, fs4) => (([], [], some e), { s1 with file := some file1 }, fs4)
            | ((newBlock, none), file1, fs4) =>
              -- Remove tail
              match file1.Truncate s1.currentBlockPos fs4 with
              | (some e, fs5) => (([], [], some e), { s1 with file := some file1 }, fs5)
              | (none, fs5) =>
                ((header, data, none),
                  { depth := toInt64 (s1.depth - 1)
                    currentBlockPos := int64 s1.currentBlock.PrevBlock
                    currentBlock := newBlock
                    file := some file1 }, fs5)

/-- Peak of stack - get one segment from stack but not remove. -/
def Stack.Peak (s : Stack) (fs : FileSys) :
    (List Byte × List Byte × Option Errno) × Stack × FileSys :=
  if s.depth = 0 then (([], [], none), s, fs)
  else
    match s.getFile fs with
    | ((none, e), s1, fs1) => (([], [], e), s1, fs1)
    | ((some file, _), s1, fs1) =>
      if ¬ makeOk s1.currentBlock.DataSize then (([], [], some Errno.makeslice), s1, fs1)
      else if ¬ makeOk s1.currentBlock.HeaderSize then (([], [], some Errno.makeslice), s1, fs1)
      else
        -- Read header
        match file.ReadAt s1.currentBlock.HeaderSize (int64 s1.currentBlock.HeaderPoint) fs1 with
        | ((_, some e), fs2) => (([], [], some e), s1, fs2)
        | ((header, none), fs2) =>
          -- Read data
          match file.ReadAt s1.currentBlock.DataSize (int64 s1.currentBlock.DataPoint) fs2 with
          | ((_, some e), fs3) => (([], [], some e), s1, fs3)
          | ((data, none), fs3) => ((header, data, none), s1, fs3)

/-- PeakHeader get only header part from tail segment from stack without remove. -/
def Stack.PeakHeader (s : Stack) (fs : FileSys) : (List Byte × Option Errno) × Stack × FileSys :=
  if s.depth = 0 then (([], none), s, fs)
  else
    match s.getFile fs with
    | ((none, e), s1, fs1) => (([], e), s1, fs1)
    | ((some file, _), s1, fs1) =>
      if ¬ makeOk s1.currentBlock.HeaderSize then (([], some Errno.makeslice), s1, fs1)
      else
        -- Read header
        match file.ReadAt s1.currentBlock.HeaderSize (int64 s1.currentBlock.HeaderPoint) fs1 with
        | ((_, some e), fs2) => (([], some e), s1, fs2)
        | ((header, none), fs2) => ((header, none), s1, fs2)

/-- Depth of stack - count of segments. -/
def Stack.Depth (s : Stack) : Int := s.depth

/-! ## Iteration and repair -/

/-- One invocation of the handler: the index it is given and what its two readers yield. -/
structure Call where
  depth : Int
  header : List Byte
  body : List Byte
  deriving DecidableEq, Repr

/-- Lines written through package `log`. -/
inductive LogLine where
  | dangerBackRef (prev cur : Nat)
  | brokenBackPath (depth : Int)
  | badNextRef (cur : Nat)
  | brokenMeta (pos : Int)
  | cantRead (pos : Int)
  | badBackRef (prev cur : Nat)
  deriving DecidableEq, Repr

/-- The handler argument: nil, or a function of the index and the two readers, given here
what the readers yield. -/
abbrev Handler := Option (Int → List Byte → List Byte → Bool)

/-- What an iteration did: the error it returned, the handler invocations it made in order,
the lines it logged, and the stack and file afterwards. -/
structure IterResult where
  err : Option Errno
  calls : List Call
  logs : List LogLine
  stack : Stack
  fs : FileSys
  deriving DecidableEq, Repr

/-- Local variables of the loop of `IterateBackward`, with the handle and the file. -/
structure BackVars where
  currentBlock : fileBlock
  currentBlockOffset : Nat
  depth : Int
  calls : List Call
  logs : List LogLine
  file : OsFile
  fs : FileSys

/-- Whether `handler != nil && !handler(depth, header, body)` holds. -/
def handlerStops (handler : Handler) (depth : Int) (header body : List Byte) : Bool :=
  match handler with
  | some h => !(h depth header body)
  | none => false

/-- The invocations recorded so far, extended by this one unless the handler is nil. -/
def recordCall (handler : Handler) (calls : List Call) (depth : Int) (header body : List Byte) :
    List Call :=
  match handler with
  | some _ => calls ++ [⟨depth, header, body⟩]
  | none => calls

/-- The `for` loop of `IterateBackward`. The result is `none` when `fuel` rounds did not
reach a `break` or `return`; otherwise the first component tells whether the loop was left
by `return` (with that error) or by `break` (`none`). -/
def backwardLoop (handler : Handler) : Nat → BackVars → Option (Option (Option Errno) × BackVars)
  | 0, _ => none
  | fuel + 1, v =>
    let body := sectionBytes v.fs.bytes (int64 v.currentBlock.DataPoint)
      (int64 v.currentBlock.DataSize)
    let header := sectionBytes v.fs.bytes (int64 v.currentBlock.HeaderPoint)
      (int64 v.currentBlock.HeaderSize)
    let calls := recordCall handler v.calls v.depth header body
    -- invoke block processor
    if handlerStops handler v.depth header body then
      some (some none, { v with calls := calls })
    else
      let logs :=
        if v.currentBlock.PrevBlock > v.currentBlockOffset then
          v.logs ++ [LogLine.dangerBackRef v.currentBlock.PrevBlock v.currentBlockOffset]
        else v.logs
      let depth := toInt64 (v.depth - 1)
      if v.currentBlock.PrevBlock = v.currentBlockOffset then
        -- First block has prev block = 0
        some (none, { v with calls := calls, logs := logs, depth := depth })
      else
        match readBlockAt v.file (int64 v.currentBlock.PrevBlock) v.fs with
        | ((_, some e), file1, fs1) =>
          some (some (some e),
            { v with calls := calls, logs := logs, depth := depth,
                     currentBlockOffset := v.currentBlock.PrevBlock, file := file1, fs := fs1 })
        | ((block, none), file1, fs1) =>
          backwardLoop handler fuel
            { v with calls := calls, logs := logs, depth := depth, currentBlock := block,
                     currentBlockOffset := v.currentBlock.PrevBlock, file := file1, fs := fs1 }

/-- The deferred `file.Seek(0, os.SEEK_END)`; its results are dropped. -/
def deferSeekEnd (f : OsFile) (fs : FileSys) : OsFile × FileSys :=
  (f.Seek 0 Whence.SEEK_END fs).2

/-- IterateBackward - iterate over hole stack segment-by-segment from end to begining. -/
def Stack.IterateBackward (fuel : Nat) (handler : Handler) (s : Stack) (fs : FileSys) :
    Option IterResult :=
  if s.depth = 0 then some ⟨none, [], [], s, fs⟩
  else
    match s.getFile fs with
    | ((none, e), s1, fs1) => some ⟨e, [], [], s1, fs1⟩
    | ((some file, _), s1, fs1) =>
      match backwardLoop handler fuel
          { currentBlock := s1.currentBlock, currentBlockOffset := toUint64 s1.currentBlockPos,
            depth := s1.depth, calls := [], logs := [], file := file, fs := fs1 } with
      | none => none
      | some (some e, v) =>
        match deferSeekEnd v.file v.fs with
        | (file2, fs2) => some ⟨e, v.calls, v.logs, { s1 with file := some file2 }, fs2⟩
      | some (none, v) =>
        let logs := if v.depth ≠ 0 then v.logs ++ [LogLine.brokenBackPath v.depth] else v.logs
        match deferSeekEnd v.file v.fs with
        | (file2, fs2) => some ⟨none, v.calls, logs, { s1 with file := some file2 }, fs2⟩

/-- Local variables of the loop of `IterateForward`, with the handle and the file. -/
structure FwdVars where
  currentBlock : fileBlock
  currentBlockOffset : Nat
  depth : Int
  calls : List Call
  logs : List LogLine
  file : OsFile
  fs : FileSys

/-- The `for` loop of `IterateForward`. The result is `none` when the loop condition still
holds after `fuel` rounds; otherwise the first component tells whether the loop was left by
`return` (with that error) or ended (condition false, or `break`: `none`). -/
def forwardLoop (handler : Handler) (fileSize : Int) :
    Nat → FwdVars → Option (Option (Option Errno) × FwdVars)
  | fuel, v =>
    if ¬ (v.currentBlock.NextBlockPoint < fileSize) then some (none, v)
    else
      match fuel with
      | 0 => none
      | fuel + 1 =>
        let newPos := v.currentBlock.NextBlockPoint
        if newPos > fileSize then
          match v.file.Truncate (int64 v.currentBlockOffset) v.fs with
          | (_, fs1) =>
            some (none, { v with logs := v.logs ++ [LogLine.badNextRef v.currentBlockOffset],
                                 fs := fs1 })
        else
          match readBlockAt v.file newPos v.fs with
          | ((_, some Errno.EOF), file1, fs1) =>
            -- Non-full meta-info?
            match file1.Truncate newPos fs1 with
            | (_, fs2) =>
              some (none, { v with logs := v.logs ++ [LogLine.brokenMeta newPos],
                                   file := file1, fs := fs2 })
          | ((_, some e), file1, fs1) =>
            -- I/O error
            some (some (some e), { v with logs := v.logs ++ [LogLine.cantRead newPos],
                                          file := file1, fs := fs1 })
          | ((block, none), file1, fs1) =>
            -- Check back-ref
            let fixed : fileBlock × List LogLine × OsFile × FileSys :=
              if block.PrevBlock ≠ v.currentBlockOffset then
                let block1 := { block with PrevBlock := v.currentBlockOffset }
                match block1.writeTo file1 newPos fs1 with
                | (_, file2, fs2) =>
                  (block1, v.logs ++ [LogLine.badBackRef block.PrevBlock v.currentBlockOffset],
                    file2, fs2)
              else (block, v.logs, file1, fs1)
            match fixed with
            | (block2, logs, file2, fs2) =>
              -- Update current state
              let body := sectionBytes fs2.bytes (int64 block2.DataPoint)
                (int64 block2.DataSize)
              let header := sectionBytes fs2.bytes (int64 block2.HeaderPoint)
                (int64 block2.HeaderSize)
              let calls := recordCall handler v.calls v.depth header body
              let v1 : FwdVars :=
                { currentBlock := block2, currentBlockOffset := toUint64 newPos,
                  depth := v.depth, calls := calls, logs := logs, file := file2, fs := fs2 }
              -- invoke block processor
              if handlerStops handler v.depth header body then some (some none, v1)
              else forwardLoop handler fileSize fuel { v1 with depth := toInt64 (v.depth + 1) }

/-- IterateForward - iterate over hole stack segment-by-segment from begining to end. If all
segments iterated stack may be repaired. -/
def Stack.IterateForward (fuel : Nat) (handler : Handler) (s : Stack) (fs : FileSys) :
    Option IterResult :=
  match s.getFile fs with
  | ((none, e), s1, fs1) => some ⟨e, [], [], s1, fs1⟩
  | ((some file, _), s1, fs1) =>
    -- Get file size
    match file.Seek 0 Whence.SEEK_END fs1 with
    | ((_, some e), file1, fs2) => some ⟨some e, [], [], { s1 with file := some file1 }, fs2⟩
    | ((fileSize, none), file1, fs2) =>
      match file1.Seek 0 Whence.SEEK_SET fs2 with
      | ((_, some e), file2, fs3) => some ⟨some e, [], [], { s1 with file := some file2 }, fs3⟩
      | ((_, none), file2, fs3) =>
        match forwardLoop handler fileSize fuel
            { currentBlock := fileBlock.zero, currentBlockOffset := 0, depth := 0,
              calls := [], logs := [], file := file2, fs := fs3 } with
        | none => none
        | some (some e, v) =>
          match deferSeekEnd v.file v.fs with
          | (file3, fs4) => some ⟨e, v.calls, v.logs, { s1 with file := some file3 }, fs4⟩
        | some (none, v) =>
          match deferSeekEnd v.file v.fs with
          | (file3, fs4) =>
            some ⟨none, v.calls, v.logs,
              { depth := v.depth, currentBlock := v.currentBlock,
                currentBlockPos := int64 v.currentBlockOffset, file := some file3 }, fs4⟩

/-- Repare stack segements. -/
def Stack.Repare (fuel : Nat) (s : Stack) (fs : FileSys) : Option IterResult :=
  s.IterateForward fuel none fs

/-- NewStack - create new stack based on file. On a repair error the handle is closed and
no stack is returned. -/
def NewStack (fuel : Nat) (file : OsFile) (fs : FileSys) :
    Option ((Option Stack × Option Errno) × FileSys) :=
  let stack : Stack := { depth := 0, currentBlock := fileBlock.zero, currentBlockPos := 0,
                         file := some file }
  match stack.Repare fuel fs with
  | none => none
  | some r =>
    match r.err with
    | some e => some ((none, some e), r.fs)
    | none => some ((some r.stack, none), r.fs)

/-- OpenStack - open or create stack. -/
def OpenStack (fuel : Nat) (fs : FileSys) : Option ((Option Stack × Option Errno) × FileSys) :=
  match OpenFile false fs with
  | ((none, e), fs1) => some ((none, e), fs1)
  | ((some file, _), fs1) => NewStack fuel file fs1

/-- CreateStack - create or truncate stack. -/
def CreateStack (fuel : Nat) (fs : FileSys) : Option ((Option Stack × Option Errno) × FileSys) :=
  match OpenFile true fs with
  | ((none, e), fs1) => some ((none, e), fs1)
  | ((some file, _), fs1) => NewStack fuel file fs1

/-! ## Vocabulary of the statements -/

/-- The part of the state the read-only operations must keep: depth, tail offset, cached
tail descriptor and the bytes of the file (hence its length). -/
def SameVisible (s : Stack) (fs : FileSys) (s1 : Stack) (fs1 : FileSys) : Prop :=
  s1.depth = s.depth ∧ s1.currentBlockPos = s.currentBlockPos ∧
  s1.currentBlock = s.currentBlock ∧ fs1.bytes = fs.bytes ∧
  fs1.bytes.length = fs.bytes.length

/-- All five fields are `uint64` values. -/
def fileBlock.Valid (fb : fileBlock) : Prop :=
  fb.PrevBlock < 18446744073709551616 ∧ fb.HeaderPoint < 18446744073709551616 ∧
  fb.HeaderSize < 18446744073709551616 ∧ fb.DataPoint < 18446744073709551616 ∧
  fb.DataSize < 18446744073709551616

/-- A stack entry: header and body. -/
abbrev Entry := List Byte × List Byte

/-- Bytes one entry takes in the file. -/
def blockLen (e : Entry) : Nat := fileBlockDefineSize + e.1.length + e.2.length

/-- Bytes all the entries take in the file. -/
def blocksSize (es : List Entry) : Nat := (es.map blockLen).sum

/-- Offset of the newest block, for entries listed newest first. -/
def tailPos : List Entry → Nat
  | [] => 0
  | _ :: rest => blocksSize rest

/-- Descriptor of the newest block, for entries listed newest first. -/
def tailBlock : List Entry → fileBlock
  | [] => fileBlock.zero
  | e :: rest =>
    { PrevBlock := tailPos rest
      HeaderPoint := blocksSize rest + fileBlockDefineSize
      HeaderSize := e.1.length
      DataPoint := blocksSize rest + fileBlockDefineSize + e.1.length
      DataSize := e.2.length }

/-- File content, for entries listed newest first. -/
def layout : List Entry → List Byte
  | [] => []
  | e :: rest => layout rest ++ encodeBlock (tailBlock (e :: rest)) ++ e.1 ++ e.2

/-- In-memory state after pushing the entries (listed newest first), cursor at `p`. -/
def canonStack (st : List Entry) (p : Nat) : Stack :=
  { depth := st.length, currentBlock := tailBlock st, currentBlockPos := tailPos st,
    file := some ⟨false, p⟩ }

/-- File after pushing the entries (listed newest first), no failure scheduled. -/
def canonFs (st : List Entry) : FileSys := ⟨layout st, []⟩

/-- Handler invocations recorded while visiting the entries (oldest first) from index `n`. -/
def recordFrom (handler : Handler) (calls : List Call) : Nat → List Entry → List Call
  | _, [] => calls
  | n, e :: es => recordFrom handler (recordCall handler calls (n : Int) e.1 e.2) (n + 1) es

/-- Loop variables of the forward scan once the entries `done` (newest first) are visited. -/
def fwdAt (done : List Entry) (calls : List Call) (q : Nat) (c : List Byte) : FwdVars :=
  { currentBlock := tailBlock done, currentBlockOffset := tailPos done, depth := done.length,
    calls := calls, logs := [], file := ⟨false, q⟩, fs := ⟨c, []⟩ }

/-- Push the entries in order; the results of the calls, then the state reached. -/
def pushAll : List Entry → Stack → FileSys → List (Int × Option Errno) × Stack × FileSys
  | [], s, fs => ([], s, fs)
  | e :: es, s, fs =>
    let r := s.Push e.1 e.2 fs
    let rest := pushAll es r.2.1 r.2.2
    (r.1 :: rest.1, rest.2)

/-- Pop `n` times; the result of each call with the `Depth()` read after it, then the state
reached. -/
def popN : Nat → Stack → FileSys →
    List ((List Byte × List Byte × Option Errno) × Int) × Stack × FileSys
  | 0, s, fs => ([], s, fs)
  | n + 1, s, fs =>
    let r := s.Pop fs
    let rest := popN n r.2.1 r.2.2
    ((r.1, r.2.1.Depth) :: rest.1, rest.2)

/-- What `n` pops of a stack holding `top` (newest first) above `base` older entries give:
each entry with the depth left after its pop. -/
def popResults : List Entry → Nat → List ((List Byte × List Byte × Option Errno) × Int)
  | [], _ => []
  | e :: rest, base => ((e.1, e.2, none), ((rest.length + base : Nat) : Int)) ::
      popResults rest base

/-- Handler invocations recorded while walking the entries (newest first) back to the head. -/
def recordBack (handler : Handler) (calls : List Call) : List Entry → List Call
  | [] => calls
  | e :: rest =>
    recordBack handler (recordCall handler calls ((rest.length + 1 : Nat) : Int) e.1 e.2) rest

/-- The invocation the handler receives for each entry in turn, numbered from `n`. -/
def callsFrom : Nat → List Entry → List Call
  | _, [] => []
  | n, e :: es => ⟨(n : Int), e.1, e.2⟩ :: callsFrom (n + 1) es

/-- Two entries used to instantiate the statements; the second has an empty header. -/
def twoEntries : List Entry := [([1, 2], [3, 4, 5]), ([], [7])]

/-- The stack `CreateStack` returns: depth 0, zero descriptor, open handle at offset 0. -/
def freshStack : Stack := ⟨0, fileBlock.zero, 0, some ⟨false, 0⟩⟩

/-- Stack and file after one `Push([1], [2])` on the fresh stack. -/
def pushedOnce : Stack × FileSys := (freshStack.Push [1] [2] ⟨[], []⟩).2

/-- That stack after `Close()`. -/
def closedOnce : Stack := pushedOnce.1.Close.2

/-- One complete block (header `[1]`, body `[2]`: 42 bytes) followed by three bytes of a
descriptor whose write was interrupted. -/
def tornDescriptorFile : List Byte :=
  [0, 0, 0, 0, 0, 0, 0, 0, 40, 0, 0, 0, 0, 0, 0, 0, 1, 0, 0, 0, 0, 0, 0, 0,
   41, 0, 0, 0, 0, 0, 0, 0, 1, 0, 0, 0, 0, 0, 0, 0, 1, 2, 0, 0, 0]

/-- A complete descriptor (prev 0, header at 40 of size 0, body at 40 of size 5) followed by
only two of the five body bytes it declares. -/
def danglingBlockFile : List Byte :=
  [0, 0, 0, 0, 0, 0, 0, 0, 40, 0, 0, 0, 0, 0, 0, 0, 0, 0, 0, 0, 0, 0, 0, 0,
   40, 0, 0, 0, 0, 0, 0, 0, 5, 0, 0, 0, 0, 0, 0, 0, 1, 2]

/-- The same file with no failure scheduled. -/
def FileSys.quiet (fs : FileSys) : FileSys := ⟨fs.bytes, []⟩

/-- States reachable from a freshly created stack by calls of `Push`, `Pop`, `Peak` and
`PeakHeader` that returned a nil error. The index lists the pushes not yet popped, newest
first. -/
inductive Reachable : List Entry → Stack → FileSys → Prop where
  | fresh (fuel : Nat) (fs0 fs : FileSys) (s : Stack) :
      CreateStack fuel fs0 = some ((some s, none), fs) → Reachable [] s fs
  | push (st : List Entry) (s : Stack) (fs : FileSys) (h b : List Byte) (d : Int)
      (s1 : Stack) (fs1 : FileSys) :
      Reachable st s fs → s.Push h b fs = ((d, none), s1, fs1) →
      Reachable ((h, b) :: st) s1 fs1
  | pop (st : List Entry) (s : Stack) (fs : FileSys) (h b : List Byte)
      (s1 : Stack) (fs1 : FileSys) :
      Reachable st s fs → s.Pop fs = ((h, b, none), s1, fs1) → Reachable st.tail s1 fs1
  | peak (st : List Entry) (s : Stack) (fs : FileSys) (h b : List Byte)
      (s1 : Stack) (fs1 : FileSys) :
      Reachable st s fs → s.Peak fs = ((h, b, none), s1, fs1) → Reachable st s1 fs1
  | peakHeader (st : List Entry) (s : Stack) (fs : FileSys) (h : List Byte)
      (s1 : Stack) (fs1 : FileSys) :
      Reachable st s fs → s.PeakHeader fs = ((h, none), s1, fs1) → Reachable st s1 fs1

/-- The call that led from `fs` to `fs1` took `k` entries of the failure schedule, none of
them a failure. -/
def Uses (k : Nat) (fs fs1 : FileSys) : Prop :=
  fs1.faults = fs.faults.drop k ∧ ∀ i, i < k → ∀ n, fs.faults[i]? ≠ some (Fault.fail n)

/-- Number of system calls of a `Pop` on an open handle that runs to its end: the header
read and the body read (none for an empty buffer), the seek and the read of the previous
descriptor (unless the tail is at offset 0), and the truncation. -/
def popCalls (s : Stack) : Nat :=
  (if s.currentBlock.HeaderSize = 0 then 0 else 1) +
    (if s.currentBlock.DataSize = 0 then 0 else 1) +
    (if s.currentBlockPos = 0 then 0 else 2) + 1

/-- A file of one descriptor whose forty bytes are all zero: its bodyOffset + bodySize is 0,
its own offset. -/
def zeroBlockFile : List Byte := List.replicate 40 0

/-- A stack of depth 0 over an empty file whose cached descriptor is not the zero
descriptor: it declares a body ending at offset 5. -/
def gapStack : Stack := ⟨0, ⟨0, 0, 0, 5, 0⟩, 0, some ⟨false, 0⟩⟩

/-- A file that is a contiguous sequence of complete blocks, oldest first, the first of them
at offset `off`: each descriptor carries the right header and body offsets and sizes and
the given prevBlockOffset value. -/
def rawLayout (off : Nat) : List (Nat × Entry) → List Byte
  | [] => []
  | (pv, e) :: rest =>
    encodeBlock ⟨pv, off + fileBlockDefineSize, e.1.length,
        off + fileBlockDefineSize + e.1.length, e.2.length⟩ ++ e.1 ++ e.2 ++
      rawLayout (off + blockLen e) rest

/-- The same blocks with each prevBlockOffset set to the offset of the block before it, and
to `prev` for the first; `off` is the offset of the first block. -/
def fixedPrev (prev off : Nat) : List (Nat × Entry) → List (Nat × Entry)
  | [] => []
  | (_, e) :: rest => (prev, e) :: fixedPrev off (off + blockLen e) rest

/-- Loop variables of the repair scan once the entries `done` (newest first) are visited. -/
def fwdVars (done : List Entry) (logs : List LogLine) (q : Nat) (old : List Byte) : FwdVars :=
  { currentBlock := tailBlock done, currentBlockOffset := tailPos done, depth := done.length,
    calls := [], logs := logs, file := ⟨false, q⟩, fs := ⟨old, []⟩ }

/-- Two complete blocks whose prevBlockOffset values (7 and 99) are both wrong. -/
def staleBlocks : List (Nat × Entry) := [(7, ([1], [2])), (99, ([], [7]))]

/-- The state `OpenStack` commits for `danglingBlockFile`: depth 1, the tail descriptor
declares a body of five bytes at offset 40 while the file holds 42 bytes. -/
def danglingStack : Stack := ⟨1, ⟨0, 40, 0, 40, 5⟩, 0, some ⟨false, 42⟩⟩

/-! ## Frame lemmas of the operating-system layer -/

theorem next_bytes (fs : FileSys) : fs.next.2.bytes = fs.bytes := by
  unfold FileSys.next
  split <;> rfl

theorem ReadAt_bytes (f : OsFile) (n : Nat) (off : Int) (fs : FileSys) :
    (f.ReadAt n off fs).2.bytes = fs.bytes := by
  have h := next_bytes fs
  unfold OsFile.ReadAt
  rcases hn : fs.next with ⟨_ | k, fs1⟩ <;> rw [hn] at h <;> simp only at h <;> simp only <;>
    split_ifs <;> first | rfl | exact h

theorem OpenFile_keep_bytes (fs : FileSys) : (OpenFile false fs).2.bytes = fs.bytes := by
  have h := next_bytes fs
  unfold OpenFile
  rcases hn : fs.next with ⟨_ | k, fs1⟩ <;> rw [hn] at h <;> simp_all

theorem SameVisible.of_bytes {s : Stack} {fs : FileSys} {s1 : Stack} {fs1 : FileSys}
    (h1 : s1.depth = s.depth) (h2 : s1.currentBlockPos = s.currentBlockPos)
    (h3 : s1.currentBlock = s.currentBlock) (h4 : fs1.bytes = fs.bytes) :
    SameVisible s fs s1 fs1 := ⟨h1, h2, h3, h4, by rw [h4]⟩

theorem getFile_frame (s : Stack) (fs : FileSys) :
    SameVisible s fs (s.getFile fs).2.1 (s.getFile fs).2.2 := by
  have h := OpenFile_keep_bytes fs
  unfold Stack.getFile
  rcases hf : s.file with _ | f
  · rcases ho : OpenFile false fs with ⟨⟨_ | f, e⟩, fs1⟩ <;> rw [ho] at h <;>
      exact SameVisible.of_bytes rfl rfl rfl h
  · exact SameVisible.of_bytes rfl rfl rfl rfl

/-! ## Reads of the tail -/

theorem Peak_frame (s : Stack) (fs : FileSys) :
    SameVisible s fs (s.Peak fs).2.1 (s.Peak fs).2.2 := by
  obtain ⟨g1, g2, g3, g4, -⟩ := getFile_frame s fs
  unfold Stack.Peak
  by_cases hd : s.depth = 0
  · rw [if_pos hd]
    exact SameVisible.of_bytes rfl rfl rfl rfl
  · rw [if_neg hd]
    rcases hg : s.getFile fs with ⟨⟨_ | file, e⟩, s1, fs1⟩ <;> rw [hg] at g1 g2 g3 g4
    · exact SameVisible.of_bytes g1 g2 g3 g4
    · simp only
      by_cases hm1 : makeOk s1.currentBlock.DataSize = true
      swap
      · rw [if_pos hm1]
        exact SameVisible.of_bytes g1 g2 g3 g4
      rw [if_neg (not_not_intro hm1)]
      by_cases hm2 : makeOk s1.currentBlock.HeaderSize = true
      swap
      · rw [if_pos hm2]
        exact SameVisible.of_bytes g1 g2 g3 g4
      rw [if_neg (not_not_intro hm2)]
      · have r1 := ReadAt_bytes file s1.currentBlock.HeaderSize
          (int64 s1.currentBlock.HeaderPoint) fs1
        rcases h1 : file.ReadAt s1.currentBlock.HeaderSize
          (int64 s1.currentBlock.HeaderPoint) fs1 with ⟨⟨hdr, _ | e1⟩, fs2⟩ <;>
          rw [h1] at r1 <;> simp only at r1 ⊢
        · have r2 := ReadAt_bytes file s1.currentBlock.DataSize
            (int64 s1.currentBlock.DataPoint) fs2
          rcases h2 : file.ReadAt s1.currentBlock.DataSize
            (int64 s1.currentBlock.DataPoint) fs2 with ⟨⟨dat, _ | e2⟩, fs3⟩ <;>
            rw [h2] at r2 <;> simp only at r2 ⊢ <;>
            exact SameVisible.of_bytes g1 g2 g3 (r2.trans (r1.trans g4))
        · exact SameVisible.of_bytes g1 g2 g3 (r1.trans g4)

theorem PeakHeader_frame (s : Stack) (fs : FileSys) :
    SameVisible s fs (s.PeakHeader fs).2.1 (s.PeakHeader fs).2.2 := by
  obtain ⟨g1, g2, g3, g4, -⟩ := getFile_frame s fs
  unfold Stack.PeakHeader
  by_cases hd : s.depth = 0
  · rw [if_pos hd]
    exact SameVisible.of_bytes rfl rfl rfl rfl
  · rw [if_neg hd]
    rcases hg : s.getFile fs with ⟨⟨_ | file, e⟩, s1, fs1⟩ <;> rw [hg] at g1 g2 g3 g4
    · exact SameVisible.of_bytes g1 g2 g3 g4
    · simp only
      by_cases hm2 : makeOk s1.currentBlock.HeaderSize = true
      swap
      · rw [if_pos hm2]
        exact SameVisible.of_bytes g1 g2 g3 g4
      rw [if_neg (not_not_intro hm2)]
      · have r1 := ReadAt_bytes file s1.currentBlock.HeaderSize
          (int64 s1.currentBlock.HeaderPoint) fs1
        rcases h1 : file.ReadAt s1.currentBlock.HeaderSize
          (int64 s1.currentBlock.HeaderPoint) fs1 with ⟨⟨hdr, _ | e1⟩, fs2⟩ <;>
          rw [h1] at r1 <;> simp only at r1 ⊢ <;>
          exact SameVisible.of_bytes g1 g2 g3 (r1.trans g4)

/-! ## Integer conversions in range -/

theorem int64_of_le (x : Nat) (h : x ≤ maxOffset) : int64 x = (x : Int) := by
  unfold maxOffset at h
  unfold int64
  have h1 : x % 18446744073709551616 = x := Nat.mod_eq_of_lt (by omega)
  rw [h1, if_pos (by omega)]

theorem toUint64_natCast (x : Nat) (h : x ≤ maxOffset) : toUint64 (x : Int) = x := by
  unfold maxOffset at h
  unfold toUint64
  omega

theorem toInt64_natCast (x : Nat) (h : x ≤ maxOffset) : toInt64 (x : Int) = (x : Int) := by
  unfold toInt64
  rw [toUint64_natCast x h, int64_of_le x h]

theorem addUint64_of_le (a b : Nat) (h : a + b ≤ maxOffset) : addUint64 a b = a + b := by
  unfold maxOffset at h
  unfold addUint64
  omega

/-! ## System calls that succeed -/

theorem Seek_set_ok (p n : Nat) (c : List Byte) :
    (⟨false, p⟩ : OsFile).Seek (n : Int) Whence.SEEK_SET ⟨c, []⟩ =
      (((n : Int), none), ⟨false, n⟩, ⟨c, []⟩) := by
  simp [OsFile.Seek, FileSys.next]

theorem Seek_end_ok (p : Nat) (c : List Byte) :
    (⟨false, p⟩ : OsFile).Seek 0 Whence.SEEK_END ⟨c, []⟩ =
      (((c.length : Int), none), ⟨false, c.length⟩, ⟨c, []⟩) := by
  simp [OsFile.Seek, FileSys.next]

theorem writeAt_end (c b : List Byte) : writeAt c c.length b = c ++ b := by
  unfold writeAt
  split_ifs with h
  · simp [h]
  · simp

theorem Write_end_ok (c b : List Byte) (h : c.length + b.length ≤ maxOffset) :
    (⟨false, c.length⟩ : OsFile).Write b ⟨c, []⟩ =
      ((b.length, none), ⟨false, c.length + b.length⟩, ⟨c ++ b, []⟩) := by
  simp [OsFile.Write, FileSys.next, h, writeAt_end]

theorem ReadFull_ok (p n : Nat) (c : List Byte) (h : p + n ≤ c.length) :
    (⟨false, p⟩ : OsFile).ReadFull n ⟨c, []⟩ =
      (((c.drop p).take n, none), ⟨false, p + n⟩, ⟨c, []⟩) := by
  have hl : ((c.drop p).take n).length = n := by
    rw [List.length_take, List.length_drop]
    omega
  simp only [OsFile.ReadFull, FileSys.next, hl]
  simp

theorem ReadAt_ok (f : OsFile) (hf : f.closed = false) (p n : Nat) (c : List Byte)
    (h : p + n ≤ c.length) :
    f.ReadAt n (p : Int) ⟨c, []⟩ = (((c.drop p).take n, none), ⟨c, []⟩) := by
  have hl : ((c.drop p).take n).length = n := by
    rw [List.length_take, List.length_drop]
    omega
  by_cases hn : n = 0
  · subst hn
    simp [OsFile.ReadAt]
  · have hp : ¬ ((p : Int) < 0) := by omega
    have hle : n ≤ c.length - p := by omega
    simp [OsFile.ReadAt, FileSys.next, hf, hn, hp, hle]

theorem Truncate_ok (f : OsFile) (hf : f.closed = false) (n : Nat) (c : List Byte)
    (h : n ≤ c.length) :
    f.Truncate (n : Int) ⟨c, []⟩ = (none, ⟨c.take n, []⟩) := by
  simp [OsFile.Truncate, FileSys.next, hf, Nat.sub_eq_zero_of_le h]

/-! ## Block codec round trip -/

theorem PutUint64_length (v : Nat) : (PutUint64 v).length = 8 := rfl

theorem encodeBlock_length (fb : fileBlock) : (encodeBlock fb).length = 40 := rfl

theorem Uint64_PutUint64 (v : Nat) (rest : List Byte) :
    Uint64 (PutUint64 v ++ rest) = v % 18446744073709551616 := by
  simp only [Uint64, PutUint64, List.cons_append, List.nil_append, List.take_succ_cons,
    List.take_zero, leNat, byteOf]
  omega

theorem decodeBlock_encodeBlock (fb : fileBlock) (h : fb.Valid) :
    decodeBlock (encodeBlock fb) = fb := by
  obtain ⟨h1, h2, h3, h4, h5⟩ := h
  cases fb with
  | mk p hp hs dp ds =>
    simp only at h1 h2 h3 h4 h5
    simp only [decodeBlock, encodeBlock, List.append_assoc]
    have e1 : ∀ (v : Nat) (a : List Byte), List.drop 8 (PutUint64 v ++ a) = a := fun _ _ => rfl
    have e2 : ∀ (v w : Nat) (a : List Byte),
        List.drop 16 (PutUint64 v ++ (PutUint64 w ++ a)) = a := fun _ _ _ => rfl
    have e3 : ∀ (v w x : Nat) (a : List Byte),
        List.drop 24 (PutUint64 v ++ (PutUint64 w ++ (PutUint64 x ++ a))) = a :=
      fun _ _ _ _ => rfl
    have e4 : ∀ (v w x y : Nat) (a : List Byte),
        List.drop 32 (PutUint64 v ++ (PutUint64 w ++ (PutUint64 x ++ (PutUint64 y ++ a)))) = a :=
      fun _ _ _ _ _ => rfl
    rw [e1, e2, e3, e4]
    have e5 : PutUint64 ds = PutUint64 ds ++ [] := (List.append_nil _).symm
    rw [e5]
    simp only [Uint64_PutUint64]
    rw [Nat.mod_eq_of_lt h1, Nat.mod_eq_of_lt h2, Nat.mod_eq_of_lt h3, Nat.mod_eq_of_lt h4,
      Nat.mod_eq_of_lt h5]

/-! ## The file a sequence of pushes builds -/

theorem blocksSize_cons (e : Entry) (st : List Entry) :
    blocksSize (e :: st) = blocksSize st + fileBlockDefineSize + e.1.length + e.2.length := by
  simp only [blocksSize, List.map_cons, List.sum_cons, blockLen]
  omega

theorem layout_length (st : List Entry) : (layout st).length = blocksSize st := by
  induction st with
  | nil => rfl
  | cons e rest ih =>
    simp only [layout, List.length_append, ih, encodeBlock_length, blocksSize_cons,
      fileBlockDefineSize]

theorem tailPos_le (st : List Entry) : tailPos st ≤ blocksSize st := by
  cases st with
  | nil => exact Nat.le_refl _
  | cons e rest =>
    simp only [tailPos, blocksSize_cons]
    omega

theorem NextBlockPoint_tailBlock (st : List Entry) (h : blocksSize st ≤ maxOffset) :
    (tailBlock st).NextBlockPoint = (blocksSize st : Int) := by
  cases st with
  | nil => decide
  | cons e rest =>
    rw [blocksSize_cons] at h ⊢
    simp only [fileBlock.NextBlockPoint, tailBlock]
    rw [addUint64_of_le _ _ h, int64_of_le _ h]

theorem tailBlock_valid (st : List Entry) (h : blocksSize st ≤ maxOffset) :
    (tailBlock st).Valid := by
  cases st with
  | nil => simp [fileBlock.Valid, tailBlock, fileBlock.zero]
  | cons e rest =>
    have hp := tailPos_le rest
    rw [blocksSize_cons] at h
    unfold maxOffset at h
    simp only [fileBlock.Valid, tailBlock]
    omega

/-! ## Push and Pop on the canonical state -/

theorem toInt64_add_natCast (a b : Nat) (h : a + b ≤ maxOffset) :
    toInt64 ((a : Int) + (b : Int)) = ((a + b : Nat) : Int) := by
  rw [← Nat.cast_add, toInt64_natCast _ h]

theorem toInt64_succ (n : Nat) (h : n + 1 ≤ maxOffset) :
    toInt64 ((n : Int) + 1) = ((n + 1 : Nat) : Int) := by
  have := toInt64_add_natCast n 1 h
  simpa using this

theorem toInt64_pred (n : Nat) (h : n + 1 ≤ maxOffset) :
    toInt64 (((n + 1 : Nat) : Int) - 1) = (n : Int) := by
  have e : ((n + 1 : Nat) : Int) - 1 = (n : Int) := by omega
  rw [e, toInt64_natCast _ (by omega)]

theorem length_le_blocksSize (st : List Entry) : st.length ≤ blocksSize st := by
  induction st with
  | nil => exact Nat.le_refl _
  | cons e rest ih =>
    rw [blocksSize_cons]
    simp only [List.length_cons, fileBlockDefineSize]
    omega

theorem Write_at_end (c b : List Byte) (p : Nat) (hp : p = c.length)
    (h : p + b.length ≤ maxOffset) :
    (⟨false, p⟩ : OsFile).Write b ⟨c, []⟩ =
      ((b.length, none), ⟨false, p + b.length⟩, ⟨c ++ b, []⟩) := by
  subst hp
  exact Write_end_ok c b h

theorem Push_canon (st : List Entry) (p : Nat) (h b : List Byte)
    (hfit : blocksSize ((h, b) :: st) ≤ maxOffset) :
    (canonStack st p).Push h b (canonFs st) =
      ((((st.length + 1 : Nat) : Int), none),
        canonStack ((h, b) :: st) (blocksSize ((h, b) :: st)), canonFs ((h, b) :: st)) := by
  have hsz := blocksSize_cons (h, b) st
  simp only at hsz
  have h40 : fileBlockDefineSize = 40 := rfl
  have hst : blocksSize st ≤ maxOffset := by omega
  have hpos := tailPos_le st
  have hlen := length_le_blocksSize st
  have hll := layout_length st
  unfold Stack.Push
  simp only [canonStack, canonFs, Stack.getFile]
  rw [NextBlockPoint_tailBlock st hst, Seek_set_ok]
  simp only
  rw [toInt64_add_natCast _ _ (by omega), toUint64_natCast (tailPos st) (by omega),
    toUint64_natCast (blocksSize st + fileBlockDefineSize) (by omega),
    toUint64_natCast h.length (by omega), toUint64_natCast b.length (by omega),
    addUint64_of_le _ _ (by omega), toInt64_succ _ (by omega)]
  unfold binaryWrite
  rw [Write_at_end _ _ _ hll.symm (by rw [encodeBlock_length]; omega)]
  simp only
  rw [Write_at_end _ _ _ (by rw [List.length_append, encodeBlock_length, hll])
    (by rw [encodeBlock_length]; omega)]
  simp only
  rw [Write_at_end _ _ _
    (by rw [List.length_append, List.length_append, encodeBlock_length, hll])
    (by rw [encodeBlock_length]; omega)]
  simp only [tailBlock, tailPos, layout, List.length_cons, encodeBlock_length, hsz, h40]

theorem slice_eq {α : Type} (c a m z : List α) (p n : Nat) (hc : c = a ++ m ++ z)
    (hp : p = a.length) (hn : n = m.length) : (c.drop p).take n = m := by
  subst hc hp hn
  simp

theorem take_eq_left {α : Type} (c a z : List α) (p : Nat) (hc : c = a ++ z)
    (hp : p = a.length) : c.take p = a := by
  subst hc hp
  simp

theorem tailPos_cons (e : Entry) (st : List Entry) : tailPos (e :: st) = blocksSize st := rfl

theorem tailBlock_cons (e : Entry) (st : List Entry) :
    tailBlock (e :: st) =
      { PrevBlock := tailPos st
        HeaderPoint := blocksSize st + fileBlockDefineSize
        HeaderSize := e.1.length
        DataPoint := blocksSize st + fileBlockDefineSize + e.1.length
        DataSize := e.2.length } := rfl

theorem blocksSize_pos_of_cons (e : Entry) (st : List Entry) : 0 < blocksSize (e :: st) := by
  rw [blocksSize_cons]
  simp only [fileBlockDefineSize]
  omega

theorem readBlockAt_canon (st : List Entry) (z : List Byte) (p : Nat)
    (hfit : blocksSize st ≤ maxOffset) (hne : st ≠ []) :
    readBlockAt ⟨false, p⟩ (tailPos st : Int) ⟨layout st ++ z, []⟩ =
      ((tailBlock st, none), ⟨false, tailPos st + fileBlockDefineSize⟩,
        ⟨layout st ++ z, []⟩) := by
  cases st with
  | nil => exact absurd rfl hne
  | cons e rest =>
    have hsz := blocksSize_cons e rest
    have h40 : fileBlockDefineSize = 40 := rfl
    have hll := layout_length rest
    have hl2 := layout_length (e :: rest)
    unfold readBlockAt
    rw [Seek_set_ok]
    simp only
    unfold binaryRead
    rw [ReadFull_ok _ _ _ (by rw [List.length_append, hl2]; simp only [tailPos]; omega)]
    simp only
    rw [slice_eq _ (layout rest) (encodeBlock (tailBlock (e :: rest))) (e.1 ++ e.2 ++ z)
      _ _ (by simp only [layout, List.append_assoc]) (by rw [hll]; rfl)
      (by rw [encodeBlock_length]; rfl),
      decodeBlock_encodeBlock _ (tailBlock_valid _ hfit)]

theorem Pop_canon (st : List Entry) (p : Nat) (h b : List Byte)
    (hfit : blocksSize ((h, b) :: st) ≤ maxOffset) :
    ∃ q, (canonStack ((h, b) :: st) p).Pop (canonFs ((h, b) :: st)) =
      ((h, b, none), canonStack st q, canonFs st) := by
  have hsz := blocksSize_cons (h, b) st
  simp only at hsz
  have h40 : fileBlockDefineSize = 40 := rfl
  have hst : blocksSize st ≤ maxOffset := by omega
  have hpos := tailPos_le st
  have hlen := length_le_blocksSize st
  have hll := layout_length st
  have hl2 := layout_length ((h, b) :: st)
  have hd : ¬ (((st.length + 1 : Nat) : Int) = 0) := by omega
  have hm1 : makeOk b.length = true := by
    simp only [makeOk, decide_eq_true_eq]
    omega
  have hm2 : makeOk h.length = true := by
    simp only [makeOk, decide_eq_true_eq]
    omega
  unfold Stack.Pop
  simp only [canonStack, canonFs, Stack.getFile, tailBlock_cons, tailPos_cons, List.length_cons]
  rw [if_neg hd, if_neg (not_not_intro hm1), if_neg (not_not_intro hm2),
    int64_of_le _ (by omega), int64_of_le _ (by omega), int64_of_le _ (by omega)]
  rw [ReadAt_ok _ rfl _ _ _ (by rw [hl2]; omega)]
  simp only
  rw [ReadAt_ok _ rfl _ _ _ (by rw [hl2]; omega)]
  simp only
  have hH : List.take h.length
      (List.drop (blocksSize st + fileBlockDefineSize) (layout ((h, b) :: st))) = h :=
    slice_eq _ (layout st ++ encodeBlock (tailBlock ((h, b) :: st))) h b _ _ rfl
      (by rw [List.length_append, encodeBlock_length, hll, h40]) rfl
  have hB : List.take b.length
      (List.drop (blocksSize st + fileBlockDefineSize + h.length) (layout ((h, b) :: st))) = b :=
    slice_eq _ (layout st ++ encodeBlock (tailBlock ((h, b) :: st)) ++ h) b [] _ _
      (List.append_nil _).symm
      (by rw [List.length_append, List.length_append, encodeBlock_length, hll, h40]) rfl
  have hT : List.take (blocksSize st) (layout ((h, b) :: st)) = layout st :=
    take_eq_left _ (layout st) (encodeBlock (tailBlock ((h, b) :: st)) ++ h ++ b) _
      (by simp only [layout, List.append_assoc]) hll.symm
  rw [hH, hB, toInt64_pred _ (by omega)]
  by_cases hne : st = []
  · subst hne
    refine ⟨p, ?_⟩
    have h0 : ¬ (((blocksSize ([] : List Entry) : Nat) : Int) ≠ 0) := by decide
    rw [if_neg h0]
    simp only
    rw [Truncate_ok _ rfl _ _ (by rw [hl2]; omega), hT]
    rfl
  · refine ⟨tailPos st + fileBlockDefineSize, ?_⟩
    obtain ⟨e, rest, rfl⟩ := List.exists_cons_of_ne_nil hne
    have hp := blocksSize_pos_of_cons e rest
    have h1 : ((blocksSize (e :: rest) : Nat) : Int) ≠ 0 := by omega
    rw [if_pos h1]
    have hz : layout ((h, b) :: e :: rest) =
        layout (e :: rest) ++ (encodeBlock (tailBlock ((h, b) :: e :: rest)) ++ h ++ b) := by
      simp only [layout, List.append_assoc]
    rw [hz, readBlockAt_canon _ _ _ hst hne]
    simp only
    rw [← hz, Truncate_ok _ rfl _ _ (by rw [hl2]; omega), hT]

/-! ## The forward scan on the canonical file -/

theorem blocksSize_append (xs ys : List Entry) :
    blocksSize (xs ++ ys) = blocksSize xs + blocksSize ys := by
  simp only [blocksSize, List.map_append, List.sum_append]

theorem layout_append (xs ys : List Entry) : ∃ z, layout (xs ++ ys) = layout ys ++ z := by
  induction xs with
  | nil => exact ⟨[], (List.append_nil _).symm⟩
  | cons x xs ih =>
    obtain ⟨z, hz⟩ := ih
    refine ⟨z ++ encodeBlock (tailBlock (x :: (xs ++ ys))) ++ x.1 ++ x.2, ?_⟩
    show layout (x :: (xs ++ ys)) = _
    simp only [layout, hz, List.append_assoc]

theorem sectionBytes_natCast (c : List Byte) (p n : Nat) :
    sectionBytes c (p : Int) (n : Int) = (c.drop p).take n := by
  unfold sectionBytes
  by_cases hn : n = 0
  · subst hn
    simp
  · have h1 : ¬ ((p : Int) < 0 ∨ (n : Int) ≤ 0) := by omega
    rw [if_neg h1]
    simp

theorem forwardLoop_step (handler : Handler)
    (hgo : ∀ d hd bd, handlerStops handler d hd bd = false)
    (e : Entry) (done : List Entry) (z : List Byte) (calls : List Call) (q fuel : Nat)
    (fileSize : Nat) (hfit : fileSize ≤ maxOffset)
    (hsize : (layout (e :: done) ++ z).length = fileSize) :
    forwardLoop handler (fileSize : Int) (fuel + 1)
        (fwdAt done calls q (layout (e :: done) ++ z)) =
      forwardLoop handler (fileSize : Int) fuel
        (fwdAt (e :: done) (recordCall handler calls (done.length : Int) e.1 e.2)
          (tailPos (e :: done) + fileBlockDefineSize) (layout (e :: done) ++ z)) := by
  have hsz := blocksSize_cons e done
  have h40 : fileBlockDefineSize = 40 := rfl
  have hl2 := layout_length (e :: done)
  have hll := layout_length done
  have hpos := tailPos_le done
  have hlen := length_le_blocksSize done
  rw [List.length_append, hl2] at hsize
  have hfit2 : blocksSize (e :: done) ≤ maxOffset := by omega
  have hst : blocksSize done ≤ maxOffset := by omega
  rw [forwardLoop]
  simp only [fwdAt]
  rw [NextBlockPoint_tailBlock done hst]
  have hc : ¬ ¬ ((blocksSize done : Int) < (fileSize : Int)) := by omega
  have hc2 : ¬ ((blocksSize done : Int) > (fileSize : Int)) := by omega
  rw [if_neg hc]
  rw [if_neg hc2]
  have hrb := readBlockAt_canon (e :: done) z q hfit2 (List.cons_ne_nil _ _)
  rw [tailPos_cons] at hrb
  rw [hrb]
  simp only [tailBlock_cons, ne_eq, not_true_eq_false, if_false]
  have hH : List.take e.1.length
      (List.drop (blocksSize done + fileBlockDefineSize) (layout (e :: done) ++ z)) = e.1 :=
    slice_eq _ (layout done ++ encodeBlock (tailBlock (e :: done))) e.1 (e.2 ++ z) _ _
      (by simp only [layout, List.append_assoc])
      (by rw [List.length_append, encodeBlock_length, hll, h40]) rfl
  have hB : List.take e.2.length
      (List.drop (blocksSize done + fileBlockDefineSize + e.1.length)
        (layout (e :: done) ++ z)) = e.2 :=
    slice_eq _ (layout done ++ encodeBlock (tailBlock (e :: done)) ++ e.1) e.2 z _ _
      (by simp only [layout, List.append_assoc])
      (by rw [List.length_append, List.length_append, encodeBlock_length, hll, h40]) rfl
  rw [int64_of_le _ (by omega), int64_of_le _ (by omega), int64_of_le _ (by omega),
    int64_of_le _ (by omega), sectionBytes_natCast, sectionBytes_natCast, hH, hB, hgo,
    toUint64_natCast _ hst, toInt64_succ _ (by omega)]
  simp only [tailPos_cons, List.length_cons, Bool.false_eq_true, if_false]

theorem forwardLoop_done (handler : Handler) (all : List Entry) (calls : List Call)
    (q fuel : Nat) (hfit : blocksSize all ≤ maxOffset) :
    forwardLoop handler (blocksSize all : Int) fuel (fwdAt all calls q (layout all)) =
      some (none, fwdAt all calls q (layout all)) := by
  rw [forwardLoop.eq_def]
  have hn : (fwdAt all calls q (layout all)).currentBlock.NextBlockPoint =
      (blocksSize all : Int) := NextBlockPoint_tailBlock all hfit
  simp only [hn]
  rw [if_pos (by omega)]

theorem forwardLoop_canon (handler : Handler)
    (hgo : ∀ d hd bd, handlerStops handler d hd bd = false) (todo : List Entry) :
    ∀ (done : List Entry) (calls : List Call) (q fuel : Nat),
      blocksSize (todo.reverse ++ done) ≤ maxOffset → todo.length ≤ fuel →
      ∃ q1, forwardLoop handler (blocksSize (todo.reverse ++ done) : Int) fuel
          (fwdAt done calls q (layout (todo.reverse ++ done))) =
        some (none, fwdAt (todo.reverse ++ done) (recordFrom handler calls done.length todo) q1
          (layout (todo.reverse ++ done))) := by
  induction todo with
  | nil =>
    intro done calls q fuel hfit _
    exact ⟨q, forwardLoop_done handler done calls q fuel hfit⟩
  | cons e es ih =>
    intro done calls q fuel hfit hfuel
    have hall : (e :: es).reverse ++ done = es.reverse ++ (e :: done) := by
      rw [List.reverse_cons, List.append_assoc, List.singleton_append]
    rw [hall] at hfit ⊢
    obtain ⟨z, hz⟩ := layout_append es.reverse (e :: done)
    obtain ⟨fuel1, rfl⟩ : ∃ k, fuel = k + 1 := ⟨fuel - 1, by
      simp only [List.length_cons] at hfuel
      omega⟩
    simp only [List.length_cons, Nat.add_le_add_iff_right] at hfuel
    obtain ⟨q1, h1⟩ := ih (e :: done) (recordCall handler calls (done.length : Int) e.1 e.2)
      (tailPos (e :: done) + fileBlockDefineSize) fuel1 hfit hfuel
    refine ⟨q1, ?_⟩
    have hstep := forwardLoop_step handler hgo e done z calls q fuel1
      (blocksSize (es.reverse ++ (e :: done))) hfit
      (by rw [← hz, layout_length])
    rw [← hz] at hstep
    rw [hstep, h1]
    rfl

theorem Seek_zero_ok (p : Nat) (c : List Byte) :
    (⟨false, p⟩ : OsFile).Seek 0 Whence.SEEK_SET ⟨c, []⟩ =
      ((0, none), ⟨false, 0⟩, ⟨c, []⟩) := by
  simp [OsFile.Seek, FileSys.next]

theorem deferSeekEnd_ok (p : Nat) (c : List Byte) :
    deferSeekEnd ⟨false, p⟩ ⟨c, []⟩ = (⟨false, c.length⟩, ⟨c, []⟩) := by
  unfold deferSeekEnd
  rw [Seek_end_ok]

theorem IterateForward_canon (handler : Handler)
    (hgo : ∀ d hd bd, handlerStops handler d hd bd = false) (all : List Entry) (s : Stack)
    (p fuel : Nat) (hs : s.file = some ⟨false, p⟩) (hfit : blocksSize all ≤ maxOffset)
    (hfuel : all.length ≤ fuel) :
    s.IterateForward fuel handler (canonFs all) =
      some ⟨none, recordFrom handler [] 0 all.reverse, [], canonStack all (blocksSize all),
        canonFs all⟩ := by
  have hll := layout_length all
  have hpos := tailPos_le all
  have hrr : all.reverse.reverse ++ [] = all := by
    rw [List.reverse_reverse, List.append_nil]
  obtain ⟨q1, hloop⟩ := forwardLoop_canon handler hgo all.reverse [] [] 0 fuel
    (by rw [hrr]; exact hfit) (by rw [List.length_reverse]; exact hfuel)
  rw [hrr] at hloop
  have hinit : FwdVars.mk fileBlock.zero 0 0 [] [] ⟨false, 0⟩ ⟨layout all, []⟩ =
      fwdAt [] [] 0 (layout all) := rfl
  unfold Stack.IterateForward
  simp only [Stack.getFile, hs, canonFs]
  rw [Seek_end_ok]
  simp only
  rw [Seek_zero_ok]
  simp only
  rw [hinit, hll, hloop]
  simp only [fwdAt]
  rw [deferSeekEnd_ok, int64_of_le _ (by omega), hll]
  rfl

/-! ## Opening and creating -/

theorem handlerStops_none (d : Int) (hd bd : List Byte) : handlerStops none d hd bd = false :=
  rfl

theorem recordFrom_none (calls : List Call) (es : List Entry) :
    ∀ n, recordFrom none calls n es = calls := by
  induction es with
  | nil => intro n; rfl
  | cons e es ih => intro n; exact ih (n + 1)

theorem NewStack_canon (all : List Entry) (p fuel : Nat) (hfit : blocksSize all ≤ maxOffset)
    (hfuel : all.length ≤ fuel) :
    NewStack fuel ⟨false, p⟩ (canonFs all) =
      some ((some (canonStack all (blocksSize all)), none), canonFs all) := by
  unfold NewStack Stack.Repare
  simp only
  rw [IterateForward_canon none handlerStops_none all _ p fuel rfl hfit hfuel]

theorem OpenStack_canon (all : List Entry) (fuel : Nat) (hfit : blocksSize all ≤ maxOffset)
    (hfuel : all.length ≤ fuel) :
    OpenStack fuel (canonFs all) =
      some ((some (canonStack all (blocksSize all)), none), canonFs all) := by
  have ho : OpenFile false (canonFs all) = ((some ⟨false, 0⟩, none), canonFs all) := by
    simp [OpenFile, FileSys.next, canonFs]
  unfold OpenStack
  rw [ho]
  exact NewStack_canon all 0 fuel hfit hfuel

theorem CreateStack_fresh (c : List Byte) (fuel : Nat) :
    CreateStack fuel ⟨c, []⟩ = some ((some (canonStack [] 0), none), canonFs []) := by
  have ho : OpenFile true ⟨c, []⟩ = ((some ⟨false, 0⟩, none), canonFs []) := by
    simp [OpenFile, FileSys.next, canonFs, layout]
  unfold CreateStack
  rw [ho]
  exact NewStack_canon [] 0 fuel (by decide) (Nat.zero_le _)

/-! ## Reading the tail of the canonical state -/

theorem Peak_canon (st : List Entry) (p : Nat) (h b : List Byte)
    (hfit : blocksSize ((h, b) :: st) ≤ maxOffset) :
    (canonStack ((h, b) :: st) p).Peak (canonFs ((h, b) :: st)) =
      ((h, b, none), canonStack ((h, b) :: st) p, canonFs ((h, b) :: st)) := by
  have hsz := blocksSize_cons (h, b) st
  simp only at hsz
  have h40 : fileBlockDefineSize = 40 := rfl
  have hll := layout_length st
  have hl2 := layout_length ((h, b) :: st)
  have hd : ¬ (((st.length + 1 : Nat) : Int) = 0) := by omega
  have hm1 : makeOk b.length = true := by
    simp only [makeOk, decide_eq_true_eq]
    omega
  have hm2 : makeOk h.length = true := by
    simp only [makeOk, decide_eq_true_eq]
    omega
  have hH : List.take h.length
      (List.drop (blocksSize st + fileBlockDefineSize) (layout ((h, b) :: st))) = h :=
    slice_eq _ (layout st ++ encodeBlock (tailBlock ((h, b) :: st))) h b _ _ rfl
      (by rw [List.length_append, encodeBlock_length, hll, h40]) rfl
  have hB : List.take b.length
      (List.drop (blocksSize st + fileBlockDefineSize + h.length) (layout ((h, b) :: st))) = b :=
    slice_eq _ (layout st ++ encodeBlock (tailBlock ((h, b) :: st)) ++ h) b [] _ _
      (List.append_nil _).symm
      (by rw [List.length_append, List.length_append, encodeBlock_length, hll, h40]) rfl
  unfold Stack.Peak
  simp only [canonStack, canonFs, Stack.getFile, tailBlock_cons, tailPos_cons, List.length_cons]
  rw [if_neg hd, if_neg (not_not_intro hm1), if_neg (not_not_intro hm2),
    int64_of_le _ (by omega), int64_of_le _ (by omega)]
  rw [ReadAt_ok _ rfl _ _ _ (by rw [hl2]; omega)]
  simp only
  rw [ReadAt_ok _ rfl _ _ _ (by rw [hl2]; omega)]
  simp only
  rw [hH, hB]

/-! ## Sequences of operations -/

theorem blocksSize_reverse (es : List Entry) : blocksSize es.reverse = blocksSize es := by
  simp only [blocksSize, List.map_reverse, List.sum_reverse]

theorem pushAll_canon (es : List Entry) :
    ∀ (st : List Entry) (p : Nat), blocksSize (es.reverse ++ st) ≤ maxOffset →
      ∃ q, pushAll es (canonStack st p) (canonFs st) =
        ((List.range es.length).map (fun i => (((st.length + i + 1 : Nat) : Int), none)),
          canonStack (es.reverse ++ st) q, canonFs (es.reverse ++ st)) := by
  induction es with
  | nil =>
    intro st p _
    exact ⟨p, rfl⟩
  | cons e es ih =>
    intro st p hfit
    have hall : (e :: es).reverse ++ st = es.reverse ++ (e :: st) := by
      rw [List.reverse_cons, List.append_assoc, List.singleton_append]
    rw [hall] at hfit ⊢
    have hfit1 : blocksSize (e :: st) ≤ maxOffset := by
      rw [blocksSize_append] at hfit
      omega
    obtain ⟨q, hq⟩ := ih (e :: st) (blocksSize (e :: st)) hfit
    refine ⟨q, ?_⟩
    rw [pushAll, Push_canon st p e.1 e.2 hfit1]
    simp only
    rw [hq]
    simp only [List.length_cons, List.range_succ_eq_map, List.map_cons, List.map_map,
      Prod.mk.injEq, List.cons.injEq, and_true, true_and]
    apply List.map_congr_left
    intro i _
    simp only [Function.comp_apply, Prod.mk.injEq, and_true, Nat.succ_eq_add_one]
    omega

theorem popN_canon (top : List Entry) :
    ∀ (st : List Entry) (p : Nat), blocksSize (top ++ st) ≤ maxOffset →
      ∃ q, popN top.length (canonStack (top ++ st) p) (canonFs (top ++ st)) =
        (popResults top st.length, canonStack st q, canonFs st) := by
  induction top with
  | nil =>
    intro st p _
    exact ⟨p, rfl⟩
  | cons e rest ih =>
    intro st p hfit
    have hfit1 : blocksSize (rest ++ st) ≤ maxOffset := by
      have := blocksSize_cons e (rest ++ st)
      rw [List.cons_append] at hfit
      omega
    obtain ⟨q1, h1⟩ := Pop_canon (rest ++ st) p e.1 e.2 hfit
    obtain ⟨q, hq⟩ := ih st q1 hfit1
    refine ⟨q, ?_⟩
    rw [List.length_cons, popN]
    simp only [List.cons_append]
    rw [h1]
    simp only
    rw [hq]
    simp only [popResults, Stack.Depth, canonStack, List.length_append]

theorem popResults_fst (top : List Entry) (base : Nat) :
    (popResults top base).map Prod.fst = top.map (fun e => (e.1, e.2, none)) := by
  induction top with
  | nil => rfl
  | cons e rest ih => simp only [popResults, List.map_cons, ih]

theorem popResults_snd (top : List Entry) :
    (popResults top 0).map Prod.snd = (List.range top.length).reverse.map (fun (i : Nat) => (i : Int)) := by
  induction top with
  | nil => rfl
  | cons e rest ih =>
    simp only [popResults, List.map_cons, ih, List.length_cons, List.range_succ,
      List.reverse_append, List.reverse_singleton, List.singleton_append, Nat.add_zero]

/-! ## The backward walk on the canonical file -/

theorem tailPos_lt_of_cons (e : Entry) (st : List Entry) :
    tailPos (e :: st) < blocksSize (e :: st) := by
  rw [tailPos_cons, blocksSize_cons]
  simp only [fileBlockDefineSize]
  omega

theorem backwardLoop_canon (handler : Handler)
    (hgo : ∀ d hd bd, handlerStops handler d hd bd = false) (cur : List Entry) :
    ∀ (e : Entry) (z : List Byte) (calls : List Call) (q fuel : Nat),
      blocksSize (e :: cur) ≤ maxOffset → cur.length + 1 ≤ fuel →
      ∃ blk off q1, backwardLoop handler fuel
          { currentBlock := tailBlock (e :: cur), currentBlockOffset := tailPos (e :: cur),
            depth := ((cur.length + 1 : Nat) : Int), calls := calls, logs := [],
            file := ⟨false, q⟩, fs := ⟨layout (e :: cur) ++ z, []⟩ } =
        some (none,
          { currentBlock := blk, currentBlockOffset := off, depth := 0,
            calls := recordBack handler calls (e :: cur), logs := [],
            file := ⟨false, q1⟩, fs := ⟨layout (e :: cur) ++ z, []⟩ }) := by
  induction cur with
  | nil =>
    intro e z calls q fuel hfit hfuel
    simp only [List.length_nil] at hfuel
    obtain ⟨fuel1, rfl⟩ : ∃ k, fuel = k + 1 := ⟨fuel - 1, by omega⟩
    have hsz := blocksSize_cons e []
    have h40 : fileBlockDefineSize = 40 := rfl
    have hb0 : blocksSize ([] : List Entry) = 0 := rfl
    have hl0 : ([] : List Entry).length = 0 := rfl
    have hH : List.take e.1.length
        (List.drop (blocksSize ([] : List Entry) + fileBlockDefineSize)
          (layout [e] ++ z)) = e.1 :=
      slice_eq _ (layout [] ++ encodeBlock (tailBlock [e])) e.1
        (e.2 ++ z) _ _ (by simp only [layout, List.append_assoc])
        (by rw [List.length_append, encodeBlock_length, h40]; rfl) rfl
    have hB : List.take e.2.length
        (List.drop (blocksSize ([] : List Entry) + fileBlockDefineSize + e.1.length)
          (layout [e] ++ z)) = e.2 :=
      slice_eq _ (layout [] ++ encodeBlock (tailBlock [e]) ++ e.1) e.2 z
        _ _ (by simp only [layout, List.append_assoc])
        (by rw [List.length_append, List.length_append, encodeBlock_length, h40]; rfl) rfl
    rw [backwardLoop]
    simp only [tailBlock_cons e, tailPos_cons e]
    rw [int64_of_le _ (by omega), int64_of_le _ (by omega), int64_of_le _ (by omega),
      int64_of_le _ (by omega), sectionBytes_natCast, sectionBytes_natCast, hH, hB, hgo]
    have heq : tailPos ([] : List Entry) = blocksSize ([] : List Entry) := rfl
    have hgt : ¬ (tailPos ([] : List Entry) > blocksSize ([] : List Entry)) := by decide
    simp only [Bool.false_eq_true, if_false, heq, hgt, if_true]
    rw [toInt64_pred _ (by omega)]
    exact ⟨_, _, _, rfl⟩
  | cons e1 rest ih =>
    intro e z calls q fuel hfit hfuel
    simp only [List.length_cons] at hfuel
    obtain ⟨fuel1, rfl⟩ : ∃ k, fuel = k + 1 := ⟨fuel - 1, by omega⟩
    have hsz := blocksSize_cons e (e1 :: rest)
    have h40 : fileBlockDefineSize = 40 := rfl
    have hll := layout_length (e1 :: rest)
    have hlen := length_le_blocksSize (e1 :: rest)
    have hpos := tailPos_lt_of_cons e1 rest
    have hfit1 : blocksSize (e1 :: rest) ≤ maxOffset := by omega
    have hH : List.take e.1.length
        (List.drop (blocksSize (e1 :: rest) + fileBlockDefineSize)
          (layout (e :: e1 :: rest) ++ z)) = e.1 :=
      slice_eq _ (layout (e1 :: rest) ++ encodeBlock (tailBlock (e :: e1 :: rest))) e.1
        (e.2 ++ z) _ _ (by simp only [layout, List.append_assoc])
        (by rw [List.length_append, encodeBlock_length, hll, h40]) rfl
    have hB : List.take e.2.length
        (List.drop (blocksSize (e1 :: rest) + fileBlockDefineSize + e.1.length)
          (layout (e :: e1 :: rest) ++ z)) = e.2 :=
      slice_eq _ (layout (e1 :: rest) ++ encodeBlock (tailBlock (e :: e1 :: rest)) ++ e.1) e.2 z
        _ _ (by simp only [layout, List.append_assoc])
        (by rw [List.length_append, List.length_append, encodeBlock_length, hll, h40]) rfl
    rw [backwardLoop]
    simp only [tailBlock_cons e, tailPos_cons e]
    rw [int64_of_le _ (by omega), int64_of_le _ (by omega), int64_of_le _ (by omega),
      int64_of_le _ (by omega), sectionBytes_natCast, sectionBytes_natCast, hH, hB, hgo]
    have hne : ¬ (tailPos (e1 :: rest) = blocksSize (e1 :: rest)) := by omega
    have hgt : ¬ (tailPos (e1 :: rest) > blocksSize (e1 :: rest)) := by omega
    have hz : layout (e :: e1 :: rest) ++ z = layout (e1 :: rest) ++
        (encodeBlock (tailBlock (e :: e1 :: rest)) ++ e.1 ++ e.2 ++ z) := by
      simp only [layout, List.append_assoc]
    simp only [Bool.false_eq_true, if_false, hne, hgt]
    rw [int64_of_le _ (by omega), toInt64_pred _ (by omega), hz,
      readBlockAt_canon (e1 :: rest) _ q hfit1 (List.cons_ne_nil _ _)]
    simp only
    obtain ⟨blk, off, q1, h1⟩ := ih e1
      (encodeBlock (tailBlock (e :: e1 :: rest)) ++ e.1 ++ e.2 ++ z)
      (recordCall handler calls (((e1 :: rest).length + 1 : Nat) : Int) e.1 e.2)
      (tailPos (e1 :: rest) + fileBlockDefineSize) fuel1 hfit1 (by omega)
    exact ⟨blk, off, q1, h1⟩

theorem IterateBackward_canon (handler : Handler)
    (hgo : ∀ d hd bd, handlerStops handler d hd bd = false) (all : List Entry)
    (p fuel : Nat) (hfit : blocksSize all ≤ maxOffset) (hfuel : all.length ≤ fuel) :
    ∃ q, (canonStack all p).IterateBackward fuel handler (canonFs all) =
      some ⟨none, recordBack handler [] all, [], canonStack all q, canonFs all⟩ := by
  cases all with
  | nil => exact ⟨p, rfl⟩
  | cons e cur =>
    have hpos := tailPos_le (e :: cur)
    have hd : ¬ (((e :: cur).length : Nat) : Int) = 0 := by
      simp only [List.length_cons]
      omega
    obtain ⟨blk, off, q1, h1⟩ := backwardLoop_canon handler hgo cur e [] [] p fuel hfit
      (by simpa using hfuel)
    rw [List.append_nil] at h1
    refine ⟨(layout (e :: cur)).length, ?_⟩
    unfold Stack.IterateBackward
    simp only [canonStack, canonFs, Stack.getFile]
    rw [if_neg hd, toUint64_natCast _ (by omega)]
    simp only [List.length_cons] at h1 ⊢
    rw [h1]
    simp only [ne_eq, not_true_eq_false, if_false]
    rw [deferSeekEnd_ok]

/-! ## The invocations an iteration makes -/

theorem callsFrom_length (es : List Entry) : ∀ n, (callsFrom n es).length = es.length := by
  induction es with
  | nil => intro n; rfl
  | cons e es ih => intro n; simp only [callsFrom, List.length_cons, ih]

theorem callsFrom_snoc (es : List Entry) (e : Entry) :
    ∀ n, callsFrom n (es ++ [e]) = callsFrom n es ++ [⟨((n + es.length : Nat) : Int), e.1, e.2⟩] := by
  induction es with
  | nil => intro n; rfl
  | cons x es ih =>
    intro n
    show callsFrom n (x :: (es ++ [e])) = callsFrom n (x :: es) ++ _
    rw [callsFrom, callsFrom, ih (n + 1), List.cons_append, List.length_cons]
    have hn : n + 1 + es.length = n + (es.length + 1) := by omega
    rw [hn]

theorem recordFrom_some (f : Int → List Byte → List Byte → Bool) (es : List Entry) :
    ∀ (calls : List Call) (n : Nat),
      recordFrom (some f) calls n es = calls ++ callsFrom n es := by
  induction es with
  | nil =>
    intro calls n
    simp only [recordFrom, callsFrom, List.append_nil]
  | cons e es ih =>
    intro calls n
    rw [recordFrom, ih]
    simp only [recordCall, callsFrom, List.append_assoc, List.singleton_append]

theorem recordBack_some (f : Int → List Byte → List Byte → Bool) (st : List Entry) :
    ∀ (calls : List Call),
      recordBack (some f) calls st = calls ++ (callsFrom 1 st.reverse).reverse := by
  induction st with
  | nil =>
    intro calls
    simp only [recordBack, List.reverse_nil, callsFrom, List.append_nil]
  | cons e rest ih =>
    intro calls
    rw [recordBack, ih]
    simp only [recordCall, List.reverse_cons, callsFrom_snoc, List.reverse_append,
      List.reverse_singleton, List.singleton_append, List.append_assoc, List.length_reverse]
    rw [List.reverse_nil, List.nil_append, Nat.add_comm 1 rest.length]

theorem handlerStops_true (f : Int → List Byte → List Byte → Bool)
    (hf : ∀ d hd bd, f d hd bd = true) (d : Int) (hd bd : List Byte) :
    handlerStops (some f) d hd bd = false := by
  simp only [handlerStops, hf, Bool.not_true]

theorem Peak_canon_result (st : List Entry) (p q : Nat) (hfit : blocksSize st ≤ maxOffset) :
    ((canonStack st p).Peak (canonFs st)).1 = ((canonStack st q).Peak (canonFs st)).1 := by
  cases st with
  | nil => rfl
  | cons e rest => rw [Peak_canon rest p e.1 e.2 hfit, Peak_canon rest q e.1 e.2 hfit]

theorem layout_take (es : List Entry) (M : Nat) :
    (layout es.reverse).take (blocksSize (es.take M)) = layout (es.take M).reverse := by
  have hsplit : es.reverse = (es.drop M).reverse ++ (es.take M).reverse := by
    rw [← List.reverse_append, List.take_append_drop]
  obtain ⟨z, hz⟩ := layout_append (es.drop M).reverse (es.take M).reverse
  rw [← hsplit] at hz
  exact take_eq_left _ _ z _ hz
    (by rw [layout_length, blocksSize_reverse])

theorem blocksSize_take_le (es : List Entry) (M : Nat) :
    blocksSize (es.take M) ≤ blocksSize es := by
  have h := blocksSize_append (es.take M) (es.drop M)
  rw [List.take_append_drop] at h
  omega

/-! ## The forward scan on a file with a damaged end -/

theorem forwardLoop_blocks (handler : Handler)
    (hgo : ∀ d hd bd, handlerStops handler d hd bd = false) (todo : List Entry) :
    ∀ (done : List Entry) (z : List Byte) (calls : List Call) (q fuel fileSize : Nat),
      fileSize ≤ maxOffset → (layout (todo.reverse ++ done) ++ z).length = fileSize →
      ∃ q1, forwardLoop handler (fileSize : Int) (fuel + todo.length)
          (fwdAt done calls q (layout (todo.reverse ++ done) ++ z)) =
        forwardLoop handler (fileSize : Int) fuel
          (fwdAt (todo.reverse ++ done) (recordFrom handler calls done.length todo) q1
            (layout (todo.reverse ++ done) ++ z)) := by
  induction todo with
  | nil =>
    intro done z calls q fuel fileSize _ _
    exact ⟨q, rfl⟩
  | cons e es ih =>
    intro done z calls q fuel fileSize hfit hsize
    have hall : (e :: es).reverse ++ done = es.reverse ++ (e :: done) := by
      rw [List.reverse_cons, List.append_assoc, List.singleton_append]
    rw [hall] at hsize ⊢
    obtain ⟨w, hw⟩ := layout_append es.reverse (e :: done)
    obtain ⟨q1, h1⟩ := ih (e :: done) z (recordCall handler calls (done.length : Int) e.1 e.2)
      (tailPos (e :: done) + fileBlockDefineSize) fuel fileSize hfit hsize
    refine ⟨q1, ?_⟩
    have hstep := forwardLoop_step handler hgo e done (w ++ z) calls q (fuel + es.length)
      fileSize hfit (by rw [← List.append_assoc, ← hw]; exact hsize)
    rw [← List.append_assoc, ← hw] at hstep
    rw [List.length_cons, ← Nat.add_assoc, hstep, h1]
    rfl

theorem readBlockAt_short (st : List Entry) (x : List Byte) (q : Nat)
    (hx1 : 0 < x.length) (hx2 : x.length < fileBlockDefineSize) :
    readBlockAt ⟨false, q⟩ (blocksSize st : Int) ⟨layout st ++ x, []⟩ =
      ((fileBlock.zero, some Errno.ErrUnexpectedEOF), ⟨false, blocksSize st + x.length⟩,
        ⟨layout st ++ x, []⟩) := by
  have hll := layout_length st
  have hgot : List.take fileBlockDefineSize (List.drop (blocksSize st) (layout st ++ x)) = x := by
    rw [← hll, List.drop_left, List.take_of_length_le (Nat.le_of_lt hx2)]
  unfold readBlockAt
  rw [Seek_set_ok]
  simp only
  unfold binaryRead OsFile.ReadFull
  simp only [FileSys.next, hgot, Bool.false_eq_true, if_false]
  rw [if_neg (by omega), if_neg (by omega)]

theorem forwardLoop_short (handler : Handler) (st : List Entry) (x : List Byte)
    (calls : List Call) (q fuel : Nat) (hx1 : 0 < x.length)
    (hx2 : x.length < fileBlockDefineSize) (hfit : blocksSize st + x.length ≤ maxOffset) :
    forwardLoop handler ((blocksSize st + x.length : Nat) : Int) (fuel + 1)
        (fwdAt st calls q (layout st ++ x)) =
      some (some (some Errno.ErrUnexpectedEOF),
        { currentBlock := tailBlock st, currentBlockOffset := tailPos st, depth := st.length,
          calls := calls, logs := [LogLine.cantRead (blocksSize st : Int)],
          file := ⟨false, blocksSize st + x.length⟩, fs := ⟨layout st ++ x, []⟩ }) := by
  have hst : blocksSize st ≤ maxOffset := by omega
  rw [forwardLoop]
  simp only [fwdAt]
  rw [NextBlockPoint_tailBlock st hst]
  have hc : ¬ ¬ ((blocksSize st : Int) < ((blocksSize st + x.length : Nat) : Int)) := by omega
  have hc2 : ¬ ((blocksSize st : Int) > ((blocksSize st + x.length : Nat) : Int)) := by omega
  rw [if_neg hc, if_neg hc2, readBlockAt_short st x q hx1 hx2]
  simp only [List.nil_append]

/-- C3, for every such file: when M complete blocks (those M pushes build) are followed by
between 1 and 39 further bytes, `OpenStack` returns `io.ErrUnexpectedEOF` and no stack, and
the file keeps the stray bytes. -/
theorem OpenStack_torn_descriptor (st : List Entry) (x : List Byte) (fuel : Nat)
    (hx1 : 0 < x.length) (hx2 : x.length < fileBlockDefineSize)
    (hfit : blocksSize st + x.length ≤ maxOffset) (hfuel : st.length + 1 ≤ fuel) :
    OpenStack fuel ⟨layout st ++ x, []⟩ =
      some ((none, some Errno.ErrUnexpectedEOF), ⟨layout st ++ x, []⟩) := by
  have hll := layout_length st
  have hrr : st.reverse.reverse ++ [] = st := by
    rw [List.reverse_reverse, List.append_nil]
  obtain ⟨fuel1, rfl⟩ : ∃ k, fuel = k + 1 + st.reverse.length :=
    ⟨fuel - 1 - st.length, by rw [List.length_reverse]; omega⟩
  obtain ⟨q1, hloop⟩ := forwardLoop_blocks none handlerStops_none st.reverse [] x [] 0
    (fuel1 + 1) (blocksSize st + x.length) hfit
    (by rw [hrr, List.length_append, hll])
  rw [hrr, forwardLoop_short none st x _ q1 fuel1 hx1 hx2 hfit] at hloop
  have hinit : FwdVars.mk fileBlock.zero 0 0 [] [] ⟨false, 0⟩ ⟨layout st ++ x, []⟩ =
      fwdAt [] [] 0 (layout st ++ x) := rfl
  have ho : OpenFile false ⟨layout st ++ x, []⟩ =
      ((some ⟨false, 0⟩, none), ⟨layout st ++ x, []⟩) := by
    simp [OpenFile, FileSys.next]
  have hlen : ((layout st ++ x).length : Int) = ((blocksSize st + x.length : Nat) : Int) := by
    rw [List.length_append, hll]
  unfold OpenStack
  rw [ho]
  simp only
  unfold NewStack Stack.Repare Stack.IterateForward
  simp only [Stack.getFile]
  rw [Seek_end_ok]
  simp only
  rw [Seek_zero_ok]
  simp only
  rw [hinit, hlen, hloop]
  simp only
  rw [deferSeekEnd_ok]

theorem readBlockAt_descriptor (st : List Entry) (blk : fileBlock) (y : List Byte) (q : Nat)
    (hv : blk.Valid) :
    readBlockAt ⟨false, q⟩ (blocksSize st : Int) ⟨layout st ++ encodeBlock blk ++ y, []⟩ =
      ((blk, none), ⟨false, blocksSize st + fileBlockDefineSize⟩,
        ⟨layout st ++ encodeBlock blk ++ y, []⟩) := by
  have hll := layout_length st
  have h40 : fileBlockDefineSize = 40 := rfl
  unfold readBlockAt
  rw [Seek_set_ok]
  simp only
  unfold binaryRead
  rw [ReadFull_ok _ _ _ (by
    rw [List.length_append, List.length_append, encodeBlock_length, hll]
    omega)]
  simp only
  rw [slice_eq _ (layout st) (encodeBlock blk) y _ _ rfl hll.symm
    (by rw [encodeBlock_length]; rfl), decodeBlock_encodeBlock _ hv]

theorem forwardLoop_dangling (st : List Entry) (hs bs : Nat) (y : List Byte) (q fuel : Nat)
    (hy : y.length < hs + bs)
    (hfit : blocksSize st + fileBlockDefineSize + hs + bs ≤ maxOffset) :
    forwardLoop none ((blocksSize st + fileBlockDefineSize + y.length : Nat) : Int) (fuel + 1)
        (fwdAt st [] q
          (layout st ++ encodeBlock ⟨tailPos st, blocksSize st + fileBlockDefineSize, hs,
            blocksSize st + fileBlockDefineSize + hs, bs⟩ ++ y)) =
      some (none,
        { currentBlock := ⟨tailPos st, blocksSize st + fileBlockDefineSize, hs,
            blocksSize st + fileBlockDefineSize + hs, bs⟩,
          currentBlockOffset := blocksSize st, depth := ((st.length + 1 : Nat) : Int),
          calls := [], logs := [],
          file := ⟨false, blocksSize st + fileBlockDefineSize⟩,
          fs := ⟨layout st ++ encodeBlock ⟨tailPos st, blocksSize st + fileBlockDefineSize, hs,
            blocksSize st + fileBlockDefineSize + hs, bs⟩ ++ y, []⟩ }) := by
  have h40 : fileBlockDefineSize = 40 := rfl
  have hmax : maxOffset = 9223372036854775807 := rfl
  have hst : blocksSize st ≤ maxOffset := by omega
  have hpos := tailPos_le st
  have hlen := length_le_blocksSize st
  have hv : (⟨tailPos st, blocksSize st + fileBlockDefineSize, hs,
      blocksSize st + fileBlockDefineSize + hs, bs⟩ : fileBlock).Valid := by
    simp only [fileBlock.Valid]
    omega
  rw [forwardLoop]
  simp only [fwdAt]
  rw [NextBlockPoint_tailBlock st hst]
  have hc : ¬ ¬ ((blocksSize st : Int) <
      ((blocksSize st + fileBlockDefineSize + y.length : Nat) : Int)) := by omega
  have hc2 : ¬ ((blocksSize st : Int) >
      ((blocksSize st + fileBlockDefineSize + y.length : Nat) : Int)) := by omega
  rw [if_neg hc, if_neg hc2, readBlockAt_descriptor st _ y q hv]
  simp only [ne_eq, not_true_eq_false, if_false, handlerStops_none, Bool.false_eq_true,
    recordCall]
  rw [toUint64_natCast _ hst, toInt64_succ _ (by omega), forwardLoop.eq_def]
  simp only [fileBlock.NextBlockPoint]
  rw [addUint64_of_le _ _ hfit, int64_of_le _ hfit, if_pos (by omega)]

/-- C4, for every such file: when M complete blocks (those M pushes build) are followed by a
complete descriptor, as `Push` writes it for a header of `hs` and a body of `bs` bytes, and
by fewer than `hs + bs` bytes, `OpenStack` returns no error, leaves the file as it is and
commits depth M + 1 with the dangling descriptor as tail. -/
theorem OpenStack_dangling_block (st : List Entry) (hs bs : Nat) (y : List Byte) (fuel : Nat)
    (hy : y.length < hs + bs)
    (hfit : blocksSize st + fileBlockDefineSize + hs + bs ≤ maxOffset)
    (hfuel : st.length + 1 ≤ fuel) :
    OpenStack fuel
        ⟨layout st ++ encodeBlock ⟨tailPos st, blocksSize st + fileBlockDefineSize, hs,
          blocksSize st + fileBlockDefineSize + hs, bs⟩ ++ y, []⟩ =
      some ((some
          { depth := ((st.length + 1 : Nat) : Int)
            currentBlock := ⟨tailPos st, blocksSize st + fileBlockDefineSize, hs,
              blocksSize st + fileBlockDefineSize + hs, bs⟩
            currentBlockPos := (blocksSize st : Int)
            file := some ⟨false, blocksSize st + fileBlockDefineSize + y.length⟩ }, none),
        ⟨layout st ++ encodeBlock ⟨tailPos st, blocksSize st + fileBlockDefineSize, hs,
          blocksSize st + fileBlockDefineSize + hs, bs⟩ ++ y, []⟩) := by
  have hll := layout_length st
  have h40 : fileBlockDefineSize = 40 := rfl
  have hrr : st.reverse.reverse ++ [] = st := by
    rw [List.reverse_reverse, List.append_nil]
  obtain ⟨fuel1, rfl⟩ : ∃ k, fuel = k + 1 + st.reverse.length :=
    ⟨fuel - 1 - st.length, by rw [List.length_reverse]; omega⟩
  generalize hblk : (⟨tailPos st, blocksSize st + fileBlockDefineSize, hs,
      blocksSize st + fileBlockDefineSize + hs, bs⟩ : fileBlock) = blk
  have hlenc : (layout st ++ encodeBlock blk ++ y).length =
      blocksSize st + fileBlockDefineSize + y.length := by
    rw [List.length_append, List.length_append, encodeBlock_length, hll, h40]
  obtain ⟨q1, hloop⟩ := forwardLoop_blocks none handlerStops_none st.reverse []
    (encodeBlock blk ++ y) [] 0 (fuel1 + 1) (blocksSize st + fileBlockDefineSize + y.length)
    (by omega) (by rw [hrr, ← List.append_assoc, hlenc])
  have hd := forwardLoop_dangling st hs bs y q1 fuel1 hy hfit
  rw [hblk] at hd
  rw [hrr, ← List.append_assoc, recordFrom_none, hd] at hloop
  have hinit : FwdVars.mk fileBlock.zero 0 0 [] [] ⟨false, 0⟩
      ⟨layout st ++ encodeBlock blk ++ y, []⟩ =
      fwdAt [] [] 0 (layout st ++ encodeBlock blk ++ y) := rfl
  have ho : OpenFile false ⟨layout st ++ encodeBlock blk ++ y, []⟩ =
      ((some ⟨false, 0⟩, none), ⟨layout st ++ encodeBlock blk ++ y, []⟩) := by
    simp [OpenFile, FileSys.next]
  unfold OpenStack
  rw [ho]
  simp only
  unfold NewStack Stack.Repare Stack.IterateForward
  simp only [Stack.getFile]
  rw [Seek_end_ok]
  simp only
  rw [Seek_zero_ok]
  simp only
  rw [hinit, hlenc, hloop]
  simp only
  rw [deferSeekEnd_ok, int64_of_le _ (by omega), hlenc]

/-! ## What a successful system call tells -/

theorem next_nil_or (fs : FileSys) :
    (fs.next = (Fault.pass, ⟨fs.bytes, fs.faults.tail⟩) ∧
      ∀ n, fs.faults.head? ≠ some (Fault.fail n)) ∨
    ∃ n, fs.next = (Fault.fail n, ⟨fs.bytes, fs.faults.tail⟩) ∧
      fs.faults.head? = some (Fault.fail n) := by
  obtain ⟨c, fl⟩ := fs
  cases fl with
  | nil => left; simp [FileSys.next]
  | cons x rest =>
    cases x with
    | pass => left; simp [FileSys.next]
    | fail n => right; exact ⟨n, by simp [FileSys.next]⟩

theorem Seek_set_inv (f : OsFile) (off : Int) (fs : FileSys) (cur : Int) (f1 : OsFile)
    (fs1 : FileSys) (h : f.Seek off Whence.SEEK_SET fs = ((cur, none), f1, fs1)) :
    f.closed = false ∧ 0 ≤ off ∧ cur = off ∧ f1 = ⟨false, off.toNat⟩ ∧
    fs1 = ⟨fs.bytes, fs.faults.tail⟩ ∧ ∀ n, fs.faults.head? ≠ some (Fault.fail n) := by
  obtain ⟨cl, p⟩ := f
  unfold OsFile.Seek at h
  cases cl with
  | true => simp at h
  | false =>
    rcases next_nil_or fs with ⟨hn, hh⟩ | ⟨n, hn, _⟩
    · rw [hn] at h
      by_cases h0 : off < 0
      · simp [h0] at h
      · simp [h0] at h
        obtain ⟨h1, h2, h3⟩ := h
        exact ⟨rfl, by omega, h1.symm, h2.symm, h3.symm, hh⟩
    · rw [hn] at h
      simp at h

theorem Write_inv (f : OsFile) (b : List Byte) (fs : FileSys) (n : Nat) (f1 : OsFile)
    (fs1 : FileSys) (h : f.Write b fs = ((n, none), f1, fs1)) :
    f.closed = false ∧ f.pos + b.length ≤ maxOffset ∧ f1 = ⟨false, f.pos + b.length⟩ ∧
    fs1 = ⟨writeAt fs.bytes f.pos b, fs.faults.tail⟩ ∧
    ∀ k, fs.faults.head? ≠ some (Fault.fail k) := by
  obtain ⟨cl, p⟩ := f
  unfold OsFile.Write at h
  cases cl with
  | true => simp at h
  | false =>
    rcases next_nil_or fs with ⟨hn, hh⟩ | ⟨k, hn, _⟩
    · rw [hn] at h
      by_cases h0 : p + b.length ≤ maxOffset
      · simp [h0] at h
        obtain ⟨_, h2, h3⟩ := h
        exact ⟨rfl, h0, h2.symm, h3.symm, hh⟩
      · simp [h0] at h
    · rw [hn] at h
      simp at h

theorem getFile_cases (s : Stack) (fs : FileSys) :
    (∃ f fs1, s.getFile fs = ((some f, none), { s with file := some f }, fs1) ∧
      fs1.bytes = fs.bytes ∧ (s.file = some f → fs1 = fs)) ∨
    (∃ e fs1, s.getFile fs = ((none, some e), s, fs1) ∧ fs1.bytes = fs.bytes) := by
  obtain ⟨d, cb, cp, fl⟩ := s
  cases fl with
  | some f =>
    left
    exact ⟨f, fs, rfl, rfl, fun _ => rfl⟩
  | none =>
    rcases next_nil_or fs with ⟨hn, _⟩ | ⟨n, hn, _⟩
    · left
      refine ⟨⟨false, 0⟩, ⟨fs.bytes, fs.faults.tail⟩, ?_, rfl, ?_⟩
      · simp [Stack.getFile, OpenFile, hn]
      · intro h
        simp at h
    · right
      exact ⟨Errno.ioError, ⟨fs.bytes, fs.faults.tail⟩, by simp [Stack.getFile, OpenFile, hn], rfl⟩

/-! ## A call that succeeds met no injected failure -/

theorem quiet_next (fs : FileSys) : fs.quiet.next = (Fault.pass, fs.quiet) := rfl

theorem Seek_quiet (f : OsFile) (off : Int) (w : Whence) (fs : FileSys) (cur : Int)
    (f1 : OsFile) (fs1 : FileSys) (h : f.Seek off w fs = ((cur, none), f1, fs1)) :
    f.Seek off w fs.quiet = ((cur, none), f1, fs1.quiet) ∧ fs1.bytes = fs.bytes ∧
    f1.closed = f.closed := by
  obtain ⟨cl, p⟩ := f
  unfold OsFile.Seek at h ⊢
  cases cl with
  | true => simp at h
  | false =>
    rw [quiet_next]
    rcases next_nil_or fs with ⟨hn, _⟩ | ⟨n, hn, _⟩
    · rw [hn] at h
      simp only [Bool.false_eq_true, if_false] at h ⊢
      split at h
      · simp at h
      · rename_i hlt
        simp only [FileSys.quiet] at hlt ⊢
        rw [if_neg hlt]
        simp only [Prod.mk.injEq] at h
        obtain ⟨⟨h1, _⟩, h2, h3⟩ := h
        subst h1 h2 h3
        exact ⟨rfl, rfl, rfl⟩
    · rw [hn] at h
      simp at h

theorem Write_quiet (f : OsFile) (b : List Byte) (fs : FileSys) (n : Nat) (f1 : OsFile)
    (fs1 : FileSys) (h : f.Write b fs = ((n, none), f1, fs1)) :
    f.Write b fs.quiet = ((n, none), f1, fs1.quiet) ∧ f1.closed = f.closed := by
  obtain ⟨cl, p⟩ := f
  unfold OsFile.Write at h ⊢
  cases cl with
  | true => simp at h
  | false =>
    rw [quiet_next]
    rcases next_nil_or fs with ⟨hn, _⟩ | ⟨k, hn, _⟩
    · rw [hn] at h
      simp only [Bool.false_eq_true, if_false] at h ⊢
      split at h
      · rename_i hle
        rw [if_pos hle]
        simp only [Prod.mk.injEq] at h
        obtain ⟨⟨h1, _⟩, h2, h3⟩ := h
        subst h1 h2 h3
        exact ⟨rfl, rfl⟩
      · simp at h
    · rw [hn] at h
      simp at h

theorem ReadFull_quiet (f : OsFile) (n : Nat) (fs : FileSys) (b : List Byte) (f1 : OsFile)
    (fs1 : FileSys) (h : f.ReadFull n fs = ((b, none), f1, fs1)) :
    f.ReadFull n fs.quiet = ((b, none), f1, fs1.quiet) ∧ fs1.bytes = fs.bytes ∧
    f1.closed = f.closed := by
  obtain ⟨cl, p⟩ := f
  unfold OsFile.ReadFull at h ⊢
  cases cl with
  | true => simp at h
  | false =>
    rw [quiet_next]
    rcases next_nil_or fs with ⟨hn, _⟩ | ⟨k, hn, _⟩
    · rw [hn] at h
      simp only [Bool.false_eq_true, if_false] at h ⊢
      split at h
      · rename_i hle
        simp only [FileSys.quiet] at hle ⊢
        rw [if_pos hle]
        simp only [Prod.mk.injEq] at h
        obtain ⟨⟨h1, _⟩, h2, h3⟩ := h
        subst h1 h2 h3
        exact ⟨rfl, rfl, rfl⟩
      · split at h <;> simp at h
    · rw [hn] at h
      simp at h

theorem ReadAt_quiet (f : OsFile) (n : Nat) (off : Int) (fs : FileSys) (b : List Byte)
    (fs1 : FileSys) (h : f.ReadAt n off fs = ((b, none), fs1)) :
    f.ReadAt n off fs.quiet = ((b, none), fs1.quiet) ∧ fs1.bytes = fs.bytes := by
  obtain ⟨cl, p⟩ := f
  unfold OsFile.ReadAt at h ⊢
  by_cases h0 : off < 0
  · simp [h0] at h
  · rw [if_neg h0] at h ⊢
    by_cases hz : n = 0
    · rw [if_pos hz] at h ⊢
      simp only [Prod.mk.injEq] at h
      obtain ⟨⟨h1, _⟩, h3⟩ := h
      subst h1 h3
      exact ⟨rfl, rfl⟩
    · rw [if_neg hz] at h ⊢
      cases cl with
      | true => simp at h
      | false =>
        rw [quiet_next]
        rcases next_nil_or fs with ⟨hn, _⟩ | ⟨k, hn, _⟩
        · rw [hn] at h
          simp only [Bool.false_eq_true, if_false] at h ⊢
          split at h
          · rename_i hle
            simp only [FileSys.quiet] at hle ⊢
            rw [if_pos hle]
            simp only [Prod.mk.injEq] at h
            obtain ⟨⟨h1, _⟩, h3⟩ := h
            subst h1 h3
            exact ⟨rfl, rfl⟩
          · simp at h
        · rw [hn] at h
          simp at h

theorem Truncate_quiet (f : OsFile) (size : Int) (fs fs1 : FileSys)
    (h : f.Truncate size fs = (none, fs1)) :
    f.Truncate size fs.quiet = (none, fs1.quiet) := by
  obtain ⟨cl, p⟩ := f
  unfold OsFile.Truncate at h ⊢
  cases cl with
  | true => simp at h
  | false =>
    rw [quiet_next]
    rcases next_nil_or fs with ⟨hn, _⟩ | ⟨k, hn, _⟩
    · rw [hn] at h
      simp only [Bool.false_eq_true, if_false] at h ⊢
      split at h
      · simp at h
      · rename_i hlt
        rw [if_neg hlt]
        simp only [Prod.mk.injEq, true_and] at h
        subst h
        rfl
    · rw [hn] at h
      simp at h

theorem getFile_quiet (s : Stack) (fs : FileSys) (f : OsFile) (e : Option Errno) (s1 : Stack)
    (fs1 : FileSys) (h : s.getFile fs = ((some f, e), s1, fs1)) :
    s.getFile fs.quiet = ((some f, none), s1, fs1.quiet) ∧ e = none ∧
    s1 = { s with file := some f } ∧ fs1.bytes = fs.bytes := by
  obtain ⟨d, cb, cp, fl⟩ := s
  cases fl with
  | some g =>
    simp only [Stack.getFile, Prod.mk.injEq, Option.some.injEq] at h
    obtain ⟨⟨h1, h2⟩, h3, h4⟩ := h
    subst h1 h2 h3 h4
    exact ⟨rfl, rfl, rfl, rfl⟩
  | none =>
    rcases next_nil_or fs with ⟨hn, _⟩ | ⟨n, hn, _⟩
    · simp only [Stack.getFile, OpenFile, hn, Bool.false_eq_true, if_false,
        Prod.mk.injEq, Option.some.injEq] at h
      obtain ⟨⟨h1, h2⟩, h3, h4⟩ := h
      subst h1 h2 h3 h4
      exact ⟨rfl, rfl, rfl, rfl⟩
    · simp [Stack.getFile, OpenFile, hn] at h

theorem binaryWrite_quiet (f : OsFile) (fb : fileBlock) (fs : FileSys) (f1 : OsFile)
    (fs1 : FileSys) (h : binaryWrite f fb fs = (none, f1, fs1)) :
    binaryWrite f fb fs.quiet = (none, f1, fs1.quiet) ∧ f1.closed = f.closed := by
  unfold binaryWrite at h ⊢
  rcases hw : f.Write (encodeBlock fb) fs with ⟨⟨n, _ | e⟩, f2, fs2⟩
  · rw [hw] at h
    simp only [Prod.mk.injEq, true_and] at h
    obtain ⟨h1, h2⟩ := h
    subst h1 h2
    obtain ⟨hq, hc⟩ := Write_quiet _ _ _ _ _ _ hw
    rw [hq]
    exact ⟨rfl, hc⟩
  · rw [hw] at h
    simp at h

theorem binaryRead_quiet (f : OsFile) (fs : FileSys) (fb : fileBlock) (f1 : OsFile)
    (fs1 : FileSys) (h : binaryRead f fs = ((fb, none), f1, fs1)) :
    binaryRead f fs.quiet = ((fb, none), f1, fs1.quiet) ∧ fs1.bytes = fs.bytes ∧
    f1.closed = f.closed := by
  unfold binaryRead at h ⊢
  rcases hw : f.ReadFull fileBlockDefineSize fs with ⟨⟨b, _ | e⟩, f2, fs2⟩
  · rw [hw] at h
    simp only [Prod.mk.injEq, and_true] at h
    obtain ⟨h0, h1, h2⟩ := h
    subst h0 h1 h2
    obtain ⟨hq, hb, hc⟩ := ReadFull_quiet _ _ _ _ _ _ hw
    rw [hq]
    exact ⟨rfl, hb, hc⟩
  · rw [hw] at h
    simp at h

theorem readBlockAt_quiet (f : OsFile) (off : Int) (fs : FileSys) (fb : fileBlock)
    (f1 : OsFile) (fs1 : FileSys) (h : readBlockAt f off fs = ((fb, none), f1, fs1)) :
    readBlockAt f off fs.quiet = ((fb, none), f1, fs1.quiet) ∧ fs1.bytes = fs.bytes ∧
    f1.closed = f.closed := by
  unfold readBlockAt at h ⊢
  rcases hs : f.Seek off Whence.SEEK_SET fs with ⟨⟨cur, _ | e⟩, f2, fs2⟩
  · rw [hs] at h
    simp only at h
    obtain ⟨hq, hb, hc⟩ := Seek_quiet _ _ _ _ _ _ _ hs
    obtain ⟨hq2, hb2, hc2⟩ := binaryRead_quiet _ _ _ _ _ h
    rw [hq]
    simp only
    rw [hq2]
    exact ⟨rfl, hb2.trans hb, hc2.trans hc⟩
  · rw [hs] at h
    simp at h

theorem writeTo_quiet (fb : fileBlock) (f : OsFile) (off : Int) (fs : FileSys)
    (f1 : OsFile) (fs1 : FileSys) (h : fb.writeTo f off fs = (none, f1, fs1)) :
    fb.writeTo f off fs.quiet = (none, f1, fs1.quiet) ∧ f1.closed = f.closed := by
  unfold fileBlock.writeTo at h ⊢
  rcases hs : f.Seek off Whence.SEEK_SET fs with ⟨⟨cur, _ | e⟩, f2, fs2⟩
  · rw [hs] at h
    simp only at h
    obtain ⟨hq, _, hc⟩ := Seek_quiet _ _ _ _ _ _ _ hs
    obtain ⟨hq2, hc2⟩ := binaryWrite_quiet _ _ _ _ _ h
    rw [hq]
    simp only
    rw [hq2]
    exact ⟨rfl, hc2.trans hc⟩
  · rw [hs] at h
    simp at h

theorem Push_quiet (s : Stack) (h b : List Byte) (fs : FileSys) (d : Int) (s1 : Stack)
    (fs1 : FileSys) (hp : s.Push h b fs = ((d, none), s1, fs1)) :
    s.Push h b fs.quiet = ((d, none), s1, fs1.quiet) := by
  unfold Stack.Push at hp ⊢
  rcases hg : s.getFile fs with ⟨⟨_ | file, e⟩, s0, fs0⟩
  · rcases getFile_cases s fs with ⟨f, fs0, hg2, _⟩ | ⟨e2, fs0, hg2, _⟩
    · rw [hg2] at hg
      simp at hg
    · rw [hg2] at hp
      simp at hp
  · rw [hg] at hp
    simp only at hp
    obtain ⟨hq, _, _, _⟩ := getFile_quiet _ _ _ _ _ _ hg
    rw [hq]
    simp only
    rcases hs : file.Seek s0.currentBlock.NextBlockPoint Whence.SEEK_SET fs0 with
      ⟨⟨cur, _ | e⟩, f1, fs2⟩
    · rw [hs] at hp
      simp only at hp
      rw [(Seek_quiet _ _ _ _ _ _ _ hs).1]
      simp only
      rcases hw : binaryWrite f1
        { PrevBlock := toUint64 s0.currentBlockPos
          HeaderPoint := toUint64 (toInt64 (cur + fileBlockDefineSize))
          HeaderSize := toUint64 h.length
          DataPoint := addUint64 (toUint64 (toInt64 (cur + fileBlockDefineSize)))
            (toUint64 h.length)
          DataSize := toUint64 b.length } fs2 with ⟨_ | e, f2, fs3⟩
      · rw [hw] at hp
        simp only at hp
        rw [(binaryWrite_quiet _ _ _ _ _ hw).1]
        simp only
        rcases hh : f2.Write h fs3 with ⟨⟨n, _ | e⟩, f3, fs4⟩
        · rw [hh] at hp
          simp only at hp
          rw [(Write_quiet _ _ _ _ _ _ hh).1]
          simp only
          rcases hb : f3.Write b fs4 with ⟨⟨m, _ | e⟩, f4, fs5⟩
          · rw [hb] at hp
            simp only [Prod.mk.injEq, and_true] at hp
            obtain ⟨h1, h2, h3⟩ := hp
            subst h1 h2 h3
            rw [(Write_quiet _ _ _ _ _ _ hb).1]
          · rw [hb] at hp
            simp at hp
        · rw [hh] at hp
          simp at hp
      · rw [hw] at hp
        simp at hp
    · rw [hs] at hp
      simp at hp
theorem Pop_quiet (s : Stack) (fs : FileSys) (h b : List Byte) (s1 : Stack) (fs1 : FileSys)
    (hd : s.depth ≠ 0) (hp : s.Pop fs = ((h, b, none), s1, fs1)) :
    s.Pop fs.quiet = ((h, b, none), s1, fs1.quiet) := by
  unfold Stack.Pop at hp ⊢
  rw [if_neg hd] at hp ⊢
  rcases hg : s.getFile fs with ⟨⟨_ | file, e⟩, s0, fs0⟩
  · rcases getFile_cases s fs with ⟨f, fs0, hg2, _⟩ | ⟨e2, fs0, hg2, _⟩
    · rw [hg2] at hg
      simp at hg
    · rw [hg2] at hp
      simp at hp
  · rw [hg] at hp
    simp only at hp
    obtain ⟨hq, _, _, _⟩ := getFile_quiet _ _ _ _ _ _ hg
    rw [hq]
    simp only
    by_cases hm1 : ¬ makeOk s0.currentBlock.DataSize = true
    · rw [if_pos hm1] at hp
      simp at hp
    rw [if_neg hm1] at hp ⊢
    by_cases hm2 : ¬ makeOk s0.currentBlock.HeaderSize = true
    · rw [if_pos hm2] at hp
      simp at hp
    rw [if_neg hm2] at hp ⊢
    rcases hr1 : file.ReadAt s0.currentBlock.HeaderSize (int64 s0.currentBlock.HeaderPoint) fs0
      with ⟨⟨x, _ | e⟩, fs2⟩
    · rw [hr1] at hp
      simp only at hp
      rw [(ReadAt_quiet _ _ _ _ _ _ hr1).1]
      simp only
      rcases hr2 : file.ReadAt s0.currentBlock.DataSize (int64 s0.currentBlock.DataPoint) fs2
        with ⟨⟨y, _ | e⟩, fs3⟩
      · rw [hr2] at hp
        simp only at hp
        rw [(ReadAt_quiet _ _ _ _ _ _ hr2).1]
        simp only
        by_cases hpos : s0.currentBlockPos ≠ 0
        · rw [if_pos hpos] at hp ⊢
          rcases hrb : readBlockAt file (int64 s0.currentBlock.PrevBlock) fs3 with
            ⟨⟨nb, _ | e⟩, f1, fs4⟩
          · rw [hrb] at hp
            simp only at hp
            rw [(readBlockAt_quiet _ _ _ _ _ _ hrb).1]
            simp only
            rcases ht : f1.Truncate s0.currentBlockPos fs4 with ⟨_ | e, fs5⟩
            · rw [ht] at hp
              simp only [Prod.mk.injEq, and_true] at hp
              obtain ⟨⟨h1, h2⟩, h3, h4⟩ := hp
              subst h1 h2 h3 h4
              rw [Truncate_quiet _ _ _ _ ht]
            · rw [ht] at hp
              simp at hp
          · rw [hrb] at hp
            simp at hp
        · rw [if_neg hpos] at hp ⊢
          simp only at hp ⊢
          rcases ht : file.Truncate s0.currentBlockPos fs3 with ⟨_ | e, fs5⟩
          · rw [ht] at hp
            simp only [Prod.mk.injEq, and_true] at hp
            obtain ⟨⟨h1, h2⟩, h3, h4⟩ := hp
            subst h1 h2 h3 h4
            rw [Truncate_quiet _ _ _ _ ht]
          · rw [ht] at hp
            simp at hp
      · rw [hr2] at hp
        simp at hp
    · rw [hr1] at hp
      simp at hp

theorem Peak_quiet (s : Stack) (fs : FileSys) (h b : List Byte) (s1 : Stack) (fs1 : FileSys)
    (hd : s.depth ≠ 0) (hp : s.Peak fs = ((h, b, none), s1, fs1)) :
    s.Peak fs.quiet = ((h, b, none), s1, fs1.quiet) := by
  unfold Stack.Peak at hp ⊢
  rw [if_neg hd] at hp ⊢
  rcases hg : s.getFile fs with ⟨⟨_ | file, e⟩, s0, fs0⟩
  · rcases getFile_cases s fs with ⟨f, fs0, hg2, _⟩ | ⟨e2, fs0, hg2, _⟩
    · rw [hg2] at hg
      simp at hg
    · rw [hg2] at hp
      simp at hp
  · rw [hg] at hp
    simp only at hp
    obtain ⟨hq, _, _, _⟩ := getFile_quiet _ _ _ _ _ _ hg
    rw [hq]
    simp only
    by_cases hm1 : ¬ makeOk s0.currentBlock.DataSize = true
    · rw [if_pos hm1] at hp
      simp at hp
    rw [if_neg hm1] at hp ⊢
    by_cases hm2 : ¬ makeOk s0.currentBlock.HeaderSize = true
    · rw [if_pos hm2] at hp
      simp at hp
    rw [if_neg hm2] at hp ⊢
    rcases hr1 : file.ReadAt s0.currentBlock.HeaderSize (int64 s0.currentBlock.HeaderPoint) fs0
      with ⟨⟨x, _ | e⟩, fs2⟩
    · rw [hr1] at hp
      simp only at hp
      rw [(ReadAt_quiet _ _ _ _ _ _ hr1).1]
      simp only
      rcases hr2 : file.ReadAt s0.currentBlock.DataSize (int64 s0.currentBlock.DataPoint) fs2
        with ⟨⟨y, _ | e⟩, fs3⟩
      · rw [hr2] at hp
        simp only [Prod.mk.injEq, and_true] at hp
        obtain ⟨⟨h1, h2⟩, h3, h4⟩ := hp
        subst h1 h2 h3 h4
        rw [(ReadAt_quiet _ _ _ _ _ _ hr2).1]
      · rw [hr2] at hp
        simp at hp
    · rw [hr1] at hp
      simp at hp

theorem PeakHeader_quiet (s : Stack) (fs : FileSys) (h : List Byte) (s1 : Stack)
    (fs1 : FileSys) (hd : s.depth ≠ 0) (hp : s.PeakHeader fs = ((h, none), s1, fs1)) :
    s.PeakHeader fs.quiet = ((h, none), s1, fs1.quiet) := by
  unfold Stack.PeakHeader at hp ⊢
  rw [if_neg hd] at hp ⊢
  rcases hg : s.getFile fs with ⟨⟨_ | file, e⟩, s0, fs0⟩
  · rcases getFile_cases s fs with ⟨f, fs0, hg2, _⟩ | ⟨e2, fs0, hg2, _⟩
    · rw [hg2] at hg
      simp at hg
    · rw [hg2] at hp
      simp at hp
  · rw [hg] at hp
    simp only at hp
    obtain ⟨hq, _, _, _⟩ := getFile_quiet _ _ _ _ _ _ hg
    rw [hq]
    simp only
    by_cases hm2 : ¬ makeOk s0.currentBlock.HeaderSize = true
    · rw [if_pos hm2] at hp
      simp at hp
    rw [if_neg hm2] at hp ⊢
    rcases hr1 : file.ReadAt s0.currentBlock.HeaderSize (int64 s0.currentBlock.HeaderPoint) fs0
      with ⟨⟨x, _ | e⟩, fs2⟩
    · rw [hr1] at hp
      simp only [Prod.mk.injEq, and_true] at hp
      obtain ⟨h1, h3, h4⟩ := hp
      subst h1 h3 h4
      rw [(ReadAt_quiet _ _ _ _ _ _ hr1).1]
    · rw [hr1] at hp
      simp at hp

theorem Push_inv (s : Stack) (h b : List Byte) (fs : FileSys) (d : Int) (s1 : Stack)
    (fs1 : FileSys) (hp : s.Push h b fs = ((d, none), s1, fs1)) :
    ∃ p : Nat, s.currentBlock.NextBlockPoint = (p : Int) ∧
      p + fileBlockDefineSize + h.length + b.length ≤ maxOffset ∧
      d = toInt64 (s.depth + 1) ∧ s1.depth = d ∧ s1.currentBlockPos = (p : Int) ∧
      s1.currentBlock =
        ⟨toUint64 s.currentBlockPos, p + fileBlockDefineSize, h.length,
          p + fileBlockDefineSize + h.length, b.length⟩ ∧
      fs1.bytes = writeAt (writeAt (writeAt fs.bytes p (encodeBlock
        ⟨toUint64 s.currentBlockPos, p + fileBlockDefineSize, h.length,
          p + fileBlockDefineSize + h.length, b.length⟩)) (p + fileBlockDefineSize) h)
        (p + fileBlockDefineSize + h.length) b := by
  have h40 : fileBlockDefineSize = 40 := rfl
  unfold Stack.Push at hp
  rcases getFile_cases s fs with ⟨file, fs0, hg, hb0, _⟩ | ⟨e2, fs0, hg, _⟩
  · rw [hg] at hp
    simp only at hp
    rcases hs : file.Seek s.currentBlock.NextBlockPoint Whence.SEEK_SET fs0 with
      ⟨⟨cur, _ | e⟩, f1, fs2⟩
    · rw [hs] at hp
      simp only at hp
      obtain ⟨_, hoff, hcur, hf1, hfs2, _⟩ := Seek_set_inv _ _ _ _ _ _ hs
      obtain ⟨p, hpe⟩ := Int.eq_ofNat_of_zero_le hoff
      rw [hpe] at hcur hf1
      subst hcur hf1 hfs2
      refine ⟨p, hpe, ?_⟩
      unfold binaryWrite at hp
      rcases hw : OsFile.Write ⟨false, ((p : Nat) : Int).toNat⟩ (encodeBlock
        { PrevBlock := toUint64 s.currentBlockPos
          HeaderPoint := toUint64 (toInt64 ((p : Int) + fileBlockDefineSize))
          HeaderSize := toUint64 h.length
          DataPoint := addUint64 (toUint64 (toInt64 ((p : Int) + fileBlockDefineSize)))
            (toUint64 h.length)
          DataSize := toUint64 b.length }) ⟨fs0.bytes, fs0.faults.tail⟩ with
        ⟨⟨n, _ | e⟩, f2, fs3⟩
      · rw [hw] at hp
        simp only at hp
        obtain ⟨_, hle1, hf2, hfs3, _⟩ := Write_inv _ _ _ _ _ _ hw
        simp only [Int.toNat_ofNat, encodeBlock_length] at hle1 hf2 hfs3
        subst hf2 hfs3
        rcases hh : OsFile.Write ⟨false, p + 40⟩ h _ with ⟨⟨n2, _ | e⟩, f3, fs4⟩
        · rw [hh] at hp
          simp only at hp
          obtain ⟨_, hle2, hf3, hfs4, _⟩ := Write_inv _ _ _ _ _ _ hh
          simp only at hle2 hf3 hfs4
          subst hf3 hfs4
          rcases hbw : OsFile.Write ⟨false, p + 40 + h.length⟩ b _ with ⟨⟨n3, _ | e⟩, f4, fs5⟩
          · rw [hbw] at hp
            obtain ⟨_, hle3, hf4, hfs5, _⟩ := Write_inv _ _ _ _ _ _ hbw
            simp only at hle3 hf4 hfs5
            subst hf4 hfs5
            simp only [Prod.mk.injEq, and_true] at hp
            obtain ⟨h1, h2, h3⟩ := hp
            subst h1 h2 h3
            have e1 : toInt64 ((p : Int) + (fileBlockDefineSize : Nat)) =
                ((p + fileBlockDefineSize : Nat) : Int) :=
              toInt64_add_natCast _ _ (by omega)
            have e2 := toUint64_natCast (p + fileBlockDefineSize) (by omega)
            have e3 := toUint64_natCast h.length (by omega)
            have e4 := toUint64_natCast b.length (by omega)
            have e5 := addUint64_of_le (p + fileBlockDefineSize) h.length (by omega)
            rw [e1, e2, e3, e4, e5, hb0]
            exact ⟨by omega, rfl, rfl, rfl, rfl, rfl⟩
          · rw [hbw] at hp
            simp at hp
        · rw [hh] at hp
          simp at hp
      · rw [hw] at hp
        simp at hp
    · rw [hs] at hp
      simp at hp
  · rw [hg] at hp
    simp at hp

theorem Seek_frame (f : OsFile) (off : Int) (w : Whence) (fs : FileSys) :
    (f.Seek off w fs).2.2.bytes = fs.bytes ∧ (f.Seek off w fs).2.1.closed = f.closed := by
  unfold OsFile.Seek
  by_cases hc : f.closed = true
  · rw [if_pos hc]
    exact ⟨rfl, rfl⟩
  · rw [if_neg hc]
    rcases next_nil_or fs with ⟨hn, _⟩ | ⟨n, hn, _⟩
    · rw [hn]
      simp only
      split <;> exact ⟨rfl, rfl⟩
    · rw [hn]
      exact ⟨rfl, rfl⟩

theorem forwardLoop_empty (handler : Handler) (fuel : Nat) (f : OsFile) (fs : FileSys) :
    forwardLoop handler 0 fuel ⟨fileBlock.zero, 0, 0, [], [], f, fs⟩ =
      some (none, ⟨fileBlock.zero, 0, 0, [], [], f, fs⟩) := by
  rw [forwardLoop.eq_def]
  have hn : fileBlock.zero.NextBlockPoint = 0 := by decide
  simp only [hn]
  rw [if_pos (by omega)]

theorem CreateStack_inv (fuel : Nat) (fs0 fs : FileSys) (s : Stack)
    (h : CreateStack fuel fs0 = some ((some s, none), fs)) :
    ∃ p, s = canonStack [] p ∧ fs.bytes = [] := by
  unfold CreateStack OpenFile at h
  rcases next_nil_or fs0 with ⟨hn, _⟩ | ⟨n, hn, _⟩
  · rw [hn] at h
    simp only [if_true] at h
    unfold NewStack Stack.Repare Stack.IterateForward at h
    simp only [Stack.getFile] at h
    rcases hs1 : OsFile.Seek ⟨false, 0⟩ 0 Whence.SEEK_END ⟨[], fs0.faults.tail⟩ with
      ⟨⟨sz, _ | e⟩, f1, fs2⟩
    · rw [hs1] at h
      simp only at h
      have hsz : sz = 0 := by
        unfold OsFile.Seek at hs1
        rcases next_nil_or ⟨[], fs0.faults.tail⟩ with ⟨hn2, _⟩ | ⟨n, hn2, _⟩
        · rw [hn2] at hs1
          simp at hs1
          exact hs1.1.symm
        · rw [hn2] at hs1
          simp at hs1
      obtain ⟨hb1, hc1⟩ := Seek_frame ⟨false, 0⟩ 0 Whence.SEEK_END ⟨[], fs0.faults.tail⟩
      rw [hs1] at hb1 hc1
      simp only at hb1 hc1
      subst hsz
      rcases hs2 : f1.Seek 0 Whence.SEEK_SET fs2 with ⟨⟨x, _ | e⟩, f2, fs3⟩
      · rw [hs2] at h
        simp only at h
        obtain ⟨hb2, hc2⟩ := Seek_frame f1 0 Whence.SEEK_SET fs2
        rw [hs2] at hb2 hc2
        simp only at hb2 hc2
        rw [forwardLoop_empty] at h
        simp only at h
        obtain ⟨hb3, hc3⟩ := Seek_frame f2 0 Whence.SEEK_END fs3
        rcases hs3 : deferSeekEnd f2 fs3 with ⟨f3, fs4⟩
        rw [hs3] at h
        unfold deferSeekEnd at hs3
        rw [hs3] at hb3 hc3
        simp only at hb3 hc3 h
        simp only [Option.some.injEq, Prod.mk.injEq, and_true] at h
        obtain ⟨h1, h2⟩ := h
        subst h1 h2
        obtain ⟨c3, p3⟩ := f3
        simp only at hc3
        rw [hc2, hc1] at hc3
        subst hc3
        exact ⟨p3, rfl, by rw [hb3, hb2, hb1]⟩
      · rw [hs2] at h
        simp at h
    · rw [hs1] at h
      simp at h
  · rw [hn] at h
    simp at h

theorem PeakHeader_canon (st : List Entry) (p : Nat) (h b : List Byte)
    (hfit : blocksSize ((h, b) :: st) ≤ maxOffset) :
    (canonStack ((h, b) :: st) p).PeakHeader (canonFs ((h, b) :: st)) =
      ((h, none), canonStack ((h, b) :: st) p, canonFs ((h, b) :: st)) := by
  have hsz := blocksSize_cons (h, b) st
  simp only at hsz
  have h40 : fileBlockDefineSize = 40 := rfl
  have hll := layout_length st
  have hl2 := layout_length ((h, b) :: st)
  have hd : ¬ (((st.length + 1 : Nat) : Int) = 0) := by omega
  have hm2 : makeOk h.length = true := by
    simp only [makeOk, decide_eq_true_eq]
    omega
  unfold Stack.PeakHeader
  simp only [canonStack, canonFs, Stack.getFile, tailBlock_cons, tailPos_cons, List.length_cons]
  rw [if_neg hd, if_neg (not_not_intro hm2), int64_of_le _ (by omega)]
  rw [ReadAt_ok _ rfl _ _ _ (by rw [hl2]; omega)]
  simp only
  have hH : List.take h.length
      (List.drop (blocksSize st + fileBlockDefineSize) (layout ((h, b) :: st))) = h :=
    slice_eq _ (layout st ++ encodeBlock (tailBlock ((h, b) :: st))) h b _ _ rfl
      (by rw [List.length_append, encodeBlock_length, hll, h40]) rfl
  rw [hH]

theorem quiet_of_bytes (fs : FileSys) (st : List Entry) (h : fs.bytes = layout st) :
    fs.quiet = canonFs st := by
  simp only [FileSys.quiet, canonFs, h]

theorem bytes_of_quiet (fs : FileSys) (st : List Entry) (h : fs.quiet = canonFs st) :
    fs.bytes = layout st := by
  simp only [FileSys.quiet, canonFs, FileSys.mk.injEq, and_true] at h
  exact h

theorem Reachable_canon (st : List Entry) (s : Stack) (fs : FileSys) (hr : Reachable st s fs) :
    ∃ p, s = canonStack st p ∧ fs.bytes = layout st ∧ blocksSize st ≤ maxOffset := by
  have h40 : fileBlockDefineSize = 40 := rfl
  induction hr with
  | fresh fuel fs0 fs s hc =>
    obtain ⟨p, hs, hb⟩ := CreateStack_inv fuel fs0 fs s hc
    exact ⟨p, hs, hb, by decide⟩
  | push st s fs h b d s1 fs1 _ hp ih =>
    obtain ⟨p, hs, hb, hfit⟩ := ih
    subst hs
    obtain ⟨q, hq, hle, _⟩ := Push_inv _ _ _ _ _ _ _ hp
    have hn : (canonStack st p).currentBlock.NextBlockPoint = (blocksSize st : Int) :=
      NextBlockPoint_tailBlock st hfit
    rw [hn] at hq
    have hqe : blocksSize st = q := by omega
    have hfit1 : blocksSize ((h, b) :: st) ≤ maxOffset := by
      rw [blocksSize_cons]
      simp only
      omega
    have hpq := Push_quiet _ _ _ _ _ _ _ hp
    rw [quiet_of_bytes fs st hb, Push_canon st p h b hfit1] at hpq
    simp only [Prod.mk.injEq] at hpq
    obtain ⟨_, h2, h3⟩ := hpq
    exact ⟨_, h2.symm, bytes_of_quiet _ _ h3.symm, hfit1⟩
  | pop st s fs h b s1 fs1 _ hp ih =>
    obtain ⟨p, hs, hb, hfit⟩ := ih
    subst hs
    cases st with
    | nil =>
      have hd : (canonStack [] p).depth = 0 := rfl
      unfold Stack.Pop at hp
      rw [if_pos hd] at hp
      simp only [Prod.mk.injEq] at hp
      obtain ⟨_, h2, h3⟩ := hp
      subst h2 h3
      exact ⟨p, rfl, hb, hfit⟩
    | cons e rest =>
      have hd : (canonStack (e :: rest) p).depth ≠ 0 := by
        simp only [canonStack, List.length_cons]
        omega
      have hpq := Pop_quiet _ _ _ _ _ _ hd hp
      obtain ⟨q, hq⟩ := Pop_canon rest p e.1 e.2 hfit
      rw [quiet_of_bytes fs (e :: rest) hb, hq] at hpq
      simp only [Prod.mk.injEq] at hpq
      obtain ⟨_, h2, h3⟩ := hpq
      have hfit0 : blocksSize rest ≤ maxOffset := by
        rw [blocksSize_cons] at hfit
        omega
      exact ⟨q, h2.symm, bytes_of_quiet _ _ h3.symm, hfit0⟩
  | peak st s fs h b s1 fs1 _ hp ih =>
    obtain ⟨p, hs, hb, hfit⟩ := ih
    subst hs
    cases st with
    | nil =>
      have hd : (canonStack [] p).depth = 0 := rfl
      unfold Stack.Peak at hp
      rw [if_pos hd] at hp
      simp only [Prod.mk.injEq] at hp
      obtain ⟨_, h2, h3⟩ := hp
      subst h2 h3
      exact ⟨p, rfl, hb, hfit⟩
    | cons e rest =>
      have hd : (canonStack (e :: rest) p).depth ≠ 0 := by
        simp only [canonStack, List.length_cons]
        omega
      have hpq := Peak_quiet _ _ _ _ _ _ hd hp
      rw [quiet_of_bytes fs (e :: rest) hb, Peak_canon rest p e.1 e.2 hfit] at hpq
      simp only [Prod.mk.injEq] at hpq
      obtain ⟨_, h2, h3⟩ := hpq
      exact ⟨p, h2.symm, bytes_of_quiet _ _ h3.symm, hfit⟩
  | peakHeader st s fs h s1 fs1 _ hp ih =>
    obtain ⟨p, hs, hb, hfit⟩ := ih
    subst hs
    cases st with
    | nil =>
      have hd : (canonStack [] p).depth = 0 := rfl
      unfold Stack.PeakHeader at hp
      rw [if_pos hd] at hp
      simp only [Prod.mk.injEq] at hp
      obtain ⟨_, h2, h3⟩ := hp
      subst h2 h3
      exact ⟨p, rfl, hb, hfit⟩
    | cons e rest =>
      have hd : (canonStack (e :: rest) p).depth ≠ 0 := by
        simp only [canonStack, List.length_cons]
        omega
      have hpq := PeakHeader_quiet _ _ _ _ _ hd hp
      rw [quiet_of_bytes fs (e :: rest) hb, PeakHeader_canon rest p e.1 e.2 hfit] at hpq
      simp only [Prod.mk.injEq] at hpq
      obtain ⟨_, h2, h3⟩ := hpq
      exact ⟨p, h2.symm, bytes_of_quiet _ _ h3.symm, hfit⟩

theorem toInt64_of_range (n : Int) (h1 : -9223372036854775808 ≤ n)
    (h2 : n ≤ 9223372036854775807) : toInt64 n = n := by
  unfold toInt64 int64 toUint64
  have hm : ((n % 18446744073709551616).toNat : Int) = n % 18446744073709551616 :=
    Int.toNat_of_nonneg (Int.emod_nonneg _ (by decide))
  have hlt : n % 18446744073709551616 < 18446744073709551616 :=
    Int.emod_lt_of_pos _ (by decide)
  have hmod : (n % 18446744073709551616).toNat % 18446744073709551616 =
      (n % 18446744073709551616).toNat := Nat.mod_eq_of_lt (by omega)
  rw [hmod]
  split
  · rename_i hlt2
    rw [hm]
    omega
  · rename_i hge
    rw [hm]
    omega

theorem Reachable_pushedOnce : Reachable [([1], [2])] pushedOnce.1 pushedOnce.2 :=
  Reachable.push [] freshStack ⟨[], []⟩ [1] [2] 1 pushedOnce.1 pushedOnce.2
    (Reachable.fresh 0 ⟨[], []⟩ ⟨[], []⟩ freshStack (CreateStack_fresh [] 0)) (by decide!)

theorem ReadFull_bytes (f : OsFile) (n : Nat) (fs : FileSys) :
    (f.ReadFull n fs).2.2.bytes = fs.bytes := by
  unfold OsFile.ReadFull
  by_cases hc : f.closed = true
  · rw [if_pos hc]
  · rw [if_neg hc]
    rcases next_nil_or fs with ⟨hn, _⟩ | ⟨n, hn, _⟩
    · rw [hn]
      simp only
      split
      · rfl
      · split <;> rfl
    · rw [hn]

theorem readBlockAt_bytes (f : OsFile) (off : Int) (fs : FileSys) :
    (readBlockAt f off fs).2.2.bytes = fs.bytes := by
  unfold readBlockAt
  have h1 := (Seek_frame f off Whence.SEEK_SET fs).1
  rcases hs : f.Seek off Whence.SEEK_SET fs with ⟨⟨cur, _ | e⟩, f1, fs1⟩
  · rw [hs] at h1
    simp only at h1 ⊢
    unfold binaryRead
    have h2 := ReadFull_bytes f1 fileBlockDefineSize fs1
    rcases hr : f1.ReadFull fileBlockDefineSize fs1 with ⟨⟨x, _ | e⟩, f2, fs2⟩ <;>
      rw [hr] at h2 <;> simp only at h2 ⊢ <;> rw [h2, h1]
  · rw [hs] at h1
    exact h1

theorem Truncate_err_bytes (f : OsFile) (size : Int) (fs fs1 : FileSys) (e : Errno)
    (h : f.Truncate size fs = (some e, fs1)) : fs1.bytes = fs.bytes := by
  unfold OsFile.Truncate at h
  by_cases hc : f.closed = true
  · rw [if_pos hc] at h
    simp only [Prod.mk.injEq] at h
    rw [← h.2]
  · rw [if_neg hc] at h
    rcases next_nil_or fs with ⟨hn, _⟩ | ⟨n, hn, _⟩
    · rw [hn] at h
      simp only at h
      split at h
      · simp only [Prod.mk.injEq] at h
        rw [← h.2]
      · simp at h
    · rw [hn] at h
      simp only [Prod.mk.injEq] at h
      rw [← h.2]

theorem Push_err (s : Stack) (h b : List Byte) (fs : FileSys) :
    (s.Push h b fs).1.2 = none ∨
    ((s.Push h b fs).1.1 = -1 ∧ (s.Push h b fs).2.1.depth = s.depth ∧
      (s.Push h b fs).2.1.currentBlockPos = s.currentBlockPos ∧
      (s.Push h b fs).2.1.currentBlock = s.currentBlock) := by
  unfold Stack.Push
  rcases getFile_cases s fs with ⟨file, fs0, hg, _, _⟩ | ⟨e2, fs0, hg, _⟩
  · rw [hg]
    simp only
    rcases hs : file.Seek s.currentBlock.NextBlockPoint Whence.SEEK_SET fs0 with
      ⟨⟨cur, _ | e⟩, f1, fs2⟩
    · simp only
      rcases hw : binaryWrite f1
        { PrevBlock := toUint64 s.currentBlockPos
          HeaderPoint := toUint64 (toInt64 (cur + fileBlockDefineSize))
          HeaderSize := toUint64 h.length
          DataPoint := addUint64 (toUint64 (toInt64 (cur + fileBlockDefineSize)))
            (toUint64 h.length)
          DataSize := toUint64 b.length } fs2 with ⟨_ | e, f2, fs3⟩
      · simp only
        rcases hh : f2.Write h fs3 with ⟨⟨n, _ | e⟩, f3, fs4⟩
        · simp only
          rcases hb : f3.Write b fs4 with ⟨⟨m, _ | e⟩, f4, fs5⟩
          · left
            rfl
          · right
            exact ⟨rfl, rfl, rfl, rfl⟩
        · right
          exact ⟨rfl, rfl, rfl, rfl⟩
      · right
        exact ⟨rfl, rfl, rfl, rfl⟩
    · right
      exact ⟨rfl, rfl, rfl, rfl⟩
  · rw [hg]
    right
    exact ⟨rfl, rfl, rfl, rfl⟩

theorem Pop_err (s : Stack) (fs : FileSys) :
    (s.Pop fs).1.2.2 = none ∨
    ((s.Pop fs).1.1 = [] ∧ (s.Pop fs).1.2.1 = [] ∧ (s.Pop fs).2.1.depth = s.depth ∧
      (s.Pop fs).2.1.currentBlockPos = s.currentBlockPos ∧
      (s.Pop fs).2.1.currentBlock = s.currentBlock ∧ (s.Pop fs).2.2.bytes = fs.bytes) := by
  unfold Stack.Pop
  by_cases hd : s.depth = 0
  · rw [if_pos hd]
    left
    rfl
  rw [if_neg hd]
  rcases getFile_cases s fs with ⟨file, fs0, hg, hb0, _⟩ | ⟨e2, fs0, hg, hb0⟩
  · rw [hg]
    simp only
    by_cases hm1 : ¬ makeOk s.currentBlock.DataSize = true
    · rw [if_pos hm1]
      right
      exact ⟨rfl, rfl, rfl, rfl, rfl, hb0⟩
    rw [if_neg hm1]
    by_cases hm2 : ¬ makeOk s.currentBlock.HeaderSize = true
    · rw [if_pos hm2]
      right
      exact ⟨rfl, rfl, rfl, rfl, rfl, hb0⟩
    rw [if_neg hm2]
    have hb1 := ReadAt_bytes file s.currentBlock.HeaderSize (int64 s.currentBlock.HeaderPoint) fs0
    rcases hr1 : file.ReadAt s.currentBlock.HeaderSize (int64 s.currentBlock.HeaderPoint) fs0
      with ⟨⟨x, _ | e⟩, fs2⟩
    · rw [hr1] at hb1
      simp only at hb1 ⊢
      have hb2 := ReadAt_bytes file s.currentBlock.DataSize (int64 s.currentBlock.DataPoint) fs2
      rcases hr2 : file.ReadAt s.currentBlock.DataSize (int64 s.currentBlock.DataPoint) fs2
        with ⟨⟨y, _ | e⟩, fs3⟩
      · rw [hr2] at hb2
        simp only at hb2 ⊢
        by_cases hpos : s.currentBlockPos ≠ 0
        · rw [if_pos hpos]
          have hb3 := readBlockAt_bytes file (int64 s.currentBlock.PrevBlock) fs3
          rcases hrb : readBlockAt file (int64 s.currentBlock.PrevBlock) fs3 with
            ⟨⟨nb, _ | e⟩, f1, fs4⟩
          · rw [hrb] at hb3
            simp only at hb3 ⊢
            rcases ht : f1.Truncate s.currentBlockPos fs4 with ⟨_ | e, fs5⟩
            · left
              rfl
            · right
              have hb4 := Truncate_err_bytes _ _ _ _ _ ht
              exact ⟨rfl, rfl, rfl, rfl, rfl, by rw [hb4, hb3, hb2, hb1, hb0]⟩
          · rw [hrb] at hb3
            right
            exact ⟨rfl, rfl, rfl, rfl, rfl, by rw [hb3, hb2, hb1, hb0]⟩
        · rw [if_neg hpos]
          simp only
          rcases ht : file.Truncate s.currentBlockPos fs3 with ⟨_ | e, fs5⟩
          · left
            rfl
          · right
            have hb4 := Truncate_err_bytes _ _ _ _ _ ht
            exact ⟨rfl, rfl, rfl, rfl, rfl, by rw [hb4, hb2, hb1, hb0]⟩
      · rw [hr2] at hb2
        right
        exact ⟨rfl, rfl, rfl, rfl, rfl, by rw [hb2, hb1, hb0]⟩
    · rw [hr1] at hb1
      right
      exact ⟨rfl, rfl, rfl, rfl, rfl, by rw [hb1, hb0]⟩
  · rw [hg]
    right
    exact ⟨rfl, rfl, rfl, rfl, rfl, hb0⟩

/-! ## Schedule entries a successful call has used -/

theorem Uses.zero (fs : FileSys) : Uses 0 fs fs :=
  ⟨rfl, fun i hi => absurd hi (Nat.not_lt_zero i)⟩

theorem Uses.one (fs fs1 : FileSys) (h1 : fs1.faults = fs.faults.tail)
    (h2 : ∀ n, fs.faults.head? ≠ some (Fault.fail n)) : Uses 1 fs fs1 := by
  refine ⟨by rw [h1, List.drop_one], ?_⟩
  intro i hi n
  have hi0 : i = 0 := by omega
  subst hi0
  rw [← List.head?_eq_getElem?]
  exact h2 n

theorem Uses.trans {a b : Nat} {fs fs1 fs2 : FileSys} (h1 : Uses a fs fs1)
    (h2 : Uses b fs1 fs2) : Uses (a + b) fs fs2 := by
  obtain ⟨e1, p1⟩ := h1
  obtain ⟨e2, p2⟩ := h2
  refine ⟨by rw [e2, e1, List.drop_drop], ?_⟩
  intro i hi n
  by_cases hia : i < a
  · exact p1 i hia n
  · have hib : i - a < b := by omega
    have := p2 (i - a) hib n
    rw [e1, List.getElem?_drop] at this
    have e : a + (i - a) = i := by omega
    rw [e] at this
    exact this

theorem Seek_uses (f : OsFile) (off : Int) (fs : FileSys) (cur : Int) (f1 : OsFile)
    (fs1 : FileSys) (h : f.Seek off Whence.SEEK_SET fs = ((cur, none), f1, fs1)) :
    Uses 1 fs fs1 := by
  obtain ⟨_, _, _, _, hfs, hh⟩ := Seek_set_inv _ _ _ _ _ _ h
  subst hfs
  exact Uses.one _ _ rfl hh

theorem Write_uses (f : OsFile) (b : List Byte) (fs : FileSys) (n : Nat) (f1 : OsFile)
    (fs1 : FileSys) (h : f.Write b fs = ((n, none), f1, fs1)) : Uses 1 fs fs1 := by
  obtain ⟨_, _, _, hfs, hh⟩ := Write_inv _ _ _ _ _ _ h
  subst hfs
  exact Uses.one _ _ rfl hh

theorem ReadFull_uses (f : OsFile) (n : Nat) (fs : FileSys) (b : List Byte) (f1 : OsFile)
    (fs1 : FileSys) (h : f.ReadFull n fs = ((b, none), f1, fs1)) : Uses 1 fs fs1 := by
  unfold OsFile.ReadFull at h
  by_cases hc : f.closed = true
  · rw [if_pos hc] at h
    simp at h
  · rw [if_neg hc] at h
    rcases next_nil_or fs with ⟨hn, hh⟩ | ⟨k, hn, _⟩
    · rw [hn] at h
      simp only at h
      split at h
      · simp only [Prod.mk.injEq] at h
        obtain ⟨_, _, h3⟩ := h
        subst h3
        exact Uses.one _ _ rfl hh
      · split at h <;> simp at h
    · rw [hn] at h
      simp at h

theorem ReadAt_uses (f : OsFile) (n : Nat) (off : Int) (fs : FileSys) (b : List Byte)
    (fs1 : FileSys) (h : f.ReadAt n off fs = ((b, none), fs1)) :
    Uses (if n = 0 then 0 else 1) fs fs1 := by
  unfold OsFile.ReadAt at h
  by_cases h0 : off < 0
  · simp [h0] at h
  · rw [if_neg h0] at h
    by_cases hz : n = 0
    · rw [if_pos hz] at h ⊢
      simp only [Prod.mk.injEq] at h
      rw [← h.2]
      exact Uses.zero fs
    · rw [if_neg hz] at h ⊢
      by_cases hc : f.closed = true
      · rw [if_pos hc] at h
        simp at h
      · rw [if_neg hc] at h
        rcases next_nil_or fs with ⟨hn, hh⟩ | ⟨k, hn, _⟩
        · rw [hn] at h
          simp only at h
          split at h
          · simp only [Prod.mk.injEq] at h
            rw [← h.2]
            exact Uses.one _ _ rfl hh
          · simp at h
        · rw [hn] at h
          simp at h

theorem Truncate_uses (f : OsFile) (size : Int) (fs fs1 : FileSys)
    (h : f.Truncate size fs = (none, fs1)) : Uses 1 fs fs1 := by
  unfold OsFile.Truncate at h
  by_cases hc : f.closed = true
  · rw [if_pos hc] at h
    simp at h
  · rw [if_neg hc] at h
    rcases next_nil_or fs with ⟨hn, hh⟩ | ⟨k, hn, _⟩
    · rw [hn] at h
      simp only at h
      split at h
      · simp at h
      · simp only [Prod.mk.injEq, true_and] at h
        rw [← h]
        exact Uses.one _ _ rfl hh
    · rw [hn] at h
      simp at h

theorem readBlockAt_uses (f : OsFile) (off : Int) (fs : FileSys) (fb : fileBlock)
    (f1 : OsFile) (fs1 : FileSys) (h : readBlockAt f off fs = ((fb, none), f1, fs1)) :
    Uses 2 fs fs1 := by
  unfold readBlockAt at h
  rcases hs : f.Seek off Whence.SEEK_SET fs with ⟨⟨cur, _ | e⟩, f2, fs2⟩
  · rw [hs] at h
    simp only at h
    unfold binaryRead at h
    rcases hr : f2.ReadFull fileBlockDefineSize fs2 with ⟨⟨x, _ | e⟩, f3, fs3⟩
    · rw [hr] at h
      simp only [Prod.mk.injEq] at h
      obtain ⟨_, _, h3⟩ := h
      subst h3
      exact Uses.trans (Seek_uses _ _ _ _ _ _ hs) (ReadFull_uses _ _ _ _ _ _ hr)
    · rw [hr] at h
      simp at h
  · rw [hs] at h
    simp at h

theorem Push_uses (s : Stack) (h b : List Byte) (fs : FileSys) (d : Int) (s1 : Stack)
    (fs1 : FileSys) (f : OsFile) (hf : s.file = some f)
    (hp : s.Push h b fs = ((d, none), s1, fs1)) : Uses 4 fs fs1 := by
  unfold Stack.Push at hp
  rcases getFile_cases s fs with ⟨file, fs0, hg, _, hsame⟩ | ⟨e2, fs0, hg, _⟩
  · rw [hg] at hp
    simp only at hp
    have hfile : s.file = some file := by
      obtain ⟨d0, cb, cp, fl⟩ := s
      simp only at hf
      subst hf
      simp only [Stack.getFile, Prod.mk.injEq, Option.some.injEq] at hg
      rw [hg.1.1]
    have hfs0 := hsame hfile
    subst hfs0
    rcases hs : file.Seek s.currentBlock.NextBlockPoint Whence.SEEK_SET fs0 with
      ⟨⟨cur, _ | e⟩, f1, fs2⟩
    · rw [hs] at hp
      simp only at hp
      unfold binaryWrite at hp
      rcases hw : f1.Write (encodeBlock
        { PrevBlock := toUint64 s.currentBlockPos
          HeaderPoint := toUint64 (toInt64 (cur + fileBlockDefineSize))
          HeaderSize := toUint64 h.length
          DataPoint := addUint64 (toUint64 (toInt64 (cur + fileBlockDefineSize)))
            (toUint64 h.length)
          DataSize := toUint64 b.length }) fs2 with ⟨⟨n, _ | e⟩, f2, fs3⟩
      · rw [hw] at hp
        simp only at hp
        rcases hh : f2.Write h fs3 with ⟨⟨n2, _ | e⟩, f3, fs4⟩
        · rw [hh] at hp
          simp only at hp
          rcases hb : f3.Write b fs4 with ⟨⟨m, _ | e⟩, f4, fs5⟩
          · rw [hb] at hp
            simp only [Prod.mk.injEq] at hp
            obtain ⟨_, _, h3⟩ := hp
            subst h3
            exact Uses.trans (Uses.trans (Uses.trans (Seek_uses _ _ _ _ _ _ hs)
              (Write_uses _ _ _ _ _ _ hw)) (Write_uses _ _ _ _ _ _ hh))
              (Write_uses _ _ _ _ _ _ hb)
          · rw [hb] at hp
            simp at hp
        · rw [hh] at hp
          simp at hp
      · rw [hw] at hp
        simp at hp
    · rw [hs] at hp
      simp at hp
  · rw [hg] at hp
    simp at hp

theorem Pop_uses (s : Stack) (fs : FileSys) (h b : List Byte) (s1 : Stack) (fs1 : FileSys)
    (f : OsFile) (hf : s.file = some f) (hd : s.depth ≠ 0)
    (hp : s.Pop fs = ((h, b, none), s1, fs1)) : Uses (popCalls s) fs fs1 := by
  unfold Stack.Pop at hp
  rw [if_neg hd] at hp
  rcases getFile_cases s fs with ⟨file, fs0, hg, _, hsame⟩ | ⟨e2, fs0, hg, _⟩
  · rw [hg] at hp
    simp only at hp
    have hfile : s.file = some file := by
      obtain ⟨d0, cb, cp, fl⟩ := s
      simp only at hf
      subst hf
      simp only [Stack.getFile, Prod.mk.injEq, Option.some.injEq] at hg
      rw [hg.1.1]
    have hfs0 := hsame hfile
    subst hfs0
    by_cases hm1 : ¬ makeOk s.currentBlock.DataSize = true
    · rw [if_pos hm1] at hp
      simp at hp
    rw [if_neg hm1] at hp
    by_cases hm2 : ¬ makeOk s.currentBlock.HeaderSize = true
    · rw [if_pos hm2] at hp
      simp at hp
    rw [if_neg hm2] at hp
    rcases hr1 : file.ReadAt s.currentBlock.HeaderSize (int64 s.currentBlock.HeaderPoint) fs0
      with ⟨⟨x, _ | e⟩, fs2⟩
    · rw [hr1] at hp
      simp only at hp
      have u1 := ReadAt_uses _ _ _ _ _ _ hr1
      rcases hr2 : file.ReadAt s.currentBlock.DataSize (int64 s.currentBlock.DataPoint) fs2
        with ⟨⟨y, _ | e⟩, fs3⟩
      · rw [hr2] at hp
        simp only at hp
        have u2 := ReadAt_uses _ _ _ _ _ _ hr2
        unfold popCalls
        by_cases hpos : s.currentBlockPos ≠ 0
        · rw [if_pos hpos] at hp
          rw [if_neg hpos]
          rcases hrb : readBlockAt file (int64 s.currentBlock.PrevBlock) fs3 with
            ⟨⟨nb, _ | e⟩, f1, fs4⟩
          · rw [hrb] at hp
            simp only at hp
            rcases ht : f1.Truncate s.currentBlockPos fs4 with ⟨_ | e, fs5⟩
            · rw [ht] at hp
              simp only [Prod.mk.injEq] at hp
              obtain ⟨_, _, h3⟩ := hp
              subst h3
              exact Uses.trans (Uses.trans (Uses.trans u1 u2)
                (readBlockAt_uses _ _ _ _ _ _ hrb)) (Truncate_uses _ _ _ _ ht)
            · rw [ht] at hp
              simp at hp
          · rw [hrb] at hp
            simp at hp
        · rw [if_neg hpos] at hp
          rw [if_pos (not_not.mp hpos)]
          simp only at hp
          rcases ht : file.Truncate s.currentBlockPos fs3 with ⟨_ | e, fs5⟩
          · rw [ht] at hp
            simp only [Prod.mk.injEq] at hp
            obtain ⟨_, _, h3⟩ := hp
            subst h3
            exact Uses.trans (Uses.trans (Uses.trans u1 u2) (Uses.zero _))
              (Truncate_uses _ _ _ _ ht)
          · rw [ht] at hp
            simp at hp
      · rw [hr2] at hp
        simp at hp
    · rw [hr1] at hp
      simp at hp
  · rw [hg] at hp
    simp at hp

theorem readBlockAt_zeroBlockFile (p : Nat) :
    readBlockAt ⟨false, p⟩ 0 ⟨zeroBlockFile, []⟩ =
      ((fileBlock.zero, none), ⟨false, 40⟩, ⟨zeroBlockFile, []⟩) := by
  unfold readBlockAt
  have hs := Seek_set_ok p 0 zeroBlockFile
  simp only [Nat.cast_zero] at hs
  rw [hs]
  decide!

theorem forwardLoop_zeroBlockFile (fuel : Nat) :
    ∀ (depth : Int) (p : Nat),
      forwardLoop none 40 fuel
        ⟨fileBlock.zero, 0, depth, [], [], ⟨false, p⟩, ⟨zeroBlockFile, []⟩⟩ = none := by
  have hn : fileBlock.zero.NextBlockPoint = 0 := by decide
  induction fuel with
  | zero =>
    intro depth p
    rw [forwardLoop.eq_def]
    simp only [hn]
    rw [if_neg (by omega)]
  | succ k ih =>
    intro depth p
    rw [forwardLoop.eq_def]
    simp only [hn]
    rw [if_neg (by omega), if_neg (by omega), readBlockAt_zeroBlockFile]
    have h0 : ¬ (fileBlock.zero.PrevBlock ≠ 0) := by decide
    simp only [if_neg h0, handlerStops, recordCall]
    have hu : toUint64 0 = 0 := by decide
    simp only [hu, Bool.false_eq_true, if_false]
    exact ih (toInt64 (depth + 1)) 40

theorem IterateForward_zeroBlockFile (s : Stack) (p fuel : Nat) (hs : s.file = some ⟨false, p⟩) :
    s.IterateForward fuel none ⟨zeroBlockFile, []⟩ = none := by
  have hlen : ((zeroBlockFile.length : Nat) : Int) = 40 := by decide
  unfold Stack.IterateForward
  simp only [Stack.getFile, hs]
  rw [Seek_end_ok]
  simp only
  rw [Seek_zero_ok]
  simp only
  rw [hlen, forwardLoop_zeroBlockFile]

theorem writeAt_at_end (c b : List Byte) (p : Nat) (hp : p = c.length) :
    writeAt c p b = c ++ b := by
  subst hp
  exact writeAt_end c b

theorem writeAt_length (c b : List Byte) (p : Nat) (hb : b ≠ []) :
    (writeAt c p b).length = max c.length (p + b.length) := by
  unfold writeAt
  rw [if_neg hb]
  simp only [List.length_append, List.length_take, List.length_replicate, List.length_drop]
  omega

theorem writeAt_slice (c b : List Byte) (p : Nat) (hb : b ≠ []) :
    ((writeAt c p b).drop p).take b.length = b := by
  unfold writeAt
  rw [if_neg hb]
  exact slice_eq _ (c.take p ++ List.replicate (p - c.length) 0) b (c.drop (p + b.length)) _ _
    rfl (by simp only [List.length_append, List.length_take, List.length_replicate]; omega) rfl

theorem writeAt_before (old b : List Byte) (p i : Nat) (hi : i < p) (hc : i < old.length) :
    (writeAt old p b)[i]? = old[i]? := by
  unfold writeAt
  split
  · rfl
  · rw [List.append_assoc, List.append_assoc,
      List.getElem?_append_left (by rw [List.length_take]; omega), List.getElem?_take_of_lt hi]

theorem writeAt_gap (old b : List Byte) (p i : Nat) (hb : b ≠ []) (hi : i < p)
    (hc : old.length ≤ i) : (writeAt old p b)[i]? = some 0 := by
  unfold writeAt
  rw [if_neg hb, List.append_assoc, List.append_assoc,
    List.getElem?_append_right (by rw [List.length_take]; omega),
    List.getElem?_append_left (by rw [List.length_take, List.length_replicate]; omega),
    List.getElem?_replicate]
  rw [if_pos (by rw [List.length_take]; omega)]

theorem writeAt_after (old b : List Byte) (p i : Nat) (hi : p + b.length ≤ i) :
    (writeAt old p b)[i]? = old[i]? := by
  unfold writeAt
  split
  · rfl
  · have hl : (old.take p ++ List.replicate (p - old.length) 0 ++ b).length =
        max p old.length - (old.length - p) + b.length := by
      simp only [List.length_append, List.length_take, List.length_replicate]
      omega
    by_cases hc : p + b.length ≤ old.length
    · rw [List.getElem?_append_right (by rw [hl]; omega), List.getElem?_drop, hl]
      congr 1
      omega
    · rw [List.getElem?_append_right (by rw [hl]; omega), List.getElem?_drop, hl,
        List.getElem?_eq_none (by omega), List.getElem?_eq_none (by omega)]

theorem Write_ok (b : List Byte) (p : Nat) (old : List Byte) (h : p + b.length ≤ maxOffset) :
    (⟨false, p⟩ : OsFile).Write b ⟨old, []⟩ =
      ((b.length, none), ⟨false, p + b.length⟩, ⟨writeAt old p b, []⟩) := by
  simp [OsFile.Write, FileSys.next, h]

theorem writeTo_ok (d : fileBlock) (p n : Nat) (old : List Byte)
    (h : n + fileBlockDefineSize ≤ maxOffset) :
    d.writeTo ⟨false, p⟩ (n : Int) ⟨old, []⟩ =
      (none, ⟨false, n + fileBlockDefineSize⟩, ⟨writeAt old n (encodeBlock d), []⟩) := by
  unfold fileBlock.writeTo
  rw [Seek_set_ok]
  simp only
  unfold binaryWrite
  rw [Write_ok _ _ _ (by rw [encodeBlock_length]; exact h)]
  rfl

theorem writeTo_inv (d : fileBlock) (f : OsFile) (off : Int) (fs : FileSys) (f1 : OsFile)
    (fs1 : FileSys) (h : d.writeTo f off fs = (none, f1, fs1)) :
    ∃ n : Nat, off = (n : Int) ∧ n + fileBlockDefineSize ≤ maxOffset ∧
      f1 = ⟨false, n + fileBlockDefineSize⟩ ∧
      fs1.bytes = writeAt fs.bytes n (encodeBlock d) := by
  unfold fileBlock.writeTo at h
  rcases hs : f.Seek off Whence.SEEK_SET fs with ⟨⟨cur, _ | e⟩, f2, fs2⟩
  · rw [hs] at h
    simp only at h
    obtain ⟨_, hoff, _, hf2, hfs2, _⟩ := Seek_set_inv _ _ _ _ _ _ hs
    obtain ⟨n, hn⟩ := Int.eq_ofNat_of_zero_le hoff
    subst hn hf2 hfs2
    unfold binaryWrite at h
    rcases hw : OsFile.Write ⟨false, ((n : Nat) : Int).toNat⟩ (encodeBlock d)
      ⟨fs.bytes, fs.faults.tail⟩ with ⟨⟨k, _ | e⟩, f3, fs3⟩
    · rw [hw] at h
      simp only [Prod.mk.injEq, true_and] at h
      obtain ⟨h1, h2⟩ := h
      subst h1 h2
      obtain ⟨_, hle, hf3, hfs3, _⟩ := Write_inv _ _ _ _ _ _ hw
      simp only [Int.toNat_ofNat, encodeBlock_length] at hle hf3 hfs3
      subst hf3 hfs3
      exact ⟨n, rfl, hle, rfl, rfl⟩
    · rw [hw] at h
      simp at h
  · rw [hs] at h
    simp at h

theorem readBlockAt_written (d : fileBlock) (q n : Nat) (old : List Byte) (hv : d.Valid) :
    readBlockAt ⟨false, q⟩ (n : Int) ⟨writeAt old n (encodeBlock d), []⟩ =
      ((d, none), ⟨false, n + fileBlockDefineSize⟩, ⟨writeAt old n (encodeBlock d), []⟩) := by
  have hne : encodeBlock d ≠ [] := by
    intro h0
    have := encodeBlock_length d
    rw [h0] at this
    simp at this
  have hl := writeAt_length old (encodeBlock d) n hne
  have hsl := writeAt_slice old (encodeBlock d) n hne
  rw [encodeBlock_length] at hl hsl
  unfold readBlockAt
  rw [Seek_set_ok]
  simp only
  unfold binaryRead
  rw [ReadFull_ok _ _ _ (by rw [hl]; simp only [fileBlockDefineSize]; omega)]
  simp only
  have h40 : fileBlockDefineSize = 40 := rfl
  rw [h40, hsl, decodeBlock_encodeBlock d hv]

theorem readBlockAt_too_short (f : OsFile) (off : Int) (fs : FileSys)
    (h : (fs.bytes.length : Int) < off + fileBlockDefineSize) :
    ∃ e, (readBlockAt f off fs).1 = (fileBlock.zero, some e) := by
  have h40 : fileBlockDefineSize = 40 := rfl
  unfold readBlockAt
  rcases hs : f.Seek off Whence.SEEK_SET fs with ⟨⟨cur, _ | e⟩, f2, fs2⟩
  · simp only
    obtain ⟨_, hoff, _, hf2, hfs2, _⟩ := Seek_set_inv _ _ _ _ _ _ hs
    subst hf2 hfs2
    unfold binaryRead
    rcases hr : OsFile.ReadFull ⟨false, off.toNat⟩ fileBlockDefineSize
      ⟨fs.bytes, fs.faults.tail⟩ with ⟨⟨x, _ | e⟩, f3, fs3⟩
    · exfalso
      unfold OsFile.ReadFull at hr
      simp only [Bool.false_eq_true, if_false] at hr
      rcases next_nil_or ⟨fs.bytes, fs.faults.tail⟩ with ⟨hn, _⟩ | ⟨k, hn, _⟩
      · rw [hn] at hr
        simp only at hr
        split at hr
        · rename_i hlen
          rw [List.length_take, List.length_drop] at hlen
          omega
        · split at hr <;> simp at hr
      · rw [hn] at hr
        simp at hr
    · exact ⟨e, rfl⟩
  · exact ⟨e, rfl⟩

theorem PutUint64_getElem (v i : Nat) (hi : i < 8) :
    (PutUint64 v)[i]? = some (byteOf (v / 256 ^ i)) := by
  have h8 : i = 0 ∨ i = 1 ∨ i = 2 ∨ i = 3 ∨ i = 4 ∨ i = 5 ∨ i = 6 ∨ i = 7 := by omega
  rcases h8 with h | h | h | h | h | h | h | h <;> subst h <;> simp [PutUint64]

/-! ## Repair of the back references -/

theorem blocksSize_cons_blockLen (e : Entry) (st : List Entry) :
    blocksSize (e :: st) = blocksSize st + blockLen e := by
  simp only [blocksSize, List.map_cons, List.sum_cons]
  omega

theorem rawLayout_length (bs : List (Nat × Entry)) :
    ∀ off, (rawLayout off bs).length = blocksSize (bs.map Prod.snd) := by
  induction bs with
  | nil =>
    intro off
    rfl
  | cons x rest ih =>
    intro off
    obtain ⟨pv, e⟩ := x
    simp only [rawLayout, List.length_append, encodeBlock_length, ih, List.map_cons,
      blocksSize_cons, fileBlockDefineSize]
    omega

theorem rawLayout_fixedPrev (todo : List (Nat × Entry)) :
    ∀ done : List Entry,
      layout done ++ rawLayout (blocksSize done) (fixedPrev (tailPos done) (blocksSize done) todo) =
        layout ((todo.map Prod.snd).reverse ++ done) := by
  induction todo with
  | nil =>
    intro done
    simp only [fixedPrev, rawLayout, List.append_nil, List.map_nil, List.reverse_nil,
      List.nil_append]
  | cons x rest ih =>
    intro done
    obtain ⟨pv, e⟩ := x
    have hall : (((pv, e) :: rest).map Prod.snd).reverse ++ done =
        (rest.map Prod.snd).reverse ++ (e :: done) := by
      rw [List.map_cons, List.reverse_cons, List.append_assoc, List.singleton_append]
    rw [hall, ← ih (e :: done), tailPos_cons, blocksSize_cons_blockLen]
    simp only [fixedPrev, rawLayout, layout, tailBlock_cons, List.append_assoc]

theorem writeAt_mid (a m m1 z : List Byte) (hm : m1.length = m.length) (hne : m1 ≠ []) :
    writeAt (a ++ m ++ z) a.length m1 = a ++ m1 ++ z := by
  unfold writeAt
  rw [if_neg hne]
  have h1 : List.take a.length (a ++ m ++ z) = a := by
    rw [List.append_assoc, List.take_left']
    rfl
  have h2 : List.drop (a.length + m1.length) (a ++ m ++ z) = z := by
    rw [hm, ← List.length_append, List.drop_left']
    rfl
  rw [h1, h2]
  simp only [List.length_append]
  have h3 : a.length - (a.length + m.length + z.length) = 0 := by omega
  rw [h3]
  simp

theorem readBlockAt_at (d : fileBlock) (old a z : List Byte) (q p : Nat) (hv : d.Valid)
    (hc : old = a ++ encodeBlock d ++ z) (hp : p = a.length) :
    readBlockAt ⟨false, q⟩ (p : Int) ⟨old, []⟩ =
      ((d, none), ⟨false, p + fileBlockDefineSize⟩, ⟨old, []⟩) := by
  have h40 : fileBlockDefineSize = 40 := rfl
  unfold readBlockAt
  rw [Seek_set_ok]
  simp only
  unfold binaryRead
  rw [ReadFull_ok _ _ _ (by
    rw [hc, List.length_append, List.length_append, encodeBlock_length, hp, h40]
    omega)]
  simp only
  rw [slice_eq old a (encodeBlock d) z _ _ hc hp (by rw [encodeBlock_length]; rfl),
    decodeBlock_encodeBlock d hv]

theorem forwardLoop_fix_step (pv : Nat) (e : Entry) (done : List Entry) (z : List Byte)
    (logs : List LogLine) (q fuel fileSize : Nat) (hpv : pv < 18446744073709551616)
    (hfit : fileSize ≤ maxOffset)
    (hsize : (layout done ++ encodeBlock ⟨pv, blocksSize done + fileBlockDefineSize,
      e.1.length, blocksSize done + fileBlockDefineSize + e.1.length, e.2.length⟩ ++
      (e.1 ++ e.2 ++ z)).length = fileSize) :
    ∃ logs1 q1,
      forwardLoop none (fileSize : Int) (fuel + 1)
        (fwdVars done logs q (layout done ++ encodeBlock ⟨pv,
          blocksSize done + fileBlockDefineSize, e.1.length,
          blocksSize done + fileBlockDefineSize + e.1.length, e.2.length⟩ ++
          (e.1 ++ e.2 ++ z))) =
      forwardLoop none (fileSize : Int) fuel
        (fwdVars (e :: done) logs1 q1 (layout (e :: done) ++ z)) ∧
      (pv = tailPos done → logs1 = logs) := by
  have hsz := blocksSize_cons e done
  have h40 : fileBlockDefineSize = 40 := rfl
  have hll := layout_length done
  have hpos := tailPos_le done
  have hlen := length_le_blocksSize done
  have hmax : maxOffset = 9223372036854775807 := rfl
  rw [List.length_append, List.length_append, encodeBlock_length, hll, List.length_append,
    List.length_append] at hsize
  have hst : blocksSize done ≤ maxOffset := by omega
  have hv : fileBlock.Valid ⟨pv, blocksSize done + fileBlockDefineSize, e.1.length,
      blocksSize done + fileBlockDefineSize + e.1.length, e.2.length⟩ := by
    simp only [fileBlock.Valid]
    omega
  have hlay : layout (e :: done) ++ z = layout done ++ encodeBlock (tailBlock (e :: done)) ++
      (e.1 ++ e.2 ++ z) := by
    simp only [layout, List.append_assoc]
  rw [forwardLoop]
  simp only [fwdVars]
  rw [NextBlockPoint_tailBlock done hst]
  have hc : ¬ ¬ ((blocksSize done : Int) < (fileSize : Int)) := by omega
  have hc2 : ¬ ((blocksSize done : Int) > (fileSize : Int)) := by omega
  rw [if_neg hc, if_neg hc2, readBlockAt_at _ _ (layout done) (e.1 ++ e.2 ++ z) q _ hv rfl
    hll.symm]
  simp only [handlerStops, recordCall, Bool.false_eq_true, if_false]
  rw [toUint64_natCast _ hst, toInt64_succ _ (by omega)]
  by_cases hpe : pv = tailPos done
  · subst hpe
    refine ⟨logs, blocksSize done + fileBlockDefineSize, ?_, fun _ => rfl⟩
    simp only [ne_eq, not_true_eq_false, if_false]
    rw [hlay]
    rfl
  · refine ⟨logs ++ [LogLine.badBackRef pv (tailPos done)],
      blocksSize done + fileBlockDefineSize, ?_, fun h => absurd h hpe⟩
    simp only [ne_eq, hpe, not_false_eq_true, if_true]
    rw [writeTo_ok _ _ _ _ (by omega), ← hll,
      writeAt_mid (layout done) _ _ (e.1 ++ e.2 ++ z)
        (by rw [encodeBlock_length, encodeBlock_length])
        (by
          intro h0
          have := encodeBlock_length
            ⟨tailPos done, (layout done).length + fileBlockDefineSize, e.1.length,
              (layout done).length + fileBlockDefineSize + e.1.length, e.2.length⟩
          rw [h0] at this
          simp at this)]
    rw [hlay, hll]
    rfl

theorem forwardLoop_fix (todo : List (Nat × Entry)) :
    ∀ (done : List Entry) (logs : List LogLine) (q fuel : Nat),
      (∀ x ∈ todo, x.1 < 18446744073709551616) →
      blocksSize done + blocksSize (todo.map Prod.snd) ≤ maxOffset → todo.length ≤ fuel →
      ∃ logs1 q1,
        forwardLoop none ((blocksSize done + blocksSize (todo.map Prod.snd) : Nat) : Int) fuel
          (fwdVars done logs q (layout done ++ rawLayout (blocksSize done) todo)) =
        some (none, fwdVars ((todo.map Prod.snd).reverse ++ done) logs1 q1
          (layout ((todo.map Prod.snd).reverse ++ done))) := by
  induction todo with
  | nil =>
    intro done logs q fuel _ hfit _
    refine ⟨logs, q, ?_⟩
    have hst : blocksSize done ≤ maxOffset := by omega
    have hn : (fwdVars done logs q (layout done ++ rawLayout (blocksSize done) [])).currentBlock.NextBlockPoint =
        (blocksSize done : Int) := NextBlockPoint_tailBlock done hst
    have h0 : blocksSize (List.map Prod.snd ([] : List (Nat × Entry))) = 0 := rfl
    rw [forwardLoop.eq_def]
    simp only [hn]
    rw [if_pos (by omega)]
    simp only [rawLayout, List.append_nil, List.map_nil, List.reverse_nil, List.nil_append]
  | cons x rest ih =>
    intro done logs q fuel hpv hfit hfuel
    obtain ⟨pv, e⟩ := x
    have hall : (((pv, e) :: rest).map Prod.snd).reverse ++ done =
        (rest.map Prod.snd).reverse ++ (e :: done) := by
      rw [List.map_cons, List.reverse_cons, List.append_assoc, List.singleton_append]
    have hsz : blocksSize done + blocksSize (((pv, e) :: rest).map Prod.snd) =
        blocksSize (e :: done) + blocksSize (rest.map Prod.snd) := by
      simp only [List.map_cons, blocksSize_cons_blockLen]
      omega
    have hfile : layout done ++ rawLayout (blocksSize done) ((pv, e) :: rest) =
        layout done ++ encodeBlock ⟨pv, blocksSize done + fileBlockDefineSize, e.1.length,
          blocksSize done + fileBlockDefineSize + e.1.length, e.2.length⟩ ++
          (e.1 ++ e.2 ++ rawLayout (blocksSize (e :: done)) rest) := by
      rw [blocksSize_cons_blockLen]
      simp only [rawLayout, List.append_assoc]
    obtain ⟨fuel1, rfl⟩ : ∃ k, fuel = k + 1 := ⟨fuel - 1, by
      simp only [List.length_cons] at hfuel
      omega⟩
    simp only [List.length_cons, Nat.add_le_add_iff_right] at hfuel
    rw [hsz] at hfit ⊢
    rw [hall, hfile]
    obtain ⟨logs1, q1, hstep, _⟩ := forwardLoop_fix_step pv e done
      (rawLayout (blocksSize (e :: done)) rest) logs q fuel1
      (blocksSize (e :: done) + blocksSize (rest.map Prod.snd))
      (hpv (pv, e) (List.mem_cons_self _ _)) hfit (by
        rw [← hfile, List.length_append, layout_length, rawLayout_length, hsz])
    obtain ⟨logs2, q2, hrest⟩ := ih (e :: done) logs1 q1 fuel1
      (fun y hy => hpv y (List.mem_cons_of_mem _ hy)) hfit hfuel
    exact ⟨logs2, q2, by rw [hstep, hrest]⟩

theorem fixedPrev_entries (bs : List (Nat × Entry)) :
    ∀ prev off, (fixedPrev prev off bs).map Prod.snd = bs.map Prod.snd := by
  induction bs with
  | nil =>
    intro prev off
    rfl
  | cons x rest ih =>
    intro prev off
    obtain ⟨pv, e⟩ := x
    simp only [fixedPrev, List.map_cons, ih]

theorem IterateForward_fix (bs : List (Nat × Entry)) (s : Stack) (p fuel : Nat)
    (hs : s.file = some ⟨false, p⟩) (hpv : ∀ x ∈ bs, x.1 < 18446744073709551616)
    (hfit : blocksSize (bs.map Prod.snd) ≤ maxOffset) (hfuel : bs.length ≤ fuel) :
    ∃ logs, s.IterateForward fuel none ⟨rawLayout 0 bs, []⟩ =
      some ⟨none, [], logs,
        canonStack (bs.map Prod.snd).reverse (blocksSize (bs.map Prod.snd).reverse),
        canonFs (bs.map Prod.snd).reverse⟩ := by
  have hb0 : blocksSize ([] : List Entry) = 0 := rfl
  obtain ⟨logs, q, hloop⟩ := forwardLoop_fix bs [] [] 0 fuel hpv
    (by rw [hb0, Nat.zero_add]; exact hfit) hfuel
  rw [hb0, Nat.zero_add] at hloop
  simp only [layout, List.nil_append, List.append_nil] at hloop
  have hrl := rawLayout_length bs 0
  have hll := layout_length (bs.map Prod.snd).reverse
  have hpos := tailPos_le (bs.map Prod.snd).reverse
  have hrev := blocksSize_reverse (bs.map Prod.snd)
  have hinit : FwdVars.mk fileBlock.zero 0 0 [] [] ⟨false, 0⟩ ⟨rawLayout 0 bs, []⟩ =
      fwdVars [] [] 0 (rawLayout 0 bs) := rfl
  refine ⟨logs, ?_⟩
  unfold Stack.IterateForward
  simp only [Stack.getFile, hs]
  rw [Seek_end_ok]
  simp only
  rw [Seek_zero_ok]
  simp only
  rw [hinit, hrl, hloop]
  simp only [fwdVars]
  rw [deferSeekEnd_ok, int64_of_le _ (by omega), hll]
  rfl

theorem callsFrom_getElem (es : List Entry) :
    ∀ (n i : Nat), (callsFrom n es)[i]? =
      es[i]?.map (fun e => (⟨((n + i : Nat) : Int), e.1, e.2⟩ : Call)) := by
  induction es with
  | nil =>
    intro n i
    simp [callsFrom]
  | cons e rest ih =>
    intro n i
    cases i with
    | zero => simp [callsFrom]
    | succ k =>
      simp only [callsFrom, List.getElem?_cons_succ, ih]
      have hk : n + 1 + k = n + (k + 1) := by omega
      rw [hk]

theorem callsFrom_depths (es : List Entry) :
    ∀ n, (callsFrom n es).map Call.depth =
      (List.range es.length).map (fun (i : Nat) => ((n + i : Nat) : Int)) := by
  induction es with
  | nil =>
    intro n
    rfl
  | cons e rest ih =>
    intro n
    simp only [callsFrom, List.map_cons, ih, List.length_cons, List.range_succ_eq_map,
      List.map_map, Nat.add_zero, List.cons.injEq, true_and]
    apply List.map_congr_left
    intro i _
    simp only [Function.comp_apply, Nat.succ_eq_add_one]
    have hk : n + 1 + i = n + (i + 1) := by omega
    rw [hk]

/-! ## Early exit of the forward scan -/

theorem forwardLoop_round (handler : Handler) (fileSize : Int) (k : Nat) (v : FwdVars)
    (blk : fileBlock) (f1 : OsFile) (fs1 : FileSys)
    (hc : v.currentBlock.NextBlockPoint < fileSize)
    (hrb : readBlockAt v.file v.currentBlock.NextBlockPoint v.fs = ((blk, none), f1, fs1)) :
    ∃ (blk2 : fileBlock) (logs2 : List LogLine) (f2 : OsFile) (fs2 : FileSys),
      forwardLoop handler fileSize (k + 1) v =
        if handlerStops handler v.depth
            (sectionBytes fs2.bytes (int64 blk2.HeaderPoint) (int64 blk2.HeaderSize))
            (sectionBytes fs2.bytes (int64 blk2.DataPoint) (int64 blk2.DataSize)) then
          some (some none,
            ⟨blk2, toUint64 v.currentBlock.NextBlockPoint, v.depth,
              recordCall handler v.calls v.depth
                (sectionBytes fs2.bytes (int64 blk2.HeaderPoint) (int64 blk2.HeaderSize))
                (sectionBytes fs2.bytes (int64 blk2.DataPoint) (int64 blk2.DataSize)),
              logs2, f2, fs2⟩)
        else
          forwardLoop handler fileSize k
            ⟨blk2, toUint64 v.currentBlock.NextBlockPoint, toInt64 (v.depth + 1),
              recordCall handler v.calls v.depth
                (sectionBytes fs2.bytes (int64 blk2.HeaderPoint) (int64 blk2.HeaderSize))
                (sectionBytes fs2.bytes (int64 blk2.DataPoint) (int64 blk2.DataSize)),
              logs2, f2, fs2⟩ := by
  have hc1 : ¬ ¬ (v.currentBlock.NextBlockPoint < fileSize) := not_not_intro hc
  have hc2 : ¬ (v.currentBlock.NextBlockPoint > fileSize) := by omega
  by_cases hprev : blk.PrevBlock ≠ v.currentBlockOffset
  · rcases hw : fileBlock.writeTo { blk with PrevBlock := v.currentBlockOffset } f1
      v.currentBlock.NextBlockPoint fs1 with ⟨x, f2, fs2⟩
    refine ⟨{ blk with PrevBlock := v.currentBlockOffset },
      v.logs ++ [LogLine.badBackRef blk.PrevBlock v.currentBlockOffset], f2, fs2, ?_⟩
    rw [forwardLoop]
    rw [if_neg hc1, if_neg hc2, hrb]
    simp only [if_pos hprev, hw]
  · refine ⟨blk, v.logs, f1, fs1, ?_⟩
    rw [forwardLoop]
    rw [if_neg hc1, if_neg hc2, hrb]
    simp only [if_neg hprev]

theorem forwardLoop_read_error (handler : Handler) (fileSize : Int) (k : Nat) (v : FwdVars)
    (blk : fileBlock) (e : Errno) (f1 : OsFile) (fs1 : FileSys)
    (hc : v.currentBlock.NextBlockPoint < fileSize)
    (hrb : readBlockAt v.file v.currentBlock.NextBlockPoint v.fs = ((blk, some e), f1, fs1)) :
    ∃ res v1, forwardLoop handler fileSize (k + 1) v = some (res, v1) ∧ v1.calls = v.calls ∧
      res ≠ some none ∧ v1.depth = v.depth := by
  have hc1 : ¬ ¬ (v.currentBlock.NextBlockPoint < fileSize) := not_not_intro hc
  have hc2 : ¬ (v.currentBlock.NextBlockPoint > fileSize) := by omega
  rw [forwardLoop]
  rw [if_neg hc1, if_neg hc2, hrb]
  cases e <;> exact ⟨_, _, rfl, rfl, by simp, rfl⟩

theorem forwardLoop_end (handler : Handler) (fileSize : Int) (fuel : Nat) (v : FwdVars)
    (hc : ¬ (v.currentBlock.NextBlockPoint < fileSize)) :
    forwardLoop handler fileSize fuel v = some (none, v) := by
  rw [forwardLoop.eq_def]
  simp only
  rw [if_pos hc]

theorem forwardLoop_no_fuel (handler : Handler) (fileSize : Int) (v : FwdVars)
    (hc : v.currentBlock.NextBlockPoint < fileSize) :
    forwardLoop handler fileSize 0 v = none := by
  rw [forwardLoop.eq_def]
  simp only
  rw [if_neg (not_not_intro hc)]

theorem forwardLoop_exit (h : Int → List Byte → List Byte → Bool) (fileSize : Int)
    (fuel : Nat) :
    ∀ (v : FwdVars) (res : Option (Option Errno)) (v1 : FwdVars),
      forwardLoop (some h) fileSize fuel v = some (res, v1) →
      (∀ x ∈ v.calls, h x.depth x.header x.body = true) →
      res = some none ∨ ∀ x ∈ v1.calls, h x.depth x.header x.body = true := by
  induction fuel with
  | zero =>
    intro v res v1 hl hall
    by_cases hc : v.currentBlock.NextBlockPoint < fileSize
    · rw [forwardLoop_no_fuel _ _ _ hc] at hl
      simp at hl
    · rw [forwardLoop_end _ _ _ _ hc] at hl
      simp only [Option.some.injEq, Prod.mk.injEq] at hl
      obtain ⟨_, h2⟩ := hl
      subst h2
      exact Or.inr hall
  | succ k ih =>
    intro v res v1 hl hall
    by_cases hc : v.currentBlock.NextBlockPoint < fileSize
    · rcases hrb : readBlockAt v.file v.currentBlock.NextBlockPoint v.fs with
        ⟨⟨blk, _ | e⟩, f1, fs1⟩
      · obtain ⟨blk2, logs2, f2, fs2, hround⟩ :=
          forwardLoop_round (some h) fileSize k v blk f1 fs1 hc hrb
        rw [hround] at hl
        by_cases hstop : handlerStops (some h) v.depth
            (sectionBytes fs2.bytes (int64 blk2.HeaderPoint) (int64 blk2.HeaderSize))
            (sectionBytes fs2.bytes (int64 blk2.DataPoint) (int64 blk2.DataSize)) = true
        · rw [if_pos hstop] at hl
          simp only [Option.some.injEq, Prod.mk.injEq] at hl
          exact Or.inl hl.1.symm
        · rw [if_neg hstop] at hl
          refine ih _ res v1 hl ?_
          intro x hx
          simp only [recordCall, List.mem_append, List.mem_singleton] at hx
          rcases hx with hx | hx
          · exact hall x hx
          · subst hx
            simp only [handlerStops, Bool.not_eq_true', Bool.not_eq_false] at hstop
            exact hstop
      · obtain ⟨res2, v2, hround, hcalls, _, _⟩ :=
          forwardLoop_read_error (some h) fileSize k v blk e f1 fs1 hc hrb
        rw [hround] at hl
        simp only [Option.some.injEq, Prod.mk.injEq] at hl
        obtain ⟨_, h2⟩ := hl
        subst h2
        right
        rw [hcalls]
        exact hall
    · rw [forwardLoop_end _ _ _ _ hc] at hl
      simp only [Option.some.injEq, Prod.mk.injEq] at hl
      obtain ⟨_, h2⟩ := hl
      subst h2
      exact Or.inr hall

theorem IterateForward_early_exit (s : Stack) (fs : FileSys) (fuel : Nat)
    (h : Int → List Byte → List Byte → Bool) (r : IterResult)
    (hrun : s.IterateForward fuel (some h) fs = some r)
    (hfalse : ∃ x ∈ r.calls, h x.depth x.header x.body = false) :
    r.err = none ∧ r.stack.depth = s.depth ∧ r.stack.currentBlockPos = s.currentBlockPos ∧
    r.stack.currentBlock = s.currentBlock := by
  obtain ⟨x, hx, hxf⟩ := hfalse
  unfold Stack.IterateForward at hrun
  rcases getFile_cases s fs with ⟨file, fs0, hg, _, _⟩ | ⟨e2, fs0, hg, _⟩
  · rw [hg] at hrun
    simp only at hrun
    rcases hs1 : file.Seek 0 Whence.SEEK_END fs0 with ⟨⟨sz, _ | e⟩, f1, fs2⟩
    · rw [hs1] at hrun
      simp only at hrun
      rcases hs2 : f1.Seek 0 Whence.SEEK_SET fs2 with ⟨⟨y, _ | e⟩, f2, fs3⟩
      · rw [hs2] at hrun
        simp only at hrun
        rcases hl : forwardLoop (some h) sz fuel
          ⟨fileBlock.zero, 0, 0, [], [], f2, fs3⟩ with _ | ⟨res, v⟩
        · rw [hl] at hrun
          simp at hrun
        · rw [hl] at hrun
          have hex := forwardLoop_exit h sz fuel _ res v hl (by
            intro y hy
            simp at hy)
          rcases res with _ | e
          · simp only [Option.some.injEq] at hrun
            subst hrun
            simp only at hx
            rcases hex with h1 | h2
            · simp at h1
            · rw [h2 x hx] at hxf
              simp at hxf
          · simp only [Option.some.injEq] at hrun
            subst hrun
            simp only at hx ⊢
            rcases hex with h1 | h2
            · simp only [Option.some.injEq] at h1
              refine ⟨h1, ?_, ?_, ?_⟩ <;> trivial
            · rw [h2 x hx] at hxf
              simp at hxf
      · rw [hs2] at hrun
        simp only [Option.some.injEq] at hrun
        subst hrun
        simp at hx
    · rw [hs1] at hrun
      simp only [Option.some.injEq] at hrun
      subst hrun
      simp at hx
  · rw [hg] at hrun
    simp only [Option.some.injEq] at hrun
    subst hrun
    simp at hx

theorem forwardLoop_step_cases (handler : Handler) (e : Entry) (done : List Entry)
    (z : List Byte) (calls : List Call) (q fuel : Nat) (fileSize : Nat)
    (hfit : fileSize ≤ maxOffset) (hsize : (layout (e :: done) ++ z).length = fileSize) :
    forwardLoop handler (fileSize : Int) (fuel + 1)
        (fwdAt done calls q (layout (e :: done) ++ z)) =
      if handlerStops handler (done.length : Int) e.1 e.2 then
        some (some none,
          ⟨tailBlock (e :: done), tailPos (e :: done), (done.length : Int),
            recordCall handler calls (done.length : Int) e.1 e.2, [],
            ⟨false, tailPos (e :: done) + fileBlockDefineSize⟩, ⟨layout (e :: done) ++ z, []⟩⟩)
      else
        forwardLoop handler (fileSize : Int) fuel
          (fwdAt (e :: done) (recordCall handler calls (done.length : Int) e.1 e.2)
            (tailPos (e :: done) + fileBlockDefineSize) (layout (e :: done) ++ z)) := by
  have hsz := blocksSize_cons e done
  have h40 : fileBlockDefineSize = 40 := rfl
  have hl2 := layout_length (e :: done)
  have hll := layout_length done
  have hpos := tailPos_le done
  have hlen := length_le_blocksSize done
  rw [List.length_append, hl2] at hsize
  have hfit2 : blocksSize (e :: done) ≤ maxOffset := by omega
  have hst : blocksSize done ≤ maxOffset := by omega
  rw [forwardLoop]
  simp only [fwdAt]
  rw [NextBlockPoint_tailBlock done hst]
  have hc : ¬ ¬ ((blocksSize done : Int) < (fileSize : Int)) := by omega
  have hc2 : ¬ ((blocksSize done : Int) > (fileSize : Int)) := by omega
  rw [if_neg hc]
  rw [if_neg hc2]
  have hrb := readBlockAt_canon (e :: done) z q hfit2 (List.cons_ne_nil _ _)
  rw [tailPos_cons] at hrb
  rw [hrb]
  simp only [tailBlock_cons, ne_eq, not_true_eq_false, if_false]
  have hH : List.take e.1.length
      (List.drop (blocksSize done + fileBlockDefineSize) (layout (e :: done) ++ z)) = e.1 :=
    slice_eq _ (layout done ++ encodeBlock (tailBlock (e :: done))) e.1 (e.2 ++ z) _ _
      (by simp only [layout, List.append_assoc])
      (by rw [List.length_append, encodeBlock_length, hll, h40]) rfl
  have hB : List.take e.2.length
      (List.drop (blocksSize done + fileBlockDefineSize + e.1.length)
        (layout (e :: done) ++ z)) = e.2 :=
    slice_eq _ (layout done ++ encodeBlock (tailBlock (e :: done)) ++ e.1) e.2 z _ _
      (by simp only [layout, List.append_assoc])
      (by rw [List.length_append, List.length_append, encodeBlock_length, hll, h40]) rfl
  rw [int64_of_le _ (by omega), int64_of_le _ (by omega), int64_of_le _ (by omega),
    int64_of_le _ (by omega), sectionBytes_natCast, sectionBytes_natCast, hH, hB,
    toUint64_natCast _ hst, toInt64_succ _ (by omega)]
  simp only [tailPos_cons, List.length_cons]

theorem forwardLoop_stop_canon (handler : Handler) (pre : List Entry) :
    ∀ (done : List Entry) (calls : List Call) (q fuel : Nat) (e : Entry) (post : List Entry),
      (∀ x ∈ callsFrom done.length pre, handlerStops handler x.depth x.header x.body = false) →
      handlerStops handler ((done.length + pre.length : Nat) : Int) e.1 e.2 = true →
      blocksSize (post.reverse ++ (e :: (pre.reverse ++ done))) ≤ maxOffset →
      pre.length + 1 ≤ fuel →
      ∃ q1, forwardLoop handler (blocksSize (post.reverse ++ (e :: (pre.reverse ++ done))) : Int)
          fuel (fwdAt done calls q (layout (post.reverse ++ (e :: (pre.reverse ++ done))))) =
        some (some none,
          ⟨tailBlock (e :: (pre.reverse ++ done)), tailPos (e :: (pre.reverse ++ done)),
            ((done.length + pre.length : Nat) : Int),
            recordFrom handler calls done.length (pre ++ [e]), [], ⟨false, q1⟩,
            ⟨layout (post.reverse ++ (e :: (pre.reverse ++ done))), []⟩⟩) := by
  induction pre with
  | nil =>
    intro done calls q fuel e post _ hstop hfit hfuel
    obtain ⟨fuel1, rfl⟩ : ∃ k, fuel = k + 1 := ⟨fuel - 1, by omega⟩
    simp only [List.reverse_nil, List.nil_append, List.length_nil, Nat.add_zero] at hstop hfit ⊢
    obtain ⟨z, hz⟩ := layout_append post.reverse (e :: done)
    have hstep := forwardLoop_step_cases handler e done z calls q fuel1
      (blocksSize (post.reverse ++ (e :: done))) hfit (by rw [← hz, layout_length])
    rw [← hz, if_pos hstop] at hstep
    exact ⟨_, hstep⟩
  | cons p pre ih =>
    intro done calls q fuel e post htrue hstop hfit hfuel
    obtain ⟨fuel1, rfl⟩ : ∃ k, fuel = k + 1 := ⟨fuel - 1, by omega⟩
    simp only [List.length_cons, Nat.add_le_add_iff_right] at hfuel
    have hall : (p :: pre).reverse ++ done = pre.reverse ++ (p :: done) := by
      rw [List.reverse_cons, List.append_assoc, List.singleton_append]
    have hlen : done.length + (p :: pre).length = (p :: done).length + pre.length := by
      simp only [List.length_cons]
      omega
    rw [hall] at hfit ⊢
    rw [hlen] at hstop ⊢
    have hp : handlerStops handler (done.length : Int) p.1 p.2 = false :=
      htrue ⟨(done.length : Int), p.1, p.2⟩ (by simp [callsFrom])
    obtain ⟨q1, h1⟩ := ih (p :: done) (recordCall handler calls (done.length : Int) p.1 p.2)
      (tailPos (p :: done) + fileBlockDefineSize) fuel1 e post
      (fun x hx => htrue x (by
        simp only [callsFrom, List.mem_cons]
        exact Or.inr hx))
      hstop hfit hfuel
    have hsplit : post.reverse ++ (e :: (pre.reverse ++ (p :: done))) =
        (post.reverse ++ (e :: pre.reverse)) ++ (p :: done) := by
      simp only [List.append_assoc, List.cons_append]
    obtain ⟨z, hz⟩ := layout_append (post.reverse ++ (e :: pre.reverse)) (p :: done)
    rw [← hsplit] at hz
    have hstep := forwardLoop_step_cases handler p done z calls q fuel1
      (blocksSize (post.reverse ++ (e :: (pre.reverse ++ (p :: done))))) hfit
      (by rw [← hz, layout_length])
    rw [← hz, hp] at hstep
    simp only [Bool.false_eq_true, if_false] at hstep
    refine ⟨q1, ?_⟩
    rw [hstep, h1]
    rfl

theorem IterateForward_stop_canon (h : Int → List Byte → List Byte → Bool)
    (pre : List Entry) (e : Entry) (post : List Entry) (s : Stack) (p fuel : Nat)
    (hs : s.file = some ⟨false, p⟩)
    (htrue : ∀ x ∈ callsFrom 0 pre, h x.depth x.header x.body = true)
    (hfalse : h (pre.length : Int) e.1 e.2 = false)
    (hfit : blocksSize (pre ++ e :: post) ≤ maxOffset) (hfuel : pre.length + 1 ≤ fuel) :
    ∃ r, s.IterateForward fuel (some h) (canonFs (pre ++ e :: post).reverse) = some r ∧
      r.err = none ∧ r.calls = callsFrom 0 (pre ++ [e]) ∧ r.stack.depth = s.depth ∧
      r.stack.currentBlockPos = s.currentBlockPos ∧ r.stack.currentBlock = s.currentBlock ∧
      r.fs = canonFs (pre ++ e :: post).reverse := by
  have hrev : (pre ++ e :: post).reverse = post.reverse ++ (e :: (pre.reverse ++ [])) := by
    simp only [List.reverse_append, List.reverse_cons, List.append_assoc, List.singleton_append,
      List.append_nil]
  have hfit1 : blocksSize (post.reverse ++ (e :: (pre.reverse ++ []))) ≤ maxOffset := by
    rw [← hrev, blocksSize_reverse]
    exact hfit
  obtain ⟨q1, hloop⟩ := forwardLoop_stop_canon (some h) pre [] [] 0 fuel e post
    (by
      intro x hx
      simp only [handlerStops, htrue x hx, Bool.not_true])
    (by
      simp only [List.length_nil, Nat.zero_add, handlerStops, hfalse, Bool.not_false])
    hfit1 hfuel
  have hll := layout_length (post.reverse ++ (e :: (pre.reverse ++ [])))
  have hinit : FwdVars.mk fileBlock.zero 0 0 [] [] ⟨false, 0⟩
      ⟨layout (post.reverse ++ (e :: (pre.reverse ++ []))), []⟩ =
      fwdAt [] [] 0 (layout (post.reverse ++ (e :: (pre.reverse ++ [])))) := rfl
  rw [hrev]
  unfold Stack.IterateForward
  simp only [Stack.getFile, hs, canonFs]
  rw [Seek_end_ok]
  simp only
  rw [Seek_zero_ok]
  simp only
  rw [hinit, hll, hloop]
  simp only
  rw [deferSeekEnd_ok]
  refine ⟨_, rfl, rfl, ?_, rfl, rfl, rfl, rfl⟩
  simp only [recordFrom_some, List.nil_append, List.length_nil]

theorem Pop_step_errors (s : Stack) (fs : FileSys) (f : OsFile) (hd : s.depth ≠ 0)
    (hg : (s.getFile fs).1.1 = some f) :
    (∀ x e fs2,
      f.ReadAt s.currentBlock.HeaderSize (int64 s.currentBlock.HeaderPoint)
        (s.getFile fs).2.2 = ((x, some e), fs2) →
      (s.Pop fs).1.2.2 ≠ none) ∧
    (∀ x fs2 y e fs3,
      f.ReadAt s.currentBlock.HeaderSize (int64 s.currentBlock.HeaderPoint)
        (s.getFile fs).2.2 = ((x, none), fs2) →
      f.ReadAt s.currentBlock.DataSize (int64 s.currentBlock.DataPoint) fs2 =
        ((y, some e), fs3) →
      (s.Pop fs).1.2.2 ≠ none) ∧
    (∀ x fs2 y fs3 blk e f1 fs4,
      f.ReadAt s.currentBlock.HeaderSize (int64 s.currentBlock.HeaderPoint)
        (s.getFile fs).2.2 = ((x, none), fs2) →
      f.ReadAt s.currentBlock.DataSize (int64 s.currentBlock.DataPoint) fs2 =
        ((y, none), fs3) →
      s.currentBlockPos ≠ 0 →
      readBlockAt f (int64 s.currentBlock.PrevBlock) fs3 = ((blk, some e), f1, fs4) →
      (s.Pop fs).1.2.2 ≠ none) ∧
    (∀ x fs2 y fs3 blk f1 fs4 e fs5,
      f.ReadAt s.currentBlock.HeaderSize (int64 s.currentBlock.HeaderPoint)
        (s.getFile fs).2.2 = ((x, none), fs2) →
      f.ReadAt s.currentBlock.DataSize (int64 s.currentBlock.DataPoint) fs2 =
        ((y, none), fs3) →
      (if s.currentBlockPos ≠ 0 then readBlockAt f (int64 s.currentBlock.PrevBlock) fs3
        else ((fileBlock.zero, none), f, fs3)) = ((blk, none), f1, fs4) →
      f1.Truncate s.currentBlockPos fs4 = (some e, fs5) →
      (s.Pop fs).1.2.2 ≠ none) := by
  rcases getFile_cases s fs with ⟨f0, fs0, hg0, _, _⟩ | ⟨e0, fs0, hg0, _⟩
  · rw [hg0] at hg ⊢
    simp only [Option.some.injEq] at hg
    subst hg
    refine ⟨?_, ?_, ?_, ?_⟩
    · intro x e fs2 h1
      unfold Stack.Pop
      rw [if_neg hd, hg0]
      simp only
      split
      · simp
      · split
        · simp
        · rw [h1]
          simp
    · intro x fs2 y e fs3 h1 h2
      unfold Stack.Pop
      rw [if_neg hd, hg0]
      simp only
      split
      · simp
      · split
        · simp
        · rw [h1]
          simp only
          rw [h2]
          simp
    · intro x fs2 y fs3 blk e f1 fs4 h1 h2 hpos h3
      unfold Stack.Pop
      rw [if_neg hd, hg0]
      simp only
      split
      · simp
      · split
        · simp
        · rw [h1]
          simp only
          rw [h2]
          simp only [if_pos hpos, h3]
          simp
    · intro x fs2 y fs3 blk f1 fs4 e fs5 h1 h2 h3 h4
      unfold Stack.Pop
      rw [if_neg hd, hg0]
      simp only
      split
      · simp
      · split
        · simp
        · rw [h1]
          simp only
          rw [h2]
          simp only [h3, h4]
          simp
  · rw [hg0] at hg
    simp at hg

/-! ## Layout of a push -/

/-- Push appends at the end the cached descriptor declares, whatever the depth: on a stack
of depth 0 over an empty file whose cached descriptor ends at offset 5 (a state no sequence
of calls produces), Push([1], [2]) seeks to offset 5 and the file gains 47 bytes. -/
theorem Push_after_stale_descriptor :
    gapStack.depth = 0 ∧ (⟨[], []⟩ : FileSys).bytes.length = 0 ∧
    (gapStack.Push [1] [2] ⟨[], []⟩).1 = (1, none) ∧
    (gapStack.Push [1] [2] ⟨[], []⟩).2.2.bytes.length = 47 ∧
    (gapStack.Push [1] [2] ⟨[], []⟩).2.2.bytes ≠
      ([] : List Byte) ++ encodeBlock ⟨0, 40, 1, 41, 1⟩ ++ [1] ++ [2] := by
  decide!

/-- Layout of a push in every state whose file length equals the cached descriptor's
bodyOffset + bodySize (both 0 on an empty stack): the file gains exactly the descriptor,
the header and the body at its end. -/
theorem Push_layout_of_length (s : Stack) (h b : List Byte) (fs : FileSys) (d : Int) (s1 : Stack)
    (fs1 : FileSys) (hd : 0 ≤ s.depth)
    (hpos : 0 < s.depth →
      fs.bytes.length = s.currentBlock.DataPoint + s.currentBlock.DataSize)
    (hzero : s.depth = 0 →
      fs.bytes.length = 0 ∧ s.currentBlock.DataPoint + s.currentBlock.DataSize = 0)
    (hmax : fs.bytes.length ≤ maxOffset)
    (hp : s.Push h b fs = ((d, none), s1, fs1)) :
    fs1.bytes = fs.bytes ++
      encodeBlock ⟨toUint64 s.currentBlockPos, fs.bytes.length + 40, h.length,
        fs.bytes.length + 40 + h.length, b.length⟩ ++ h ++ b ∧
    fs1.bytes.take fs.bytes.length = fs.bytes ∧
    fs1.bytes.length = fs.bytes.length + (40 + h.length + b.length) ∧
    s1.currentBlock = ⟨toUint64 s.currentBlockPos, fs.bytes.length + 40, h.length,
        fs.bytes.length + 40 + h.length, b.length⟩ ∧
    s1.currentBlockPos = (fs.bytes.length : Int) := by
  have h40 : fileBlockDefineSize = 40 := rfl
  have hlen : fs.bytes.length = s.currentBlock.DataPoint + s.currentBlock.DataSize := by
    by_cases h0 : s.depth = 0
    · obtain ⟨a1, a2⟩ := hzero h0
      omega
    · exact hpos (by omega)
  obtain ⟨q, hq, hle, _, _, hcp, hcb, hbytes⟩ := Push_inv _ _ _ _ _ _ _ hp
  have hn : s.currentBlock.NextBlockPoint = (fs.bytes.length : Int) := by
    unfold fileBlock.NextBlockPoint
    rw [addUint64_of_le _ _ (by omega), int64_of_le _ (by omega), hlen]
  rw [hn] at hq
  have hqe : q = fs.bytes.length := by omega
  subst hqe
  rw [h40] at hbytes hcb
  have hb2 : fs1.bytes = fs.bytes ++
      encodeBlock ⟨toUint64 s.currentBlockPos, fs.bytes.length + 40, h.length,
        fs.bytes.length + 40 + h.length, b.length⟩ ++ h ++ b := by
    rw [hbytes, writeAt_at_end fs.bytes _ _ rfl,
      writeAt_at_end (fs.bytes ++ _) h _ (by rw [List.length_append, encodeBlock_length]),
      writeAt_at_end (fs.bytes ++ _ ++ h) b _ (by
        rw [List.length_append, List.length_append, encodeBlock_length])]
  refine ⟨hb2, ?_, ?_, hcb, hcp⟩
  · rw [hb2]
    simp only [List.append_assoc, List.take_left']
  · rw [hb2]
    simp only [List.length_append, encodeBlock_length]
    omega

/-! ## Claims -/

/-- C1. LIFO order: for every sequence of N entries pushed onto a freshly created stack, all
the pushes return a nil error, and N pops then return the pushed pairs in exact reverse
order, each with a nil error; after the i-th pop `Depth()` is N - i, and after the last one
it is 0. The entries must fit a file (their blocks take at most `2^63 - 1` bytes). -/
theorem C1_lifo (pairs : List Entry) (c : List Byte) (fuel : Nat)
    (hfit : blocksSize pairs ≤ maxOffset) :
    ∃ s0 fs0, CreateStack fuel ⟨c, []⟩ = some ((some s0, none), fs0) ∧
      (pushAll pairs s0 fs0).1.map Prod.snd = List.replicate pairs.length none ∧
      (popN pairs.length (pushAll pairs s0 fs0).2.1 (pushAll pairs s0 fs0).2.2).1.map Prod.fst =
        pairs.reverse.map (fun e => (e.1, e.2, none)) ∧
      (popN pairs.length (pushAll pairs s0 fs0).2.1 (pushAll pairs s0 fs0).2.2).1.map Prod.snd =
        (List.range pairs.length).reverse.map (fun (i : Nat) => (i : Int)) ∧
      (popN pairs.length (pushAll pairs s0 fs0).2.1 (pushAll pairs s0 fs0).2.2).2.1.Depth = 0 := by
  have hfit1 : blocksSize (pairs.reverse ++ []) ≤ maxOffset := by
    rw [List.append_nil, blocksSize_reverse]
    exact hfit
  obtain ⟨q, hq⟩ := pushAll_canon pairs [] 0 hfit1
  obtain ⟨q1, hp⟩ := popN_canon pairs.reverse [] q hfit1
  rw [List.length_reverse] at hp
  refine ⟨canonStack [] 0, canonFs [], CreateStack_fresh c fuel, ?_⟩
  rw [hq]
  simp only
  rw [hp]
  simp only [List.length_nil]
  refine ⟨?_, popResults_fst _ _, ?_, rfl⟩
  · simp only [List.map_map]
    rw [List.eq_replicate_iff]
    constructor
    · rw [List.length_map, List.length_range]
    · intro b hb
      rw [List.mem_map] at hb
      obtain ⟨i, _, rfl⟩ := hb
      rfl
  · rw [popResults_snd, List.length_reverse]

/-- C1 at two entries, the second with an empty header. -/
theorem C1_lifo_witness :
    blocksSize twoEntries ≤ maxOffset ∧
    ∃ s0 fs0, CreateStack 0 ⟨[9], []⟩ = some ((some s0, none), fs0) ∧
      (pushAll twoEntries s0 fs0).1.map Prod.snd = List.replicate twoEntries.length none ∧
      (popN twoEntries.length (pushAll twoEntries s0 fs0).2.1
          (pushAll twoEntries s0 fs0).2.2).1.map Prod.fst =
        twoEntries.reverse.map (fun e => (e.1, e.2, none)) ∧
      (popN twoEntries.length (pushAll twoEntries s0 fs0).2.1
          (pushAll twoEntries s0 fs0).2.2).1.map Prod.snd =
        (List.range twoEntries.length).reverse.map (fun (i : Nat) => (i : Int)) ∧
      (popN twoEntries.length (pushAll twoEntries s0 fs0).2.1
          (pushAll twoEntries s0 fs0).2.2).2.1.Depth = 0 :=
  ⟨by decide, C1_lifo twoEntries [9] 0 (by decide)⟩

/-- C2. Durability across reopen: after any sequence of pushes onto a freshly created stack,
`OpenStack` on the resulting file returns a stack and no error, leaves the file as it is, and
its depth (the number of pushes), tail offset and cached tail descriptor are the ones held in
memory after the last push; `Depth()` and `Peak()` give the same results on both stacks. The
entries must fit a file, and the scan is given at least one round per block. -/
theorem C2_reopen (pairs : List Entry) (c : List Byte) (fuel0 fuel : Nat)
    (hfit : blocksSize pairs ≤ maxOffset) (hfuel : pairs.length ≤ fuel) :
    ∃ s0 fs0, CreateStack fuel0 ⟨c, []⟩ = some ((some s0, none), fs0) ∧
      ∃ s1, OpenStack fuel (pushAll pairs s0 fs0).2.2 =
          some ((some s1, none), (pushAll pairs s0 fs0).2.2) ∧
        s1.depth = (pairs.length : Int) ∧
        s1.depth = (pushAll pairs s0 fs0).2.1.depth ∧
        s1.currentBlockPos = (pushAll pairs s0 fs0).2.1.currentBlockPos ∧
        s1.currentBlock = (pushAll pairs s0 fs0).2.1.currentBlock ∧
        s1.Depth = (pushAll pairs s0 fs0).2.1.Depth ∧
        (s1.Peak (pushAll pairs s0 fs0).2.2).1 =
          ((pushAll pairs s0 fs0).2.1.Peak (pushAll pairs s0 fs0).2.2).1 := by
  have hfit1 : blocksSize (pairs.reverse ++ []) ≤ maxOffset := by
    rw [List.append_nil, blocksSize_reverse]
    exact hfit
  obtain ⟨q, hq⟩ := pushAll_canon pairs [] 0 hfit1
  refine ⟨canonStack [] 0, canonFs [], CreateStack_fresh c fuel0, ?_⟩
  rw [hq]
  simp only
  refine ⟨canonStack (pairs.reverse ++ []) (blocksSize (pairs.reverse ++ [])),
    OpenStack_canon _ fuel hfit1 (by simpa using hfuel), ?_, rfl, rfl, rfl, rfl,
    Peak_canon_result _ _ _ hfit1⟩
  simp only [canonStack, List.append_nil, List.length_reverse]

/-- C2 at two entries, reopened with fuel for two rounds. -/
theorem C2_reopen_witness :
    blocksSize twoEntries ≤ maxOffset ∧ twoEntries.length ≤ 2 ∧
    ∃ s0 fs0, CreateStack 0 ⟨[], []⟩ = some ((some s0, none), fs0) ∧
      ∃ s1, OpenStack 2 (pushAll twoEntries s0 fs0).2.2 =
          some ((some s1, none), (pushAll twoEntries s0 fs0).2.2) ∧
        s1.depth = (twoEntries.length : Int) ∧
        s1.depth = (pushAll twoEntries s0 fs0).2.1.depth ∧
        s1.currentBlockPos = (pushAll twoEntries s0 fs0).2.1.currentBlockPos ∧
        s1.currentBlock = (pushAll twoEntries s0 fs0).2.1.currentBlock ∧
        s1.Depth = (pushAll twoEntries s0 fs0).2.1.Depth ∧
        (s1.Peak (pushAll twoEntries s0 fs0).2.2).1 =
          ((pushAll twoEntries s0 fs0).2.1.Peak (pushAll twoEntries s0 fs0).2.2).1 :=
  ⟨by decide, by decide, C2_reopen twoEntries [] 0 2 (by decide) (by decide)⟩

/-- C3 (evaluation at the failing inputs). The prefix of `tornDescriptorFile` is the file
one push builds, and a second push whose descriptor write fails after three bytes leaves
exactly `tornDescriptorFile`. On it, and on a file of a single stray byte, the repair pass
that `OpenStack` runs returns `io.ErrUnexpectedEOF` and no stack, and the file is not
truncated: `binary.Read` reports a short descriptor as `ErrUnexpectedEOF`, which the
comparison with `io.EOF` in `IterateForward` does not catch. -/
theorem C3_torn_descriptor_is_surfaced :
    CreateStack 0 ⟨[], []⟩ = some ((some freshStack, none), ⟨[], []⟩) ∧
    pushedOnce.2.bytes = tornDescriptorFile.take 42 ∧
    (pushedOnce.1.Push [3] [4]
        ⟨pushedOnce.2.bytes, [Fault.pass, Fault.fail 3]⟩).2.2.bytes = tornDescriptorFile ∧
    OpenStack 5 ⟨tornDescriptorFile, []⟩ =
      some ((none, some Errno.ErrUnexpectedEOF), ⟨tornDescriptorFile, []⟩) ∧
    OpenStack 5 ⟨[7], []⟩ = some ((none, some Errno.ErrUnexpectedEOF), ⟨[7], []⟩) := by
  decide!

/-- C4 (evaluation at the failing input). A push of an empty header and a five-byte body
whose body write fails after two bytes leaves `danglingBlockFile`. The repair pass that
`OpenStack` runs on it returns no error, leaves all 42 bytes in place and commits depth 1
with the dangling descriptor as tail, whose body would end at offset 45, past the end of the
file; a `Pop` on the stack so opened fails with `io.EOF`. The loop condition
`NextBlockPoint() < fileSize` ends the loop before the "bad reference to next block"
truncation can run. -/
theorem C4_dangling_block_is_committed :
    (freshStack.Push [] [1, 2, 3, 4, 5]
        ⟨[], [Fault.pass, Fault.pass, Fault.pass, Fault.fail 2]⟩).2.2.bytes =
      danglingBlockFile ∧
    OpenStack 5 ⟨danglingBlockFile, []⟩ =
      some ((some ⟨1, ⟨0, 40, 0, 40, 5⟩, 0, some ⟨false, 42⟩⟩, none),
        ⟨danglingBlockFile, []⟩) ∧
    danglingBlockFile.length = 42 ∧
    ((⟨1, ⟨0, 40, 0, 40, 5⟩, 0, some ⟨false, 42⟩⟩ : Stack).Pop ⟨danglingBlockFile, []⟩).1 =
      ([], [], some Errno.EOF) := by
  decide!

/-- C5 (evaluation at the failing input). After one push, `Close()` returns nil, yet the
stack keeps the closed handle in its `file` field, so `getFile` never reopens the file: a
following `Push`, `Pop`, `Peak`, `PeakHeader` or `IterateForward` fails with "file already
closed", while the same `Push` and `Pop` without the `Close()` succeed. -/
theorem C5_closed_handle_is_not_reopened :
    CreateStack 0 ⟨[], []⟩ = some ((some freshStack, none), ⟨[], []⟩) ∧
    pushedOnce.1.Close.1 = none ∧
    closedOnce.file = some ⟨true, 42⟩ ∧
    (closedOnce.getFile pushedOnce.2).1 = (some ⟨true, 42⟩, none) ∧
    (closedOnce.Push [3] [4] pushedOnce.2).1 = (-1, some Errno.ErrClosed) ∧
    (closedOnce.Pop pushedOnce.2).1 = ([], [], some Errno.ErrClosed) ∧
    (closedOnce.Peak pushedOnce.2).1 = ([], [], some Errno.ErrClosed) ∧
    (closedOnce.PeakHeader pushedOnce.2).1 = ([], some Errno.ErrClosed) ∧
    (closedOnce.IterateForward 5 none pushedOnce.2).map (fun r => r.err) =
      some (some Errno.ErrClosed) ∧
    (pushedOnce.1.Push [3] [4] pushedOnce.2).1 = (2, none) ∧
    (pushedOnce.1.Pop pushedOnce.2).1 = ([1], [2], none) := by
  decide!

/-- C6. Recovery at a block boundary: cut the file built by K pushes at the end of the M-th
block (M ≤ K; this offset is the next-block point of the M-th pushed descriptor). Then
`OpenStack` on the cut file returns a stack and no error, leaves the file as it is, and
commits depth M with the tail offset and tail descriptor held after the M-th push. The
entries must fit a file, and the scan is given at least M rounds. -/
theorem C6_cut_at_boundary (pairs : List Entry) (M : Nat) (c : List Byte) (fuel0 fuel : Nat)
    (hfit : blocksSize pairs ≤ maxOffset) (hM : M ≤ pairs.length) (hfuel : M ≤ fuel) :
    ∃ s0 fs0, CreateStack fuel0 ⟨c, []⟩ = some ((some s0, none), fs0) ∧
      (pushAll (pairs.take M) s0 fs0).2.1.currentBlock.NextBlockPoint =
        (blocksSize (pairs.take M) : Int) ∧
      ∃ s1, OpenStack fuel
            ⟨(pushAll pairs s0 fs0).2.2.bytes.take (blocksSize (pairs.take M)), []⟩ =
          some ((some s1, none),
            ⟨(pushAll pairs s0 fs0).2.2.bytes.take (blocksSize (pairs.take M)), []⟩) ∧
        s1.depth = (M : Int) ∧
        s1.currentBlockPos = (pushAll (pairs.take M) s0 fs0).2.1.currentBlockPos ∧
        s1.currentBlock = (pushAll (pairs.take M) s0 fs0).2.1.currentBlock := by
  have hle := blocksSize_take_le pairs M
  have hfit1 : blocksSize (pairs.reverse ++ []) ≤ maxOffset := by
    rw [List.append_nil, blocksSize_reverse]
    exact hfit
  have hfitM : blocksSize (pairs.take M).reverse ≤ maxOffset := by
    rw [blocksSize_reverse]
    omega
  have hfitM1 : blocksSize ((pairs.take M).reverse ++ []) ≤ maxOffset := by
    rw [List.append_nil]
    exact hfitM
  obtain ⟨q, hq⟩ := pushAll_canon pairs [] 0 hfit1
  obtain ⟨qM, hqM⟩ := pushAll_canon (pairs.take M) [] 0 hfitM1
  have hlen : (pairs.take M).reverse.length = M := by
    rw [List.length_reverse, List.length_take]
    omega
  refine ⟨canonStack [] 0, canonFs [], CreateStack_fresh c fuel0, ?_⟩
  rw [hq, hqM]
  simp only [List.append_nil, canonFs]
  rw [layout_take]
  refine ⟨?_, canonStack (pairs.take M).reverse (blocksSize (pairs.take M).reverse),
    OpenStack_canon _ fuel hfitM (by omega), ?_, rfl, rfl⟩
  · have h := NextBlockPoint_tailBlock (pairs.take M).reverse hfitM
    rw [blocksSize_reverse] at h
    exact h
  · simp only [canonStack, hlen]

/-- C6 at two entries cut after the first block. -/
theorem C6_cut_at_boundary_witness :
    blocksSize twoEntries ≤ maxOffset ∧ 1 ≤ twoEntries.length ∧ 1 ≤ 1 ∧
    ∃ s0 fs0, CreateStack 0 ⟨[], []⟩ = some ((some s0, none), fs0) ∧
      (pushAll (twoEntries.take 1) s0 fs0).2.1.currentBlock.NextBlockPoint =
        (blocksSize (twoEntries.take 1) : Int) ∧
      ∃ s1, OpenStack 1
            ⟨(pushAll twoEntries s0 fs0).2.2.bytes.take (blocksSize (twoEntries.take 1)), []⟩ =
          some ((some s1, none),
            ⟨(pushAll twoEntries s0 fs0).2.2.bytes.take (blocksSize (twoEntries.take 1)), []⟩) ∧
        s1.depth = (1 : Nat) ∧
        s1.currentBlockPos = (pushAll (twoEntries.take 1) s0 fs0).2.1.currentBlockPos ∧
        s1.currentBlock = (pushAll (twoEntries.take 1) s0 fs0).2.1.currentBlock :=
  ⟨by decide, by decide, by decide,
    C6_cut_at_boundary twoEntries 1 [] 0 1 (by decide) (by decide) (by decide)⟩

/-- C7. Forward iteration: after any sequence of K pushes onto a fresh stack, `IterateForward`
with a handler that always returns true returns a nil error and invokes the handler exactly K
times, in push order, with the indices 0, 1, ..., K-1, the two readers of the i-th call
yielding exactly the header and the body of the i-th push; nothing is logged and the file is
not changed. For K = 0 the handler is never invoked. The entries must fit a file, and the
scan is given at least K rounds. -/
theorem C7_iterate_forward (pairs : List Entry) (c : List Byte) (fuel0 fuel : Nat)
    (f : Int → List Byte → List Byte → Bool) (hf : ∀ d hd bd, f d hd bd = true)
    (hfit : blocksSize pairs ≤ maxOffset) (hfuel : pairs.length ≤ fuel) :
    ∃ s0 fs0, CreateStack fuel0 ⟨c, []⟩ = some ((some s0, none), fs0) ∧
      ∃ r, (pushAll pairs s0 fs0).2.1.IterateForward fuel (some f) (pushAll pairs s0 fs0).2.2 =
          some r ∧
        r.err = none ∧ r.calls = callsFrom 0 pairs ∧ r.calls.length = pairs.length ∧
        r.logs = [] ∧ r.fs = (pushAll pairs s0 fs0).2.2 := by
  have hfit1 : blocksSize (pairs.reverse ++ []) ≤ maxOffset := by
    rw [List.append_nil, blocksSize_reverse]
    exact hfit
  obtain ⟨q, hq⟩ := pushAll_canon pairs [] 0 hfit1
  have hit := IterateForward_canon (some f) (handlerStops_true f hf) (pairs.reverse ++ [])
    (canonStack (pairs.reverse ++ []) q) q fuel rfl hfit1 (by simpa using hfuel)
  refine ⟨canonStack [] 0, canonFs [], CreateStack_fresh c fuel0, ?_⟩
  rw [hq]
  simp only
  refine ⟨_, hit, rfl, ?_, ?_, rfl, rfl⟩
  · simp only [List.append_nil, List.reverse_reverse, recordFrom_some, List.nil_append]
  · simp only [List.append_nil, List.reverse_reverse, recordFrom_some, List.nil_append,
      callsFrom_length]

/-- C7 at two entries with the handler that always returns true. -/
theorem C7_iterate_forward_witness :
    (∀ (d : Int) (hd bd : List Byte), (fun _ _ _ => true) d hd bd = true) ∧
    blocksSize twoEntries ≤ maxOffset ∧ twoEntries.length ≤ 2 ∧
    ∃ s0 fs0, CreateStack 0 ⟨[], []⟩ = some ((some s0, none), fs0) ∧
      ∃ r, (pushAll twoEntries s0 fs0).2.1.IterateForward 2 (some (fun _ _ _ => true))
            (pushAll twoEntries s0 fs0).2.2 = some r ∧
        r.err = none ∧ r.calls = callsFrom 0 twoEntries ∧ r.calls.length = twoEntries.length ∧
        r.logs = [] ∧ r.fs = (pushAll twoEntries s0 fs0).2.2 :=
  ⟨fun _ _ _ => rfl, by decide, by decide,
    C7_iterate_forward twoEntries [] 0 2 (fun _ _ _ => true) (fun _ _ _ => rfl) (by decide)
      (by decide)⟩

/-- C8. Backward iteration: after any sequence of K pushes onto a fresh stack,
`IterateBackward` with a handler that always returns true returns a nil error and invokes the
handler exactly K times, the j-th call (j = 1..K) receiving the index K - j + 1 and readers
yielding the header and body of push number K - j + 1 (exact reverse of push order). The walk
ends at the self-loop head block with its counter at 0: nothing is logged, neither the
"danger back-ref" line nor the "broken back path" line. The entries must fit a file, and the
walk is given at least K rounds. -/
theorem C8_iterate_backward (pairs : List Entry) (c : List Byte) (fuel0 fuel : Nat)
    (f : Int → List Byte → List Byte → Bool) (hf : ∀ d hd bd, f d hd bd = true)
    (hfit : blocksSize pairs ≤ maxOffset) (hfuel : pairs.length ≤ fuel) :
    ∃ s0 fs0, CreateStack fuel0 ⟨c, []⟩ = some ((some s0, none), fs0) ∧
      ∃ r, (pushAll pairs s0 fs0).2.1.IterateBackward fuel (some f) (pushAll pairs s0 fs0).2.2 =
          some r ∧
        r.err = none ∧ r.calls = (callsFrom 1 pairs).reverse ∧
        r.calls.length = pairs.length ∧ r.logs = [] ∧ r.fs = (pushAll pairs s0 fs0).2.2 := by
  have hfit1 : blocksSize (pairs.reverse ++ []) ≤ maxOffset := by
    rw [List.append_nil, blocksSize_reverse]
    exact hfit
  obtain ⟨q, hq⟩ := pushAll_canon pairs [] 0 hfit1
  obtain ⟨q1, hit⟩ := IterateBackward_canon (some f) (handlerStops_true f hf)
    (pairs.reverse ++ []) q fuel hfit1 (by simpa using hfuel)
  refine ⟨canonStack [] 0, canonFs [], CreateStack_fresh c fuel0, ?_⟩
  rw [hq]
  simp only
  refine ⟨_, hit, rfl, ?_, ?_, rfl, rfl⟩
  · simp only [List.append_nil, List.reverse_reverse, recordBack_some, List.nil_append]
  · simp only [List.append_nil, List.reverse_reverse, recordBack_some, List.nil_append,
      List.length_reverse, callsFrom_length]

/-- C8 at two entries with the handler that always returns true. -/
theorem C8_iterate_backward_witness :
    (∀ (d : Int) (hd bd : List Byte), (fun _ _ _ => true) d hd bd = true) ∧
    blocksSize twoEntries ≤ maxOffset ∧ twoEntries.length ≤ 2 ∧
    ∃ s0 fs0, CreateStack 0 ⟨[], []⟩ = some ((some s0, none), fs0) ∧
      ∃ r, (pushAll twoEntries s0 fs0).2.1.IterateBackward 2 (some (fun _ _ _ => true))
            (pushAll twoEntries s0 fs0).2.2 = some r ∧
        r.err = none ∧ r.calls = (callsFrom 1 twoEntries).reverse ∧
        r.calls.length = twoEntries.length ∧ r.logs = [] ∧
        r.fs = (pushAll twoEntries s0 fs0).2.2 :=
  ⟨fun _ _ _ => rfl, by decide, by decide,
    C8_iterate_backward twoEntries [] 0 2 (fun _ _ _ => true) (fun _ _ _ => rfl) (by decide)
      (by decide)⟩

/-! ### Reads of the tail (C9, C10) -/

/-- C9. Empty-stack reads are not errors: whenever the depth is 0, each of Pop, Peak and
PeakHeader returns empty results and a nil error, and leaves the stack (depth, tail offset,
cached tail descriptor, handle) and the file exactly as they were. -/
theorem C9_empty_reads (s : Stack) (fs : FileSys) (h : s.depth = 0) :
    s.Pop fs = (([], [], none), s, fs) ∧ s.Peak fs = (([], [], none), s, fs) ∧
    s.PeakHeader fs = (([], none), s, fs) := by
  refine ⟨?_, ?_, ?_⟩
  · simp [Stack.Pop, h]
  · simp [Stack.Peak, h]
  · simp [Stack.PeakHeader, h]

/-- C9 at a stack of depth 0 over a file that is not empty. -/
theorem C9_empty_reads_witness :
    (⟨0, fileBlock.zero, 0, some ⟨false, 0⟩⟩ : Stack).depth = 0 ∧
    (⟨0, fileBlock.zero, 0, some ⟨false, 0⟩⟩ : Stack).Pop ⟨[1, 2, 3], []⟩ =
      (([], [], none), ⟨0, fileBlock.zero, 0, some ⟨false, 0⟩⟩, ⟨[1, 2, 3], []⟩) :=
  ⟨rfl, (C9_empty_reads ⟨0, fileBlock.zero, 0, some ⟨false, 0⟩⟩ ⟨[1, 2, 3], []⟩ rfl).1⟩

/-- C10. Peek is read-only: for every stack state, every file, every failure schedule and
hence every outcome, Peak and PeakHeader leave depth, tail offset, cached tail descriptor,
the file bytes and the file length exactly as they were before the call. -/
theorem C10_peek_read_only (s : Stack) (fs : FileSys) :
    SameVisible s fs (s.Peak fs).2.1 (s.Peak fs).2.2 ∧
    SameVisible s fs (s.PeakHeader fs).2.1 (s.PeakHeader fs).2.2 :=
  ⟨Peak_frame s fs, PeakHeader_frame s fs⟩

/-! ### Invariants of the reachable states (C11, C12, C16, C18) -/

/-- C11. Peek agrees with Pop: in every state reached from a fresh stack by successful
calls, with depth > 0 and no failure scheduled for the calls to come, Peak returns exactly
the (header, body) of the most recent push not yet popped, a Pop right after that Peak (and
equally a Pop instead of it) returns the same pair, and PeakHeader returns exactly the
header of that pair. -/
theorem C11_peek_agrees_with_pop (st : List Entry) (s : Stack) (fs : FileSys)
    (hr : Reachable st s fs) (hd : 0 < s.depth) (hq : fs.faults = []) :
    ∃ e rest, st = e :: rest ∧
      (s.Peak fs).1 = (e.1, e.2, none) ∧
      ((s.Peak fs).2.1.Pop (s.Peak fs).2.2).1 = (e.1, e.2, none) ∧
      (s.Pop fs).1 = (e.1, e.2, none) ∧
      (s.PeakHeader fs).1 = (e.1, none) := by
  obtain ⟨p, hs, hb, hfit⟩ := Reachable_canon st s fs hr
  subst hs
  have hfs : fs = canonFs st := by
    obtain ⟨c, fl⟩ := fs
    simp only at hb hq
    subst hb hq
    rfl
  subst hfs
  cases st with
  | nil =>
    simp only [canonStack, List.length_nil] at hd
    omega
  | cons e rest =>
    obtain ⟨q, hpop⟩ := Pop_canon rest p e.1 e.2 hfit
    refine ⟨e, rest, rfl, ?_, ?_, ?_, ?_⟩
    · rw [Peak_canon rest p e.1 e.2 hfit]
    · rw [Peak_canon rest p e.1 e.2 hfit]
      simp only
      rw [hpop]
    · rw [hpop]
    · rw [PeakHeader_canon rest p e.1 e.2 hfit]

/-- C11 at the stack holding the single entry ([1], [2]). -/
theorem C11_peek_agrees_with_pop_witness :
    Reachable [([1], [2])] pushedOnce.1 pushedOnce.2 ∧ 0 < pushedOnce.1.depth ∧
    pushedOnce.2.faults = [] ∧
    ∃ e rest, [(([1] : List Byte), ([2] : List Byte))] = e :: rest ∧
      (pushedOnce.1.Peak pushedOnce.2).1 = (e.1, e.2, none) ∧
      ((pushedOnce.1.Peak pushedOnce.2).2.1.Pop (pushedOnce.1.Peak pushedOnce.2).2.2).1 =
        (e.1, e.2, none) ∧
      (pushedOnce.1.Pop pushedOnce.2).1 = (e.1, e.2, none) ∧
      (pushedOnce.1.PeakHeader pushedOnce.2).1 = (e.1, none) :=
  ⟨Reachable_pushedOnce, by decide!, by decide!,
    C11_peek_agrees_with_pop [([1], [2])] pushedOnce.1 pushedOnce.2 Reachable_pushedOnce
      (by decide!) (by decide!)⟩

/-- C12. Push returns the new depth: for every stack state, file and failure schedule and
every header and body (either may be empty), a Push that returns a nil error returns the
depth plus one as a Go int, Depth() afterwards equals the returned value, the returned value
is exactly depth + 1 for every depth below the largest int, and in a state reached from a
fresh stack with n pushes not yet popped it is n + 1 (so the i-th push onto a fresh stack
returns i). -/
theorem C12_push_returns_depth (s : Stack) (h b : List Byte) (fs : FileSys) (d : Int)
    (s1 : Stack) (fs1 : FileSys) (hp : s.Push h b fs = ((d, none), s1, fs1)) :
    d = toInt64 (s.depth + 1) ∧ s1.Depth = d ∧
    (-9223372036854775808 ≤ s.depth → s.depth < 9223372036854775807 → d = s.depth + 1) ∧
    (∀ st, Reachable st s fs → s.depth = (st.length : Int) ∧ d = (st.length : Int) + 1) := by
  obtain ⟨q, hq, hle, hd, hd1, _⟩ := Push_inv _ _ _ _ _ _ _ hp
  refine ⟨hd, hd1, ?_, ?_⟩
  · intro h1 h2
    rw [hd, toInt64_of_range _ (by omega) (by omega)]
  · intro st hr
    obtain ⟨p, hs, _, hfit⟩ := Reachable_canon st s fs hr
    have hlen := length_le_blocksSize st
    have hmax : maxOffset = 9223372036854775807 := rfl
    subst hs
    have hn : (canonStack st p).currentBlock.NextBlockPoint = (blocksSize st : Int) :=
      NextBlockPoint_tailBlock st hfit
    rw [hn] at hq
    have h40 : fileBlockDefineSize = 40 := rfl
    refine ⟨rfl, ?_⟩
    rw [hd]
    simp only [canonStack]
    rw [toInt64_of_range _ (by omega) (by omega)]

/-- C12 at the first push onto a fresh stack, with an empty header. -/
theorem C12_push_returns_depth_witness :
    freshStack.Push [] [7] ⟨[], []⟩ =
      ((1, none), (freshStack.Push [] [7] ⟨[], []⟩).2.1, (freshStack.Push [] [7] ⟨[], []⟩).2.2) ∧
    (1 : Int) = toInt64 (freshStack.depth + 1) ∧
    (freshStack.Push [] [7] ⟨[], []⟩).2.1.Depth = 1 :=
  ⟨by decide!,
    (C12_push_returns_depth freshStack [] [7] ⟨[], []⟩ 1 (freshStack.Push [] [7] ⟨[], []⟩).2.1
      (freshStack.Push [] [7] ⟨[], []⟩).2.2 (by decide!)).1,
    (C12_push_returns_depth freshStack [] [7] ⟨[], []⟩ 1 (freshStack.Push [] [7] ⟨[], []⟩).2.1
      (freshStack.Push [] [7] ⟨[], []⟩).2.2 (by decide!)).2.1⟩

/-- C16. File-length invariant: in every state reached from a freshly created stack by any
interleaving of successful Push, Pop, Peak and PeakHeader calls, the depth is not negative,
the file length equals the cached tail descriptor's bodyOffset + bodySize when depth > 0,
and equals 0 when depth = 0. -/
theorem C16_file_length (st : List Entry) (s : Stack) (fs : FileSys)
    (hr : Reachable st s fs) :
    0 ≤ s.depth ∧
    (0 < s.depth → fs.bytes.length = s.currentBlock.DataPoint + s.currentBlock.DataSize) ∧
    (s.depth = 0 → fs.bytes.length = 0) := by
  obtain ⟨p, hs, hb, hfit⟩ := Reachable_canon st s fs hr
  subst hs
  rw [hb, layout_length]
  cases st with
  | nil => exact ⟨Int.le_refl 0, fun _ => rfl, fun _ => rfl⟩
  | cons e rest =>
    have hsz := blocksSize_cons e rest
    have hd : (canonStack (e :: rest) p).depth = ((rest.length + 1 : Nat) : Int) := rfl
    have h1 : (canonStack (e :: rest) p).currentBlock.DataPoint =
        blocksSize rest + fileBlockDefineSize + e.1.length := rfl
    have h2 : (canonStack (e :: rest) p).currentBlock.DataSize = e.2.length := rfl
    rw [hd, h1, h2, hsz]
    exact ⟨by omega, fun _ => rfl, fun h0 => by omega⟩

/-- C16 at the stack holding the single entry ([1], [2]), a file of 42 bytes. -/
theorem C16_file_length_witness :
    Reachable [([1], [2])] pushedOnce.1 pushedOnce.2 ∧ 0 < pushedOnce.1.depth ∧
    pushedOnce.2.bytes.length = 42 ∧
    pushedOnce.2.bytes.length =
      pushedOnce.1.currentBlock.DataPoint + pushedOnce.1.currentBlock.DataSize :=
  ⟨Reachable_pushedOnce, by decide!, by decide!,
    (C16_file_length [([1], [2])] pushedOnce.1 pushedOnce.2 Reachable_pushedOnce).2.1
      (by decide!)⟩

/-- C18. Descriptor invariants: in every state reached from a fresh stack by successful
calls, the file is exactly the sequence of the blocks of the pushes not yet popped, and the
descriptor decoded at the offset of each block satisfies bodyOffset = headerOffset +
headerSize and headerOffset = own offset + 40; the earliest block (at file offset 0) has
prevBlockOffset equal to its own offset, every other block has prevBlockOffset strictly
less than its own offset. -/
theorem C18_descriptor_invariants (st : List Entry) (s : Stack) (fs : FileSys)
    (hr : Reachable st s fs) :
    fs.bytes = layout st ∧
    ∀ front e back, st = front ++ e :: back →
      ((layout st).drop (blocksSize back)).take fileBlockDefineSize =
        encodeBlock (tailBlock (e :: back)) ∧
      decodeBlock ((fs.bytes.drop (blocksSize back)).take fileBlockDefineSize) =
        tailBlock (e :: back) ∧
      (tailBlock (e :: back)).DataPoint =
        (tailBlock (e :: back)).HeaderPoint + (tailBlock (e :: back)).HeaderSize ∧
      (tailBlock (e :: back)).HeaderPoint = blocksSize back + fileBlockDefineSize ∧
      (back = [] → blocksSize back = 0 ∧ (tailBlock (e :: back)).PrevBlock = blocksSize back) ∧
      (back ≠ [] → (tailBlock (e :: back)).PrevBlock < blocksSize back) := by
  obtain ⟨p, _, hb, hfit⟩ := Reachable_canon st s fs hr
  refine ⟨hb, ?_⟩
  intro front e back hst
  subst hst
  obtain ⟨z, hz⟩ := layout_append front (e :: back)
  have hfit1 : blocksSize (e :: back) ≤ maxOffset := by
    rw [blocksSize_append] at hfit
    omega
  have hsl : ((layout (front ++ e :: back)).drop (blocksSize back)).take fileBlockDefineSize =
      encodeBlock (tailBlock (e :: back)) :=
    slice_eq _ (layout back) (encodeBlock (tailBlock (e :: back))) (e.1 ++ e.2 ++ z) _ _
      (by rw [hz]; simp only [layout, List.append_assoc]) (layout_length back).symm
      (by rw [encodeBlock_length]; rfl)
  refine ⟨hsl, ?_, rfl, rfl, ?_, ?_⟩
  · rw [hb, hsl, decodeBlock_encodeBlock _ (tailBlock_valid _ hfit1)]
  · intro h0
    subst h0
    exact ⟨rfl, rfl⟩
  · intro hne
    obtain ⟨e2, rest, rfl⟩ := List.exists_cons_of_ne_nil hne
    rw [tailBlock_cons]
    exact tailPos_lt_of_cons e2 rest

/-- C18 at the stack holding the single entry ([1], [2]), whose block is the earliest. -/
theorem C18_descriptor_invariants_witness :
    Reachable [([1], [2])] pushedOnce.1 pushedOnce.2 ∧
    decodeBlock ((pushedOnce.2.bytes.drop (blocksSize [])).take fileBlockDefineSize) =
      tailBlock [([1], [2])] :=
  ⟨Reachable_pushedOnce,
    ((C18_descriptor_invariants [([1], [2])] pushedOnce.1 pushedOnce.2
      Reachable_pushedOnce).2 [] ([1], [2]) [] rfl).2.1⟩

/-! ### Failing calls (C14, C15) -/

/-- C14. Pop is atomic on failure: on a non-empty stack, for every state, file and failure
schedule, (1) whenever Pop returns a non-nil error it returns nil slices and leaves depth,
tail offset and cached tail descriptor unchanged, and the file bytes too (a truncation that
fails leaves the file as it was); (2) if the header read returns an error, or the header
read succeeds and the body read returns an error, or both succeed and the read of the
previous descriptor returns an error, or these succeed and the truncation returns an error
(whatever the error: a short read reported as io.EOF, a bad offset, a closed handle, an
injected failure), then Pop returns a non-nil error; (3) on an open handle a failure
injected into any system call of the Pop (the first `popCalls` schedule entries) makes Pop
return a non-nil error. -/
theorem C14_pop_atomic (s : Stack) (fs : FileSys) (hd : s.depth ≠ 0) :
    ((s.Pop fs).1.2.2 ≠ none →
      (s.Pop fs).1.1 = [] ∧ (s.Pop fs).1.2.1 = [] ∧ (s.Pop fs).2.1.depth = s.depth ∧
      (s.Pop fs).2.1.currentBlockPos = s.currentBlockPos ∧
      (s.Pop fs).2.1.currentBlock = s.currentBlock ∧ (s.Pop fs).2.2.bytes = fs.bytes) ∧
    (∀ f i n, s.file = some f → i < popCalls s → fs.faults[i]? = some (Fault.fail n) →
      (s.Pop fs).1.2.2 ≠ none) ∧
    (∀ f, (s.getFile fs).1.1 = some f →
      (∀ x e fs2,
        f.ReadAt s.currentBlock.HeaderSize (int64 s.currentBlock.HeaderPoint)
          (s.getFile fs).2.2 = ((x, some e), fs2) →
        (s.Pop fs).1.2.2 ≠ none) ∧
      (∀ x fs2 y e fs3,
        f.ReadAt s.currentBlock.HeaderSize (int64 s.currentBlock.HeaderPoint)
          (s.getFile fs).2.2 = ((x, none), fs2) →
        f.ReadAt s.currentBlock.DataSize (int64 s.currentBlock.DataPoint) fs2 =
          ((y, some e), fs3) →
        (s.Pop fs).1.2.2 ≠ none) ∧
      (∀ x fs2 y fs3 blk e f1 fs4,
        f.ReadAt s.currentBlock.HeaderSize (int64 s.currentBlock.HeaderPoint)
          (s.getFile fs).2.2 = ((x, none), fs2) →
        f.ReadAt s.currentBlock.DataSize (int64 s.currentBlock.DataPoint) fs2 =
          ((y, none), fs3) →
        s.currentBlockPos ≠ 0 →
        readBlockAt f (int64 s.currentBlock.PrevBlock) fs3 = ((blk, some e), f1, fs4) →
        (s.Pop fs).1.2.2 ≠ none) ∧
      (∀ x fs2 y fs3 blk f1 fs4 e fs5,
        f.ReadAt s.currentBlock.HeaderSize (int64 s.currentBlock.HeaderPoint)
          (s.getFile fs).2.2 = ((x, none), fs2) →
        f.ReadAt s.currentBlock.DataSize (int64 s.currentBlock.DataPoint) fs2 =
          ((y, none), fs3) →
        (if s.currentBlockPos ≠ 0 then readBlockAt f (int64 s.currentBlock.PrevBlock) fs3
          else ((fileBlock.zero, none), f, fs3)) = ((blk, none), f1, fs4) →
        f1.Truncate s.currentBlockPos fs4 = (some e, fs5) →
        (s.Pop fs).1.2.2 ≠ none)) := by
  refine ⟨?_, ?_, ?_⟩
  · intro he
    rcases Pop_err s fs with h0 | h1
    · exact absurd h0 he
    · exact h1
  · intro f i n hf hi hfail hnone
    have hp : s.Pop fs = (((s.Pop fs).1.1, (s.Pop fs).1.2.1, none), (s.Pop fs).2.1,
        (s.Pop fs).2.2) := by
      rw [← hnone]
    exact (Pop_uses s fs _ _ _ _ f hf hd hp).2 i hi n hfail
  · intro f hg
    exact Pop_step_errors s fs f hd hg

/-- C14 at the stack holding the single entry ([1], [2]) when the header read fails by an
injected failure, and at the stack opened on `danglingBlockFile`, whose body read is short
(two bytes of five) and reports io.EOF: both Pops return an error and change nothing. -/
theorem C14_pop_atomic_witness :
    pushedOnce.1.depth ≠ 0 ∧
    (pushedOnce.1.Pop ⟨pushedOnce.2.bytes, [Fault.fail 0]⟩).1.2.2 ≠ none ∧
    (pushedOnce.1.Pop ⟨pushedOnce.2.bytes, [Fault.fail 0]⟩).2.1.depth = pushedOnce.1.depth ∧
    (pushedOnce.1.Pop ⟨pushedOnce.2.bytes, [Fault.fail 0]⟩).2.2.bytes = pushedOnce.2.bytes ∧
    danglingStack.depth ≠ 0 ∧
    (danglingStack.getFile ⟨danglingBlockFile, []⟩).1.1 = some ⟨false, 42⟩ ∧
    OsFile.ReadAt ⟨false, 42⟩ danglingStack.currentBlock.DataSize
      (int64 danglingStack.currentBlock.DataPoint) ⟨danglingBlockFile, []⟩ =
        (([1, 2], some Errno.EOF), ⟨danglingBlockFile, []⟩) ∧
    (danglingStack.Pop ⟨danglingBlockFile, []⟩).1.2.2 ≠ none ∧
    (danglingStack.Pop ⟨danglingBlockFile, []⟩).2.1.depth = danglingStack.depth ∧
    (danglingStack.Pop ⟨danglingBlockFile, []⟩).2.2.bytes = danglingBlockFile :=
  ⟨by decide!,
    (C14_pop_atomic pushedOnce.1 ⟨pushedOnce.2.bytes, [Fault.fail 0]⟩ (by decide!)).2.1
      ⟨false, 42⟩ 0 0 (by decide!) (by decide!) rfl,
    ((C14_pop_atomic pushedOnce.1 ⟨pushedOnce.2.bytes, [Fault.fail 0]⟩ (by decide!)).1
      (by decide!)).2.2.1,
    ((C14_pop_atomic pushedOnce.1 ⟨pushedOnce.2.bytes, [Fault.fail 0]⟩ (by decide!)).1
      (by decide!)).2.2.2.2.2,
    by decide!, by decide!, by decide!,
    ((C14_pop_atomic danglingStack ⟨danglingBlockFile, []⟩ (by decide!)).2.2 ⟨false, 42⟩
      (by decide!)).2.1 [] ⟨danglingBlockFile, []⟩ [1, 2] Errno.EOF ⟨danglingBlockFile, []⟩
      (by decide!) (by decide!),
    ((C14_pop_atomic danglingStack ⟨danglingBlockFile, []⟩ (by decide!)).1
      (by decide!)).2.2.1,
    ((C14_pop_atomic danglingStack ⟨danglingBlockFile, []⟩ (by decide!)).1
      (by decide!)).2.2.2.2.2⟩

/-- C15. Push is atomic on failure in memory: whenever Push returns a non-nil error (for
every state, file and failure schedule, whichever step failed) it returns -1 and leaves
depth, tail offset and cached tail descriptor exactly as before the call; and on an open
handle a failure injected into the seek, the descriptor write, the header write or the body
write (schedule entries 0 to 3) makes Push return a non-nil error. -/
theorem C15_push_atomic (s : Stack) (h b : List Byte) (fs : FileSys) :
    ((s.Push h b fs).1.2 ≠ none →
      (s.Push h b fs).1.1 = -1 ∧ (s.Push h b fs).2.1.depth = s.depth ∧
      (s.Push h b fs).2.1.currentBlockPos = s.currentBlockPos ∧
      (s.Push h b fs).2.1.currentBlock = s.currentBlock) ∧
    (∀ f i n, s.file = some f → i < 4 → fs.faults[i]? = some (Fault.fail n) →
      (s.Push h b fs).1.2 ≠ none) := by
  refine ⟨?_, ?_⟩
  · intro he
    rcases Push_err s h b fs with h0 | h1
    · exact absurd h0 he
    · exact h1
  · intro f i n hf hi hfail hnone
    have hp : s.Push h b fs = (((s.Push h b fs).1.1, none), (s.Push h b fs).2.1,
        (s.Push h b fs).2.2) := by
      rw [← hnone]
    exact (Push_uses s h b fs _ _ _ f hf hp).2 i hi n hfail

/-- C15 at a Push onto the fresh stack whose header write fails: the state is kept while
the file has gained the 40 bytes of the descriptor. -/
theorem C15_push_atomic_witness :
    (freshStack.Push [1] [2] ⟨[], [Fault.pass, Fault.pass, Fault.fail 0]⟩).1.2 ≠ none ∧
    (freshStack.Push [1] [2] ⟨[], [Fault.pass, Fault.pass, Fault.fail 0]⟩).1.1 = -1 ∧
    (freshStack.Push [1] [2] ⟨[], [Fault.pass, Fault.pass, Fault.fail 0]⟩).2.1.depth =
      freshStack.depth ∧
    (freshStack.Push [1] [2] ⟨[], [Fault.pass, Fault.pass, Fault.fail 0]⟩).2.2.bytes.length =
      40 :=
  ⟨(C15_push_atomic freshStack [1] [2] ⟨[], [Fault.pass, Fault.pass, Fault.fail 0]⟩).2
      ⟨false, 0⟩ 2 0 rfl (by decide) rfl,
    ((C15_push_atomic freshStack [1] [2] ⟨[], [Fault.pass, Fault.pass, Fault.fail 0]⟩).1
      (by decide!)).1,
    ((C15_push_atomic freshStack [1] [2] ⟨[], [Fault.pass, Fault.pass, Fault.fail 0]⟩).1
      (by decide!)).2.1,
    by decide!⟩

/-! ### Termination of the repair (C13) -/

/-- C13 fails on a file of forty zero bytes, a descriptor whose bodyOffset + bodySize is its
own offset 0: the loop of IterateForward with no callback reads that descriptor again in
every round, so for every bound on the number of rounds the call has not returned; neither
have Repare and OpenStack, which run it. -/
theorem C13_repair_loops_forever (fuel : Nat) :
    freshStack.IterateForward fuel none ⟨zeroBlockFile, []⟩ = none ∧
    freshStack.Repare fuel ⟨zeroBlockFile, []⟩ = none ∧
    OpenStack fuel ⟨zeroBlockFile, []⟩ = none ∧
    (fileBlock.zero.NextBlockPoint < (zeroBlockFile.length : Int) ∧
      (readBlockAt ⟨false, 0⟩ fileBlock.zero.NextBlockPoint ⟨zeroBlockFile, []⟩).1 =
        (fileBlock.zero, none)) := by
  have h1 := IterateForward_zeroBlockFile freshStack 0 fuel rfl
  refine ⟨h1, h1, ?_, by decide, ?_⟩
  · have ho : OpenFile false ⟨zeroBlockFile, []⟩ = ((some ⟨false, 0⟩, none), ⟨zeroBlockFile, []⟩) :=
      rfl
    unfold OpenStack NewStack Stack.Repare
    rw [ho]
    simp only
    rw [IterateForward_zeroBlockFile _ 0 fuel rfl]
  · have hn : fileBlock.zero.NextBlockPoint = 0 := by decide
    rw [hn, readBlockAt_zeroBlockFile]

/-! ### Layout of a push (C17) -/

/-- C17. On-disk layout of a push: in every state reached from a fresh stack by successful
calls (each satisfies the file-length invariant), the append offset p (the tail's bodyOffset
+ bodySize, or 0 if empty) is the file length, and a successful Push(header, body) leaves
the first p bytes of the file unchanged and appends exactly 40 + len(header) + len(body)
bytes: the 40-byte descriptor {prev = old tail offset, headerOffset = p + 40, headerSize =
len(header), bodyOffset = p + 40 + len(header), bodySize = len(body)}, then the header
bytes, then the body bytes; that descriptor and p become the cached tail. -/
theorem C17_push_layout (st : List Entry) (s : Stack) (fs : FileSys) (h b : List Byte)
    (d : Int) (s1 : Stack) (fs1 : FileSys) (hr : Reachable st s fs)
    (hp : s.Push h b fs = ((d, none), s1, fs1)) :
    (if 0 < s.depth then s.currentBlock.DataPoint + s.currentBlock.DataSize else 0) =
      fs.bytes.length ∧
    (s.currentBlockPos.toNat : Int) = s.currentBlockPos ∧
    fs1.bytes = fs.bytes ++
      encodeBlock ⟨s.currentBlockPos.toNat, fs.bytes.length + 40, h.length,
        fs.bytes.length + 40 + h.length, b.length⟩ ++ h ++ b ∧
    fs1.bytes.take fs.bytes.length = fs.bytes ∧
    fs1.bytes.length = fs.bytes.length + (40 + h.length + b.length) ∧
    s1.currentBlock = ⟨s.currentBlockPos.toNat, fs.bytes.length + 40, h.length,
        fs.bytes.length + 40 + h.length, b.length⟩ ∧
    s1.currentBlockPos = (fs.bytes.length : Int) := by
  obtain ⟨hd0, hpos, hzero⟩ : 0 ≤ s.depth ∧
      (0 < s.depth →
        fs.bytes.length = s.currentBlock.DataPoint + s.currentBlock.DataSize) ∧
      (s.depth = 0 →
        fs.bytes.length = 0 ∧ s.currentBlock.DataPoint + s.currentBlock.DataSize = 0) := by
    obtain ⟨p, hs, hb, _⟩ := Reachable_canon st s fs hr
    subst hs
    rw [hb, layout_length]
    cases st with
    | nil => exact ⟨Int.le_refl 0, fun _ => rfl, fun _ => ⟨rfl, rfl⟩⟩
    | cons e rest =>
      have hsz := blocksSize_cons e rest
      have hd : (canonStack (e :: rest) p).depth = ((rest.length + 1 : Nat) : Int) := rfl
      have h1 : (canonStack (e :: rest) p).currentBlock.DataPoint =
          blocksSize rest + fileBlockDefineSize + e.1.length := rfl
      have h2 : (canonStack (e :: rest) p).currentBlock.DataSize = e.2.length := rfl
      rw [hd, h1, h2, hsz]
      exact ⟨by omega, fun _ => rfl, fun h0 => by omega⟩
  obtain ⟨p, hs, hb, hfit⟩ := Reachable_canon st s fs hr
  have hmax : fs.bytes.length ≤ maxOffset := by
    rw [hb, layout_length]
    exact hfit
  have hprev : toUint64 s.currentBlockPos = s.currentBlockPos.toNat ∧
      (s.currentBlockPos.toNat : Int) = s.currentBlockPos := by
    subst hs
    have hpos2 := tailPos_le st
    have hc : (canonStack st p).currentBlockPos = ((tailPos st : Nat) : Int) := rfl
    rw [hc, toUint64_natCast _ (by omega)]
    exact ⟨by simp, by simp⟩
  obtain ⟨g1, g2, g3, g4, g5⟩ :=
    Push_layout_of_length s h b fs d s1 fs1 hd0 hpos hzero hmax hp
  rw [hprev.1] at g1 g4
  refine ⟨?_, hprev.2, g1, g2, g3, g4, g5⟩
  by_cases hdp : 0 < s.depth
  · rw [if_pos hdp, hpos hdp]
  · rw [if_neg hdp]
    exact (hzero (by omega)).1.symm

/-- C17 at the second push, onto the stack holding ([1], [2]) in a file of 42 bytes. -/
theorem C17_push_layout_witness :
    Reachable [([1], [2])] pushedOnce.1 pushedOnce.2 ∧
    (pushedOnce.1.Push [3] [4, 5] pushedOnce.2).1 = (2, none) ∧
    pushedOnce.2.bytes.length = 42 ∧
    (pushedOnce.1.Push [3] [4, 5] pushedOnce.2).2.2.bytes = pushedOnce.2.bytes ++
      encodeBlock ⟨pushedOnce.1.currentBlockPos.toNat, pushedOnce.2.bytes.length + 40,
        1, pushedOnce.2.bytes.length + 40 + 1, 2⟩ ++ [3] ++ [4, 5] :=
  ⟨Reachable_pushedOnce, by decide!, by decide!,
    (C17_push_layout [([1], [2])] pushedOnce.1 pushedOnce.2 [3] [4, 5] 2
      (pushedOnce.1.Push [3] [4, 5] pushedOnce.2).2.1
      (pushedOnce.1.Push [3] [4, 5] pushedOnce.2).2.2 Reachable_pushedOnce
      (by decide!)).2.2.1⟩

/-! ### Block codec (C19) -/

/-- C19. Block codec round trip: the encoding of a descriptor is its five fields
prevBlockOffset, headerOffset, headerSize, bodyOffset, bodySize in that order, each as 8
little-endian bytes, 40 bytes with no padding; on an open handle with no failure scheduled
writeTo at an offset whose 40 bytes fit a file returns nil; whenever writeTo(o, d) returns
nil, o is not negative, the 40 bytes [o, o+40) of the file are that encoding, every byte the
file had outside that range is unchanged (a gap between the old end and o reads as zeros),
and a following readBlockAt(o) that meets no failure returns d with no error; readBlockAt at
an offset with fewer than 40 bytes remaining returns an error and the zero descriptor. -/
theorem C19_codec_round_trip (d : fileBlock) (hv : d.Valid) :
    encodeBlock d = PutUint64 d.PrevBlock ++ PutUint64 d.HeaderPoint ++
      PutUint64 d.HeaderSize ++ PutUint64 d.DataPoint ++ PutUint64 d.DataSize ∧
    (encodeBlock d).length = 40 ∧
    (∀ v i, i < 8 → (PutUint64 v)[i]? = some (byteOf (v / 256 ^ i))) ∧
    (∀ (p n : Nat) (old : List Byte), n + 40 ≤ maxOffset →
      d.writeTo ⟨false, p⟩ (n : Int) ⟨old, []⟩ =
        (none, ⟨false, n + 40⟩, ⟨writeAt old n (encodeBlock d), []⟩)) ∧
    (∀ f off fs f1 fs1, d.writeTo f off fs = (none, f1, fs1) →
      ∃ n : Nat, off = (n : Int) ∧
        (fs1.bytes.drop n).take 40 = encodeBlock d ∧
        fs1.bytes.length = max fs.bytes.length (n + 40) ∧
        (∀ i, i < fs.bytes.length → (i < n ∨ n + 40 ≤ i) → fs1.bytes[i]? = fs.bytes[i]?) ∧
        (∀ i, fs.bytes.length ≤ i → i < n → fs1.bytes[i]? = some 0) ∧
        (readBlockAt f1 off fs1.quiet).1 = (d, none)) ∧
    (∀ f off fs, (fs.bytes.length : Int) < off + 40 →
      ∃ e, (readBlockAt f off fs).1 = (fileBlock.zero, some e)) := by
  have h40 : fileBlockDefineSize = 40 := rfl
  have hne : encodeBlock d ≠ [] := by
    intro h0
    have := encodeBlock_length d
    rw [h0] at this
    simp at this
  refine ⟨rfl, rfl, PutUint64_getElem, ?_, ?_, ?_⟩
  · intro p n old hn
    exact writeTo_ok d p n old (by omega)
  · intro f off fs f1 fs1 hw
    obtain ⟨n, hoff, _, hf1, hb⟩ := writeTo_inv d f off fs f1 fs1 hw
    subst hoff hf1
    have hsl := writeAt_slice fs.bytes (encodeBlock d) n hne
    have hl := writeAt_length fs.bytes (encodeBlock d) n hne
    rw [encodeBlock_length] at hsl hl
    refine ⟨n, rfl, by rw [hb, hsl], by rw [hb, hl], ?_, ?_, ?_⟩
    · intro i hi hout
      rw [hb]
      rcases hout with h1 | h2
      · exact writeAt_before _ _ _ _ h1 hi
      · exact writeAt_after _ _ _ _ (by rw [encodeBlock_length]; exact h2)
    · intro i hi hin
      rw [hb]
      exact writeAt_gap _ _ _ _ hne hin hi
    · simp only [FileSys.quiet]
      rw [hb, readBlockAt_written d _ n fs.bytes hv]
  · intro f off fs hshort
    exact readBlockAt_too_short f off fs (by omega)

/-- C19 at the descriptor of the block of ([1], [2]), written at offset 3 of a file of five
bytes. -/
theorem C19_codec_round_trip_witness :
    (⟨0, 40, 1, 41, 1⟩ : fileBlock).Valid ∧
    fileBlock.writeTo ⟨0, 40, 1, 41, 1⟩ ⟨false, 0⟩ ((3 : Nat) : Int) ⟨[9, 9, 9, 9, 9], []⟩ =
      (none, ⟨false, 3 + 40⟩,
        ⟨writeAt [9, 9, 9, 9, 9] 3 (encodeBlock ⟨0, 40, 1, 41, 1⟩), []⟩) :=
  ⟨by simp [fileBlock.Valid],
    (C19_codec_round_trip ⟨0, 40, 1, 41, 1⟩ (by simp [fileBlock.Valid])).2.2.2.1 0 3
      [9, 9, 9, 9, 9] (by decide)⟩

/-! ### Repair of the back references (C20) -/

/-- C20. Back-pointer repair: for every file that is a contiguous sequence of K complete
blocks whose descriptors carry correct header and body offsets and sizes but arbitrary
prevBlockOffset values, the repair pass (Repare on a stack with an open handle, and
OpenStack) given at least K rounds returns no error, commits depth K, and leaves the file
made of the same blocks with each prevBlockOffset equal to the offset of the block visited
just before it (0 for the first block), every other byte and the length unchanged; a second
repair pass returns no error, logs nothing and leaves the file and the stack as they are. -/
theorem C20_back_pointer_repair (bs : List (Nat × Entry)) (s0 : Stack) (p fuel : Nat)
    (hs : s0.file = some ⟨false, p⟩) (hpv : ∀ x ∈ bs, x.1 < 18446744073709551616)
    (hfit : blocksSize (bs.map Prod.snd) ≤ maxOffset) (hfuel : bs.length ≤ fuel) :
    ∃ r, s0.Repare fuel ⟨rawLayout 0 bs, []⟩ = some r ∧ r.err = none ∧
      r.stack.depth = (bs.length : Int) ∧
      r.fs = ⟨rawLayout 0 (fixedPrev 0 0 bs), []⟩ ∧
      (fixedPrev 0 0 bs).map Prod.snd = bs.map Prod.snd ∧
      (rawLayout 0 (fixedPrev 0 0 bs)).length = (rawLayout 0 bs).length ∧
      OpenStack fuel ⟨rawLayout 0 bs, []⟩ = some ((some r.stack, none), r.fs) ∧
      ∃ r2, r.stack.Repare fuel r.fs = some r2 ∧ r2.err = none ∧ r2.logs = [] ∧
        r2.fs = r.fs ∧ r2.stack = r.stack := by
  have hfix : rawLayout 0 (fixedPrev 0 0 bs) = layout (bs.map Prod.snd).reverse := by
    have := rawLayout_fixedPrev bs []
    simp only [layout, List.nil_append, List.append_nil] at this
    exact this
  have hrev := blocksSize_reverse (bs.map Prod.snd)
  have hfit2 : blocksSize (bs.map Prod.snd).reverse ≤ maxOffset := by omega
  have hlen : (bs.map Prod.snd).reverse.length = bs.length := by
    rw [List.length_reverse, List.length_map]
  obtain ⟨logs, h1⟩ := IterateForward_fix bs s0 p fuel hs hpv hfit hfuel
  have ho : OpenFile false ⟨rawLayout 0 bs, []⟩ = ((some ⟨false, 0⟩, none), ⟨rawLayout 0 bs, []⟩) :=
    rfl
  obtain ⟨logs0, h0⟩ := IterateForward_fix bs ⟨0, fileBlock.zero, 0, some ⟨false, 0⟩⟩ 0 fuel rfl
    hpv hfit hfuel
  have h2 := IterateForward_canon none handlerStops_none (bs.map Prod.snd).reverse
    (canonStack (bs.map Prod.snd).reverse (blocksSize (bs.map Prod.snd).reverse))
    (blocksSize (bs.map Prod.snd).reverse) fuel rfl hfit2 (by rw [hlen]; exact hfuel)
  refine ⟨_, h1, rfl, ?_, ?_, fixedPrev_entries bs 0 0, ?_, ?_, ?_⟩
  · simp only [canonStack, hlen]
  · simp only [canonFs, hfix]
  · rw [rawLayout_length, rawLayout_length, fixedPrev_entries]
  · unfold OpenStack NewStack Stack.Repare
    rw [ho]
    simp only
    rw [h0]
  · refine ⟨_, h2, rfl, rfl, rfl, rfl⟩

/-- C20 at two blocks whose prevBlockOffset values are both wrong. -/
theorem C20_back_pointer_repair_witness :
    freshStack.file = some ⟨false, 0⟩ ∧
    (∀ x ∈ staleBlocks, x.1 < 18446744073709551616) ∧
    blocksSize (staleBlocks.map Prod.snd) ≤ maxOffset ∧ staleBlocks.length ≤ 2 ∧
    ∃ r, freshStack.Repare 2 ⟨rawLayout 0 staleBlocks, []⟩ = some r ∧ r.err = none ∧
      r.stack.depth = (staleBlocks.length : Int) ∧
      r.fs = ⟨rawLayout 0 (fixedPrev 0 0 staleBlocks), []⟩ ∧
      (fixedPrev 0 0 staleBlocks).map Prod.snd = staleBlocks.map Prod.snd ∧
      (rawLayout 0 (fixedPrev 0 0 staleBlocks)).length = (rawLayout 0 staleBlocks).length ∧
      OpenStack 2 ⟨rawLayout 0 staleBlocks, []⟩ = some ((some r.stack, none), r.fs) ∧
      ∃ r2, r.stack.Repare 2 r.fs = some r2 ∧ r2.err = none ∧ r2.logs = [] ∧
        r2.fs = r.fs ∧ r2.stack = r.stack :=
  ⟨rfl, by decide, by decide, by decide,
    C20_back_pointer_repair staleBlocks freshStack 0 2 rfl (by decide) (by decide) (by decide)⟩

/-! ### Indices the iterators pass (C23) -/

/-- C23. Index numbering differs between the iterators: on the stack K pushes onto a fresh
stack built, with a handler that always returns true and at least K rounds, IterateForward
passes the indices 0, 1, ..., K-1 in push order and IterateBackward passes K, K-1, ..., 1
(tail first); the i-th block pushed is the i-th call of IterateForward and the call number
K-1-i of IterateBackward, both with its header and body, and the index IterateBackward
passes is the IterateForward index plus 1. -/
theorem C23_index_numbering (pairs : List Entry) (c : List Byte) (fuel0 fuel : Nat)
    (f : Int → List Byte → List Byte → Bool) (hf : ∀ d hd bd, f d hd bd = true)
    (hfit : blocksSize pairs ≤ maxOffset) (hfuel : pairs.length ≤ fuel) :
    ∃ s0 fs0, CreateStack fuel0 ⟨c, []⟩ = some ((some s0, none), fs0) ∧
      ∃ rf rb,
        (pushAll pairs s0 fs0).2.1.IterateForward fuel (some f) (pushAll pairs s0 fs0).2.2 =
          some rf ∧
        (pushAll pairs s0 fs0).2.1.IterateBackward fuel (some f) (pushAll pairs s0 fs0).2.2 =
          some rb ∧
        rf.calls.map Call.depth = (List.range pairs.length).map (fun (i : Nat) => (i : Int)) ∧
        rb.calls.map Call.depth =
          ((List.range pairs.length).map (fun (i : Nat) => ((i : Int) + 1))).reverse ∧
        ∀ i e, pairs[i]? = some e →
          rf.calls[i]? = some ⟨(i : Int), e.1, e.2⟩ ∧
          rb.calls[pairs.length - 1 - i]? = some ⟨(i : Int) + 1, e.1, e.2⟩ := by
  have hfit1 : blocksSize (pairs.reverse ++ []) ≤ maxOffset := by
    rw [List.append_nil, blocksSize_reverse]
    exact hfit
  obtain ⟨q, hq⟩ := pushAll_canon pairs [] 0 hfit1
  have hit := IterateForward_canon (some f) (handlerStops_true f hf) (pairs.reverse ++ [])
    (canonStack (pairs.reverse ++ []) q) q fuel rfl hfit1 (by simpa using hfuel)
  obtain ⟨q1, hib⟩ := IterateBackward_canon (some f) (handlerStops_true f hf)
    (pairs.reverse ++ []) q fuel hfit1 (by simpa using hfuel)
  refine ⟨canonStack [] 0, canonFs [], CreateStack_fresh c fuel0, ?_⟩
  rw [hq]
  simp only
  refine ⟨_, _, hit, hib, ?_, ?_, ?_⟩
  · simp only [List.append_nil, List.reverse_reverse, recordFrom_some, List.nil_append,
      callsFrom_depths, Nat.zero_add]
  · simp only [List.append_nil, List.reverse_reverse, recordBack_some, List.nil_append,
      List.map_reverse, callsFrom_depths, List.reverse_inj]
    apply List.map_congr_left
    intro i _
    omega
  · intro i e hie
    have hi : i < pairs.length := by
      rcases Nat.lt_or_ge i pairs.length with h | h
      · exact h
      · rw [List.getElem?_eq_none h] at hie
        simp at hie
    simp only [List.append_nil, List.reverse_reverse, recordFrom_some, recordBack_some,
      List.nil_append]
    refine ⟨?_, ?_⟩
    · rw [callsFrom_getElem, hie]
      simp
    · rw [List.getElem?_reverse (by rw [callsFrom_length]; omega), callsFrom_length]
      have hk : pairs.length - 1 - (pairs.length - 1 - i) = i := by omega
      rw [hk, callsFrom_getElem, hie]
      simp only [Option.map_some']
      congr 2
      omega

/-- C23 at two entries with the handler that always returns true. -/
theorem C23_index_numbering_witness :
    (∀ (d : Int) (hd bd : List Byte), (fun _ _ _ => true) d hd bd = true) ∧
    blocksSize twoEntries ≤ maxOffset ∧ twoEntries.length ≤ 2 ∧
    ∃ s0 fs0, CreateStack 0 ⟨[], []⟩ = some ((some s0, none), fs0) ∧
      ∃ rf rb,
        (pushAll twoEntries s0 fs0).2.1.IterateForward 2 (some (fun _ _ _ => true))
          (pushAll twoEntries s0 fs0).2.2 = some rf ∧
        (pushAll twoEntries s0 fs0).2.1.IterateBackward 2 (some (fun _ _ _ => true))
          (pushAll twoEntries s0 fs0).2.2 = some rb ∧
        rf.calls.map Call.depth =
          (List.range twoEntries.length).map (fun (i : Nat) => (i : Int)) ∧
        rb.calls.map Call.depth =
          ((List.range twoEntries.length).map (fun (i : Nat) => ((i : Int) + 1))).reverse ∧
        ∀ i e, twoEntries[i]? = some e →
          rf.calls[i]? = some ⟨(i : Int), e.1, e.2⟩ ∧
          rb.calls[twoEntries.length - 1 - i]? = some ⟨(i : Int) + 1, e.1, e.2⟩ :=
  ⟨fun _ _ _ => rfl, by decide, by decide,
    C23_index_numbering twoEntries [] 0 2 (fun _ _ _ => true) (fun _ _ _ => rfl) (by decide)
      (by decide)⟩

/-! ### Push followed by Pop (C22) -/

/-- C22. Push then Pop is the identity: in every state reached from a fresh stack by
successful calls, after a successful Push(header, body) a successful Pop returns exactly
(header, body) and restores the file bytes, depth, tail offset and cached tail descriptor
(re-read from disk by the Pop) to their values before the Push; and the Pop is successful
whenever no failure is scheduled for it. -/
theorem C22_push_pop_identity (st : List Entry) (s : Stack) (fs : FileSys) (h b : List Byte)
    (d : Int) (s1 : Stack) (fs1 : FileSys) (hr : Reachable st s fs)
    (hp : s.Push h b fs = ((d, none), s1, fs1)) :
    (∀ h2 b2 s2 fs2, s1.Pop fs1 = ((h2, b2, none), s2, fs2) →
      h2 = h ∧ b2 = b ∧ fs2.bytes = fs.bytes ∧ s2.depth = s.depth ∧
      s2.currentBlockPos = s.currentBlockPos ∧ s2.currentBlock = s.currentBlock) ∧
    (fs1.faults = [] → ∃ s2 fs2, s1.Pop fs1 = ((h, b, none), s2, fs2)) := by
  obtain ⟨p, hs, hb, _⟩ := Reachable_canon st s fs hr
  obtain ⟨p1, hs1, hb1, hfit1⟩ := Reachable_canon _ s1 fs1
    (Reachable.push st s fs h b d s1 fs1 hr hp)
  subst hs hs1
  obtain ⟨q, hpop⟩ := Pop_canon st p1 h b hfit1
  have hd : (canonStack ((h, b) :: st) p1).depth ≠ 0 := by
    simp only [canonStack, List.length_cons]
    omega
  refine ⟨?_, ?_⟩
  · intro h2 b2 s2 fs2 hp2
    have hq := Pop_quiet _ _ _ _ _ _ hd hp2
    rw [quiet_of_bytes fs1 _ hb1, hpop] at hq
    simp only [Prod.mk.injEq] at hq
    obtain ⟨⟨e1, e2, _⟩, e3, e4⟩ := hq
    subst e1 e2 e3
    exact ⟨rfl, rfl, by rw [bytes_of_quiet _ _ e4.symm, hb], rfl, rfl, rfl⟩
  · intro hq
    have hfs : fs1 = canonFs ((h, b) :: st) := by
      obtain ⟨c1, fl⟩ := fs1
      simp only at hb1 hq
      subst hb1 hq
      rfl
    rw [hfs, hpop]
    exact ⟨_, _, rfl⟩

/-- C22 at a Push([3], [4, 5]) onto the stack holding the single entry ([1], [2]). -/
theorem C22_push_pop_identity_witness :
    Reachable [([1], [2])] pushedOnce.1 pushedOnce.2 ∧
    (pushedOnce.1.Push [3] [4, 5] pushedOnce.2).1 = (2, none) ∧
    (pushedOnce.1.Push [3] [4, 5] pushedOnce.2).2.2.faults = [] ∧
    ∃ s2 fs2, (pushedOnce.1.Push [3] [4, 5] pushedOnce.2).2.1.Pop
        (pushedOnce.1.Push [3] [4, 5] pushedOnce.2).2.2 = (([3], [4, 5], none), s2, fs2) :=
  ⟨Reachable_pushedOnce, by decide!, by decide!,
    (C22_push_pop_identity [([1], [2])] pushedOnce.1 pushedOnce.2 [3] [4, 5] 2
      (pushedOnce.1.Push [3] [4, 5] pushedOnce.2).2.1
      (pushedOnce.1.Push [3] [4, 5] pushedOnce.2).2.2 Reachable_pushedOnce (by decide!)).2
      (by decide!)⟩

/-! ### Early exit of the forward iteration (C21) -/

/-- C21. Early exit does not commit: for every stack state, file and failure schedule, a
run of IterateForward in which the callback returned false on some block returns nil and
leaves the in-memory depth, tail offset and cached tail descriptor exactly what they were
before the call; and on the stack a sequence of pushes built, a callback that returns true
on the first j blocks and false on the next one makes IterateForward return after j + 1
rounds, with nil, having been called on exactly those j + 1 blocks, with depth, tail offset,
tail descriptor and file as before. -/
theorem C21_early_exit_does_not_commit (h : Int → List Byte → List Byte → Bool) :
    (∀ (s : Stack) (fs : FileSys) (fuel : Nat) (r : IterResult),
      s.IterateForward fuel (some h) fs = some r →
      (∃ x ∈ r.calls, h x.depth x.header x.body = false) →
      r.err = none ∧ r.stack.depth = s.depth ∧
      r.stack.currentBlockPos = s.currentBlockPos ∧ r.stack.currentBlock = s.currentBlock) ∧
    (∀ (pre : List Entry) (e : Entry) (post : List Entry) (c : List Byte) (fuel0 fuel : Nat),
      blocksSize (pre ++ e :: post) ≤ maxOffset →
      (∀ x ∈ callsFrom 0 pre, h x.depth x.header x.body = true) →
      h (pre.length : Int) e.1 e.2 = false → pre.length + 1 ≤ fuel →
      ∃ s0 fs0, CreateStack fuel0 ⟨c, []⟩ = some ((some s0, none), fs0) ∧
        ∃ r, (pushAll (pre ++ e :: post) s0 fs0).2.1.IterateForward fuel (some h)
            (pushAll (pre ++ e :: post) s0 fs0).2.2 = some r ∧
          r.err = none ∧ r.calls = callsFrom 0 (pre ++ [e]) ∧
          r.stack.depth = (pushAll (pre ++ e :: post) s0 fs0).2.1.depth ∧
          r.stack.currentBlockPos = (pushAll (pre ++ e :: post) s0 fs0).2.1.currentBlockPos ∧
          r.stack.currentBlock = (pushAll (pre ++ e :: post) s0 fs0).2.1.currentBlock ∧
          r.fs = (pushAll (pre ++ e :: post) s0 fs0).2.2) := by
  refine ⟨?_, ?_⟩
  · intro s fs fuel r hrun hfalse
    exact IterateForward_early_exit s fs fuel h r hrun hfalse
  · intro pre e post c fuel0 fuel hfit htrue hfalse hfuel
    have hfit1 : blocksSize ((pre ++ e :: post).reverse ++ []) ≤ maxOffset := by
      rw [List.append_nil, blocksSize_reverse]
      exact hfit
    obtain ⟨q, hq⟩ := pushAll_canon (pre ++ e :: post) [] 0 hfit1
    rw [List.append_nil] at hq
    obtain ⟨r, hr⟩ := IterateForward_stop_canon h pre e post
      (canonStack (pre ++ e :: post).reverse q) q fuel rfl htrue hfalse hfit hfuel
    refine ⟨canonStack [] 0, canonFs [], CreateStack_fresh c fuel0, ?_⟩
    rw [hq]
    exact ⟨r, hr⟩

/-- C21 at two entries with a callback that returns true on the first block only. -/
theorem C21_early_exit_does_not_commit_witness :
    blocksSize twoEntries ≤ maxOffset ∧
    ∃ s0 fs0, CreateStack 0 ⟨[], []⟩ = some ((some s0, none), fs0) ∧
      ∃ r, (pushAll twoEntries s0 fs0).2.1.IterateForward 2
          (some (fun d _ _ => decide (d < 1))) (pushAll twoEntries s0 fs0).2.2 = some r ∧
        r.err = none ∧ r.calls = callsFrom 0 twoEntries ∧
        r.stack.depth = (pushAll twoEntries s0 fs0).2.1.depth ∧
        r.stack.currentBlockPos = (pushAll twoEntries s0 fs0).2.1.currentBlockPos ∧
        r.stack.currentBlock = (pushAll twoEntries s0 fs0).2.1.currentBlock ∧
        r.fs = (pushAll twoEntries s0 fs0).2.2 :=
  ⟨by decide,
    (C21_early_exit_does_not_commit (fun d _ _ => decide (d < 1))).2
      [([1, 2], [3, 4, 5])] ([], [7]) [] [] 0 2 (by decide) (by decide) (by decide)
      (by decide)⟩

end FileStack
